import Mathlib

/-!
Verification of the `tandem` two-party SMPC engine against its specification.

The definitions below are shallow embeddings of the Rust source:
  * `src/tandem/src/circuit.rs`  — circuit model, validation, canonical hashing
  * `src/tandem/src/types.rs`    — MAC/key/bit-share algebra
  * `src/tandem/src/ot_base.rs`  — Chou-Orlandi base OT
  * `src/tandem/src/states.rs`   — protocol state machine fragments
  * `src/tandem_http_client/src/msg_queue.rs` — the resumable message queue

Machine integers (`u32`, `u128`, `usize`) are modelled as `Nat`; wherever the
Rust code truncates (an `as u32` cast) the embedding takes `% 2^32` explicitly.
XOR on 128-bit words is `Nat.xor`, under which all values stay below `2^128`
whenever the inputs do, so no masking is needed for the XOR algebra.
-/

namespace Tandem

/-- A single gate in a circuit (`Gate` in `circuit.rs`).  Operand indices are
`u32` in Rust; they are modelled as `Nat` (Rust values are always `< 2^32`). -/
inductive Gate where
  | InContrib : Gate
  | InEval : Gate
  | Xor : Nat → Nat → Gate
  | And : Nat → Nat → Gate
  | NotG : Nat → Gate
deriving DecidableEq, Repr

/-- A circuit (`Circuit` in `circuit.rs`): a gate list plus the list of output
gate indices.  The Rust struct caches `and_gates`, `eval_inputs` and
`contrib_inputs`; these are recomputed counts of the gate list (they are set
by `Circuit::new` and never mutated), so here they are functions. -/
structure Circuit where
  gates : List Gate
  output_gates : List Nat
deriving DecidableEq, Repr

/-- The error enumeration of `lib.rs`. -/
inductive Error where
  | UnexpectedMessageType
  | InsufficientAndShares
  | UnexpectedGarbledTableShare
  | InsufficientInput
  | MacError
  | LeakyAndNotEqual
  | InvalidCircuit
  | MaxCircuitSizeExceeded
  | OtInitDeserializationError
  | OtBlockDeserializationError
  | BincodeError
  | ProtocolEnded
  | ProtocolStillInProgress
deriving DecidableEq, Repr

/-- `matches!(g, Gate::And { .. })` (`Gate::is_and`). -/
def Gate.is_and : Gate → Bool
  | .And _ _ => true
  | _ => false

/-- Count of AND gates, as computed by `Circuit::new`. -/
def Circuit.and_gates (c : Circuit) : Nat :=
  (c.gates.filter Gate.is_and).length

/-- Count of evaluator input gates, as computed by `Circuit::new`. -/
def Circuit.eval_inputs (c : Circuit) : Nat :=
  (c.gates.filter (fun g => g = Gate.InEval)).length

/-- Count of contributor input gates, as computed by `Circuit::new`. -/
def Circuit.contrib_inputs (c : Circuit) : Nat :=
  (c.gates.filter (fun g => g = Gate.InContrib)).length

/-- `MAX_GATES = (u32::MAX >> 4) as usize` in `circuit.rs`. -/
def MAX_GATES : Nat := (2 ^ 32 - 1) / 2 ^ 4

/-- `MAX_AND_GATES = (u32::MAX >> 8) as usize` in `circuit.rs`. -/
def MAX_AND_GATES : Nat := (2 ^ 32 - 1) / 2 ^ 8

/-- One iteration of the gate loop of `Circuit::validate`: whether gate `g` at
index `i` passes the acyclicity check.  In Rust the loop index is cast with
`i as u32`, hence the `% 2^32`. -/
def gateCheck (i : Nat) : Gate → Bool
  | .InContrib => true
  | .InEval => true
  | .Xor x y => decide (x < i % 2 ^ 32) && decide (y < i % 2 ^ 32)
  | .And x y => decide (x < i % 2 ^ 32) && decide (y < i % 2 ^ 32)
  | .NotG x => decide (x < i % 2 ^ 32)

/-- The gate loop of `Circuit::validate`, returning the AND-gate count on
success and `InvalidCircuit` on the first failing gate. -/
def checkGatesFrom : Nat → List Gate → Except Error Nat
  | _, [] => .ok 0
  | i, g :: gs =>
    if gateCheck i g then
      (checkGatesFrom (i + 1) gs).map (fun n => n + (if g.is_and then 1 else 0))
    else
      .error .InvalidCircuit

/-- `Circuit::validate` (`circuit.rs` lines 176-224), translated clause by
clause: the acyclicity loop (which also counts AND gates), the non-empty
output check, the output range check against `self.gates.len() as u32`, and
the two size bounds.  The Rust early returns become an `else` chain. -/
def Circuit.validate (c : Circuit) : Except Error Unit :=
  match checkGatesFrom 0 c.gates with
  | .error e => .error e
  | .ok num_and_gates =>
    if c.output_gates.isEmpty then .error .InvalidCircuit
    else if c.output_gates.any (fun o => decide (c.gates.length % 2 ^ 32 ≤ o)) then
      .error .InvalidCircuit
    else if MAX_AND_GATES < num_and_gates then .error .MaxCircuitSizeExceeded
    else if MAX_GATES < c.gates.length then .error .MaxCircuitSizeExceeded
    else .ok ()

/-- The acyclicity condition of the specification for one gate: every operand
index is strictly below the gate's own index. -/
def gateSpecOk (i : Nat) : Gate → Prop
  | .Xor x y => x < i ∧ y < i
  | .And x y => x < i ∧ y < i
  | .NotG x => x < i
  | _ => True

instance (i : Nat) (g : Gate) : Decidable (gateSpecOk i g) := by
  cases g <;> simp only [gateSpecOk] <;> infer_instance

/-- The structural conditions of the specification, stated as the spec states
them (no `u32` truncation): every operand index strictly below the gate's own
index, at least one output, every output index below the gate count. -/
def structuralOk (c : Circuit) : Prop :=
  (∀ i g, c.gates.get? i = some g → gateSpecOk i g) ∧
  c.output_gates ≠ [] ∧
  (∀ o ∈ c.output_gates, o < c.gates.length)

/-- The size bounds of the specification. -/
def sizeOk (c : Circuit) : Prop :=
  c.gates.length ≤ MAX_GATES ∧ c.and_gates ≤ MAX_AND_GATES

instance (c : Circuit) : Decidable (structuralOk c) := by
  unfold structuralOk
  have h : (∀ i g, c.gates.get? i = some g → gateSpecOk i g) ↔
      (∀ i : Fin c.gates.length, gateSpecOk i.1 (c.gates.get i)) := by
    constructor
    · intro h i
      exact h i.1 (c.gates.get i) (by rw [List.get?_eq_get i.2])
    · intro h i g hg
      have hi : i < c.gates.length := List.get?_eq_some.mp hg |>.1
      have := h ⟨i, hi⟩
      rwa [(List.get?_eq_some.mp hg).2] at this
  rw [h]
  infer_instance

instance (c : Circuit) : Decidable (sizeOk c) := by
  unfold sizeOk; infer_instance

end Tandem


namespace Tandem

lemma checkGatesFrom_ok (i : Nat) (gs : List Gate)
    (h : ∀ j g, gs.get? j = some g → gateCheck (i + j) g = true) :
    checkGatesFrom i gs = .ok ((gs.filter Gate.is_and).length) := by
  induction gs generalizing i with
  | nil => rfl
  | cons g gs ih =>
    have hg : gateCheck i g = true := by
      have := h 0 g rfl
      simpa using this
    have hrec := ih (i + 1) (fun j g' hj => by
      have heq : i + 1 + j = i + (j + 1) := by omega
      rw [heq]
      exact h (j + 1) g' (by simpa using hj))
    simp only [checkGatesFrom, hg, if_pos, hrec, Except.map, List.filter]
    cases hand : g.is_and <;> simp [hand]

lemma checkGatesFrom_ok_inv (i : Nat) (gs : List Gate) (n : Nat)
    (h : checkGatesFrom i gs = .ok n) :
    (∀ j g, gs.get? j = some g → gateCheck (i + j) g = true) ∧
      n = (gs.filter Gate.is_and).length := by
  induction gs generalizing i n with
  | nil =>
    simp only [checkGatesFrom, Except.ok.injEq] at h
    exact ⟨fun j g hj => by simp at hj, by simp [h.symm]⟩
  | cons g gs ih =>
    by_cases hg : gateCheck i g = true
    · simp only [checkGatesFrom, hg, if_pos] at h
      cases hrec : checkGatesFrom (i + 1) gs with
      | error e => rw [hrec] at h; simp [Except.map] at h
      | ok m =>
        rw [hrec] at h
        simp only [Except.map, Except.ok.injEq] at h
        obtain ⟨hall, hm⟩ := ih (i + 1) m hrec
        refine ⟨fun j g' hj => ?_, ?_⟩
        · match j with
          | 0 => simp at hj; rw [← hj]; simpa using hg
          | j + 1 =>
            have heq : i + (j + 1) = i + 1 + j := by omega
            rw [heq]
            exact hall j g' (by simpa using hj)
        · rw [← h, hm, List.filter]
          cases hand : g.is_and <;> simp [hand]
    · simp only [checkGatesFrom, hg, if_neg, Bool.not_eq_true] at h
      simp at hg
      simp [hg] at h

lemma checkGatesFrom_total (i : Nat) (gs : List Gate) :
    (∃ n, checkGatesFrom i gs = .ok n) ∨
      checkGatesFrom i gs = .error .InvalidCircuit := by
  induction gs generalizing i with
  | nil => exact .inl ⟨0, rfl⟩
  | cons g gs ih =>
    by_cases hg : gateCheck i g = true
    · rcases ih (i + 1) with ⟨n, hn⟩ | hn
      · exact .inl ⟨n + (if g.is_and then 1 else 0), by
          simp [checkGatesFrom, hg, hn, Except.map]⟩
      · exact .inr (by simp [checkGatesFrom, hg, hn, Except.map])
    · exact .inr (by simp [checkGatesFrom, hg])

lemma gateCheck_iff_gateSpecOk {i : Nat} (hi : i < 2 ^ 32) (g : Gate) :
    gateCheck i g = true ↔ gateSpecOk i g := by
  cases g <;> simp [gateCheck, gateSpecOk] <;> omega

lemma MAX_GATES_lt : MAX_GATES < 2 ^ 32 := by decide

lemma checkGatesFrom_of_structural (c : Circuit)
    (hlen : c.gates.length < 2 ^ 32)
    (hall : ∀ i g, c.gates.get? i = some g → gateSpecOk i g) :
    checkGatesFrom 0 c.gates = .ok ((c.gates.filter Gate.is_and).length) := by
  apply checkGatesFrom_ok
  intro j g hj
  have hjlt : j < 2 ^ 32 := by
    have : j < c.gates.length := (List.get?_eq_some.mp hj).1
    omega
  rw [Nat.zero_add]
  exact (gateCheck_iff_gateSpecOk hjlt g).mpr (hall j g hj)

lemma validate_eq_ok_iff (c : Circuit) :
    c.validate = .ok () ↔ structuralOk c ∧ sizeOk c := by
  constructor
  · intro hok
    cases hcg : checkGatesFrom 0 c.gates with
    | error e => simp [Circuit.validate, hcg] at hok
    | ok n =>
      simp only [Circuit.validate, hcg] at hok
      by_cases h1 : c.output_gates.isEmpty = true
      · rw [if_pos h1] at hok; exact absurd hok (by simp)
      rw [if_neg h1] at hok
      by_cases h2 :
          (c.output_gates.any fun o => decide (c.gates.length % 2 ^ 32 ≤ o)) = true
      · rw [if_pos h2] at hok; exact absurd hok (by simp)
      rw [if_neg h2] at hok
      by_cases h3 : MAX_AND_GATES < n
      · rw [if_pos h3] at hok; exact absurd hok (by simp)
      rw [if_neg h3] at hok
      by_cases h4 : MAX_GATES < c.gates.length
      · rw [if_pos h4] at hok; exact absurd hok (by simp)
      obtain ⟨hall, hn⟩ := checkGatesFrom_ok_inv 0 c.gates n hcg
      have hlen : c.gates.length < 2 ^ 32 :=
        lt_of_le_of_lt (not_lt.mp h4) MAX_GATES_lt
      refine ⟨⟨fun i g hi => ?_, ?_, fun o ho => ?_⟩, not_lt.mp h4, ?_⟩
      · have hilt : i < 2 ^ 32 := by
          have : i < c.gates.length := (List.get?_eq_some.mp hi).1
          omega
        have hh := hall i g hi
        rw [Nat.zero_add] at hh
        exact (gateCheck_iff_gateSpecOk hilt g).mp hh
      · intro hemp
        simp [hemp] at h1
      · have hno := (List.any_eq_false (l := c.output_gates)).mp (by
          cases hv : (c.output_gates.any fun o => decide (c.gates.length % 2 ^ 32 ≤ o)) with
          | true => exact absurd hv h2
          | false => rfl) o ho
        simp only [decide_eq_true_eq] at hno
        rwa [Nat.mod_eq_of_lt hlen, not_le] at hno
      · rw [Circuit.and_gates, ← hn]
        exact not_lt.mp h3
  · rintro ⟨⟨hall, hne, hrange⟩, hsz, hand⟩
    have hlen : c.gates.length < 2 ^ 32 := lt_of_le_of_lt hsz MAX_GATES_lt
    have hcg := checkGatesFrom_of_structural c hlen hall
    have h1 : c.output_gates.isEmpty = false := by
      cases hout : c.output_gates with
      | nil => exact absurd hout hne
      | cons a l => simp
    have h2 : (c.output_gates.any fun o => decide (c.gates.length % 2 ^ 32 ≤ o)) = false := by
      rw [List.any_eq_false]
      intro o ho
      simp only [decide_eq_true_eq, not_le]
      rw [Nat.mod_eq_of_lt hlen]
      exact hrange o ho
    have h3 : ¬ MAX_AND_GATES < (c.gates.filter Gate.is_and).length :=
      not_lt.mpr hand
    have h4 : ¬ MAX_GATES < c.gates.length := not_lt.mpr hsz
    simp only [Circuit.validate, hcg, h1, h2, Bool.false_eq_true, if_false,
      if_neg h3, if_neg h4]

lemma validate_invalid_of_structural_fail (c : Circuit)
    (hlen : c.gates.length < 2 ^ 32) (hfail : ¬ structuralOk c) :
    c.validate = .error .InvalidCircuit := by
  by_cases hall : ∀ i g, c.gates.get? i = some g → gateSpecOk i g
  · have hcg := checkGatesFrom_of_structural c hlen hall
    rw [structuralOk] at hfail
    push_neg at hfail
    by_cases hne : c.output_gates = []
    · simp [Circuit.validate, hcg, hne]
    · obtain ⟨o, ho, hge⟩ := hfail hall hne
      have h1 : c.output_gates.isEmpty = false := by
        cases hout : c.output_gates with
        | nil => exact absurd hout hne
        | cons a l => simp
      have h2 : (c.output_gates.any fun o => decide (c.gates.length % 2 ^ 32 ≤ o)) = true := by
        rw [List.any_eq_true]
        exact ⟨o, ho, by simp only [decide_eq_true_eq]; rw [Nat.mod_eq_of_lt hlen]; omega⟩
      simp only [Circuit.validate, hcg, h1, Bool.false_eq_true, if_false, h2,
        eq_self_iff_true, if_true]
  · have herr : checkGatesFrom 0 c.gates = .error .InvalidCircuit := by
      rcases checkGatesFrom_total 0 c.gates with ⟨n, hn⟩ | hn
      · exfalso
        apply hall
        intro i g hi
        have hilt : i < 2 ^ 32 := by
          have : i < c.gates.length := (List.get?_eq_some.mp hi).1
          omega
        have hh := (checkGatesFrom_ok_inv 0 c.gates n hn).1 i g hi
        rw [Nat.zero_add] at hh
        exact (gateCheck_iff_gateSpecOk hilt g).mp hh
      · exact hn
    simp [Circuit.validate, herr]

lemma validate_max_of_size_fail (c : Circuit)
    (hlen : c.gates.length < 2 ^ 32) (hstruct : structuralOk c)
    (hfail : ¬ sizeOk c) :
    c.validate = .error .MaxCircuitSizeExceeded := by
  obtain ⟨hall, hne, hrange⟩ := hstruct
  have hcg := checkGatesFrom_of_structural c hlen hall
  have h1 : c.output_gates.isEmpty = false := by
    cases hout : c.output_gates with
    | nil => exact absurd hout hne
    | cons a l => simp
  have h2 : (c.output_gates.any fun o => decide (c.gates.length % 2 ^ 32 ≤ o)) = false := by
    rw [List.any_eq_false]
    intro o ho
    simp only [decide_eq_true_eq, not_le]
    rw [Nat.mod_eq_of_lt hlen]
    exact hrange o ho
  rw [sizeOk, not_and_or] at hfail
  by_cases h3 : MAX_AND_GATES < (c.gates.filter Gate.is_and).length
  · simp only [Circuit.validate, hcg, h1, h2, Bool.false_eq_true, if_false, if_pos h3]
  · have h4 : MAX_GATES < c.gates.length := by
      rcases hfail with h | h
      · omega
      · rw [Circuit.and_gates] at h; omega
    simp only [Circuit.validate, hcg, h1, h2, Bool.false_eq_true, if_false,
      if_neg h3, if_pos h4]

/-- Claim C3: `validate` accepts exactly the structurally sound, size-bounded
circuits; for circuits of fewer than `2^32` gates a structural violation is
reported as `InvalidCircuit` and a pure size violation as
`MaxCircuitSizeExceeded`.  (The `2^32` bound is forced: see
`claim_C3_counterexample`.) -/
theorem claim_C3_validate (c : Circuit) :
    (c.validate = .ok () ↔ structuralOk c ∧ sizeOk c) ∧
    (c.gates.length < 2 ^ 32 →
      c.validate =
        (if structuralOk c then
          (if sizeOk c then .ok () else .error .MaxCircuitSizeExceeded)
        else .error .InvalidCircuit)) := by
  refine ⟨validate_eq_ok_iff c, fun hlen => ?_⟩
  by_cases hstruct : structuralOk c
  · by_cases hsize : sizeOk c
    · rw [if_pos hstruct, if_pos hsize]
      exact (validate_eq_ok_iff c).mpr ⟨hstruct, hsize⟩
    · rw [if_pos hstruct, if_neg hsize]
      exact validate_max_of_size_fail c hlen hstruct hsize
  · rw [if_neg hstruct]
    exact validate_invalid_of_structural_fail c hlen hstruct

/-- Witness for C3 at the concrete circuit `[InContrib, InEval, Xor 0 1]`,
outputs `[2]`. -/
theorem claim_C3_validate_witness :
    (Circuit.validate ⟨[.InContrib, .InEval, .Xor 0 1], [2]⟩ = .ok () ↔
      structuralOk ⟨[.InContrib, .InEval, .Xor 0 1], [2]⟩ ∧
      sizeOk ⟨[.InContrib, .InEval, .Xor 0 1], [2]⟩) ∧
    Circuit.validate ⟨[.InContrib, .InEval, .Xor 0 1], [2]⟩ =
      (if structuralOk ⟨[.InContrib, .InEval, .Xor 0 1], [2]⟩ then
        (if sizeOk ⟨[.InContrib, .InEval, .Xor 0 1], [2]⟩ then .ok ()
         else .error .MaxCircuitSizeExceeded)
      else .error .InvalidCircuit) :=
  ⟨(claim_C3_validate _).1, (claim_C3_validate _).2 (by decide)⟩


/-- A structurally sound circuit with exactly `2^32` gates: every gate is a
contributor input and the single output is gate 0. -/
def hugeCircuit : Circuit := ⟨List.replicate (2 ^ 32) Gate.InContrib, [0]⟩

lemma checkGatesFrom_replicate (i n : Nat) :
    checkGatesFrom i (List.replicate n Gate.InContrib) = .ok 0 := by
  induction n generalizing i with
  | zero => rfl
  | succ n ih =>
    simp [List.replicate_succ, checkGatesFrom, gateCheck, Gate.is_and, ih, Except.map]

lemma hugeCircuit_gates : hugeCircuit.gates = List.replicate (2 ^ 32) Gate.InContrib := rfl

lemma hugeCircuit_outputs : hugeCircuit.output_gates = [0] := rfl

/-- Counterexample to C3 as stated over all circuits: `hugeCircuit` is
structurally sound and violates only the size bound, yet `validate` reports
`InvalidCircuit` — the `gates.len() as u32` cast wraps `2^32` to `0`, so the
output-range check fires first — rather than `MaxCircuitSizeExceeded`. -/
theorem claim_C3_counterexample :
    structuralOk hugeCircuit ∧ MAX_GATES < hugeCircuit.gates.length ∧
      hugeCircuit.validate = .error .InvalidCircuit := by
  have hlen : hugeCircuit.gates.length = 2 ^ 32 := by
    rw [hugeCircuit_gates]
    exact List.length_replicate _ _
  refine ⟨⟨fun i g hg => ?_, ?_, fun o ho => ?_⟩, ?_, ?_⟩
  · rw [hugeCircuit_gates] at hg
    have hmem : g ∈ List.replicate (2 ^ 32) Gate.InContrib := List.get?_mem hg
    have : g = Gate.InContrib := List.eq_of_mem_replicate hmem
    subst this
    trivial
  · rw [hugeCircuit_outputs]
    simp
  · rw [hugeCircuit_outputs] at ho
    have ho0 : o = 0 := by simpa using ho
    subst ho0
    rw [hlen]
    norm_num
  · rw [hlen, MAX_GATES]
    norm_num
  · have hcg : checkGatesFrom 0 hugeCircuit.gates = .ok 0 := by
      rw [hugeCircuit_gates]
      exact checkGatesFrom_replicate 0 (2 ^ 32)
    have h1 : hugeCircuit.output_gates.isEmpty = false := by
      rw [hugeCircuit_outputs]
      rfl
    have h2 : (hugeCircuit.output_gates.any fun o =>
        decide (hugeCircuit.gates.length % 2 ^ 32 ≤ o)) = true := by
      rw [hugeCircuit_outputs, hlen]
      norm_num
    rw [Circuit.validate]
    simp only [hcg, h1, Bool.false_eq_true, if_false, h2, eq_self_iff_true, if_true]

end Tandem

namespace Tandem

/-- `u32::to_be_bytes`, as a list of four byte values. -/
def beBytes4 (x : Nat) : List Nat :=
  [x / 2 ^ 24 % 2 ^ 8, x / 2 ^ 16 % 2 ^ 8, x / 2 ^ 8 % 2 ^ 8, x % 2 ^ 8]

/-- The bytes that `Gate::update_hash` (`circuit.rs` lines 276-296) feeds to
the hasher for one gate: the big-endian operand indices first, then the type
tag byte (the Rust code calls `hasher.update` on the operands inside the
`match` and appends `type_byte` afterwards). -/
def Gate.hashBytes : Gate → List Nat
  | .InContrib => [0]
  | .InEval => [1]
  | .Xor x y => beBytes4 x ++ beBytes4 y ++ [2]
  | .And x y => beBytes4 x ++ beBytes4 y ++ [3]
  | .NotG x => beBytes4 x ++ [4]

/-- The full byte stream `Circuit::blake3_hash` (`circuit.rs` lines 156-166)
feeds to the blake3 hasher: every gate's bytes in order, then every output
index in big-endian.  The digest is the blake3 hash of exactly this stream,
so with blake3 modelled as injective, two digests agree iff the streams do
(stream equality always implies digest equality, for any hash function). -/
def Circuit.digestStream (c : Circuit) : List Nat :=
  (c.gates.map Gate.hashBytes).flatten ++ (c.output_gates.map beBytes4).flatten

/-- A circuit whose operand and output indices all fit in a `u32` — every
circuit value representable in the Rust code satisfies this. -/
def gateBounded : Gate → Prop
  | .Xor x y => x < 2 ^ 32 ∧ y < 2 ^ 32
  | .And x y => x < 2 ^ 32 ∧ y < 2 ^ 32
  | .NotG x => x < 2 ^ 32
  | _ => True

instance (g : Gate) : Decidable (gateBounded g) := by
  cases g <;> simp only [gateBounded] <;> infer_instance

def Circuit.bounded (c : Circuit) : Prop :=
  (∀ g ∈ c.gates, gateBounded g) ∧ ∀ o ∈ c.output_gates, o < 2 ^ 32

instance (c : Circuit) : Decidable (c.bounded) := by
  unfold Circuit.bounded; infer_instance

lemma beBytes4_injOn {x y : Nat} (hx : x < 2 ^ 32) (hy : y < 2 ^ 32)
    (h : beBytes4 x = beBytes4 y) : x = y := by
  simp only [beBytes4, List.cons.injEq, and_true] at h
  omega

lemma beBytes4_length (x : Nat) : (beBytes4 x).length = 4 := rfl

lemma flatten_beBytes4_length (l : List Nat) :
    ((l.map beBytes4).flatten).length = 4 * l.length := by
  induction l with
  | nil => rfl
  | cons x l ih => simp [List.flatten, ih, beBytes4]; omega

lemma flatten_beBytes4_inj : ∀ l1 l2 : List Nat, l1.length = l2.length →
    (∀ x ∈ l1, x < 2 ^ 32) → (∀ x ∈ l2, x < 2 ^ 32) →
    (l1.map beBytes4).flatten = (l2.map beBytes4).flatten → l1 = l2 := by
  intro l1
  induction l1 with
  | nil =>
    intro l2 hlen _ _ _
    exact (List.length_eq_zero.mp hlen.symm).symm
  | cons x l1 ih =>
    intro l2 hlen hb1 hb2 h
    cases l2 with
    | nil => simp at hlen
    | cons y l2 =>
      simp only [List.map, List.flatten] at h
      obtain ⟨hxy, hrest⟩ := List.append_inj h (by rw [beBytes4_length, beBytes4_length])
      have hx := hb1 x (by simp)
      have hy := hb2 y (by simp)
      have : x = y := beBytes4_injOn hx hy hxy
      subst this
      have := ih l2 (by simpa using hlen) (fun z hz => hb1 z (by simp [hz]))
        (fun z hz => hb2 z (by simp [hz])) hrest
      rw [this]

/-- The tag byte of a gate's serialization. -/
def gateTag : Gate → Nat
  | .InContrib => 0
  | .InEval => 1
  | .Xor _ _ => 2
  | .And _ _ => 3
  | .NotG _ => 4

lemma hashBytes_getLast (g : Gate) : g.hashBytes.getLast? = some (gateTag g) := by
  cases g <;> simp [Gate.hashBytes, gateTag, beBytes4]

lemma hashBytes_ne_nil (g : Gate) : g.hashBytes ≠ [] := by
  cases g <;> simp [Gate.hashBytes, beBytes4]

/-- The tag byte determines the length of a gate's serialization. -/
lemma hashBytes_length_eq_of_tag {g1 g2 : Gate} (htag : gateTag g1 = gateTag g2) :
    g1.hashBytes.length = g2.hashBytes.length := by
  cases g1 <;> cases g2 <;> simp_all [gateTag, Gate.hashBytes, beBytes4]

/-- A gate's serialization determines the gate, for `u32`-bounded operands. -/
lemma hashBytes_inj {g1 g2 : Gate} (hb1 : gateBounded g1) (hb2 : gateBounded g2)
    (h : g1.hashBytes = g2.hashBytes) : g1 = g2 := by
  cases g1 <;> cases g2 <;>
    simp only [gateBounded] at hb1 hb2 <;>
    simp only [Gate.hashBytes, beBytes4, List.cons_append, List.nil_append,
      List.cons.injEq, and_true, List.cons_ne_nil, List.nil_eq, and_false,
      false_and] at h <;>
    first
      | rfl
      | (simp only [Gate.Xor.injEq, Gate.And.injEq, Gate.NotG.injEq]; omega)
      | exact absurd h (by simp)

/-- The gate-section byte stream. -/
def serGates (gs : List Gate) : List Nat := (gs.map Gate.hashBytes).flatten

lemma serGates_concat (gs : List Gate) (g : Gate) :
    serGates (gs ++ [g]) = serGates gs ++ g.hashBytes := by
  simp [serGates]

lemma serGates_inj : ∀ gs1 gs2 : List Gate,
    (∀ g ∈ gs1, gateBounded g) → (∀ g ∈ gs2, gateBounded g) →
    serGates gs1 = serGates gs2 → gs1 = gs2 := by
  intro gs1
  induction gs1 using List.reverseRecOn with
  | nil =>
    intro gs2 _ _ h
    induction gs2 using List.reverseRecOn with
    | nil => rfl
    | append_singleton gs2 g2 _ =>
      rw [serGates_concat] at h
      exact absurd h.symm (by simp [serGates, hashBytes_ne_nil g2])
  | append_singleton gs1 g1 ih =>
    intro gs2 hb1 hb2 h
    induction gs2 using List.reverseRecOn with
    | nil =>
      rw [serGates_concat] at h
      exact absurd h (by simp [serGates, hashBytes_ne_nil g1])
    | append_singleton gs2 g2 _ =>
      rw [serGates_concat, serGates_concat] at h
      have htag : gateTag g1 = gateTag g2 := by
        have h1 := hashBytes_getLast g1
        have h2 := hashBytes_getLast g2
        have : (serGates gs1 ++ g1.hashBytes).getLast? =
            (serGates gs2 ++ g2.hashBytes).getLast? := by rw [h]
        rw [List.getLast?_append_of_ne_nil _ (hashBytes_ne_nil g1),
          List.getLast?_append_of_ne_nil _ (hashBytes_ne_nil g2), h1, h2] at this
        exact Option.some.injEq _ _ ▸ this
      have hlenEq : g1.hashBytes.length = g2.hashBytes.length :=
        hashBytes_length_eq_of_tag htag
      obtain ⟨hpre, henc⟩ := List.append_inj' h hlenEq
      have hg : g1 = g2 :=
        hashBytes_inj (hb1 g1 (by simp)) (hb2 g2 (by simp)) henc
      rw [ih gs2 (fun g hg' => hb1 g (by simp [hg'])) (fun g hg' => hb2 g (by simp [hg'])) hpre, hg]

end Tandem

namespace Tandem

/-- Claim C4 (amended): for `u32`-representable circuits with the same number
of output gates, the canonical hash input streams — and hence the digests —
agree exactly when the circuits agree as gate lists plus output lists.
Without equal output counts the equivalence fails, see
`claim_C4_counterexample`. -/
theorem claim_C4_digest (c1 c2 : Circuit)
    (hb1 : c1.bounded) (hb2 : c2.bounded)
    (hout : c1.output_gates.length = c2.output_gates.length) :
    c1.digestStream = c2.digestStream ↔ c1 = c2 := by
  constructor
  · intro h
    rw [Circuit.digestStream, Circuit.digestStream] at h
    have hlen : ((c1.output_gates.map beBytes4).flatten).length =
        ((c2.output_gates.map beBytes4).flatten).length := by
      rw [flatten_beBytes4_length, flatten_beBytes4_length, hout]
    obtain ⟨hg, ho⟩ := List.append_inj' h hlen
    have hgates : c1.gates = c2.gates :=
      serGates_inj c1.gates c2.gates hb1.1 hb2.1 hg
    have houts : c1.output_gates = c2.output_gates :=
      flatten_beBytes4_inj c1.output_gates c2.output_gates hout hb1.2 hb2.2 ho
    cases c1; cases c2
    simp_all
  · intro h
    rw [h]

/-- Witness for C4 at two concrete one-output circuits. -/
theorem claim_C4_digest_witness :
    (Circuit.digestStream ⟨[.InContrib], [0]⟩ = Circuit.digestStream ⟨[.InEval], [0]⟩ ↔
      (⟨[.InContrib], [0]⟩ : Circuit) = ⟨[.InEval], [0]⟩) ∧
    Circuit.digestStream ⟨[.InContrib], [0]⟩ ≠ Circuit.digestStream ⟨[.InEval], [0]⟩ :=
  ⟨claim_C4_digest ⟨[.InContrib], [0]⟩ ⟨[.InEval], [0]⟩ (by decide) (by decide) rfl, fun h =>
    absurd
      ((claim_C4_digest ⟨[.InContrib], [0]⟩ ⟨[.InEval], [0]⟩ (by decide) (by decide) rfl).mp h)
      (by decide)⟩

/-- Counterexample to C4 as stated: these two circuits are different (they do
not even have the same number of gates) yet their canonical serializations —
and hence their blake3 digests — are byte-for-byte identical, because the
stream does not delimit the gate section from the output-index section.  Both
circuits pass `validate`. -/
theorem claim_C4_counterexample :
    Circuit.digestStream ⟨[.InContrib, .InEval], [0, 1]⟩ =
      Circuit.digestStream
        ⟨[.InContrib, .InEval, .InContrib, .InContrib, .InContrib, .InContrib], [1]⟩ ∧
    (⟨[.InContrib, .InEval], [0, 1]⟩ : Circuit) ≠
      ⟨[.InContrib, .InEval, .InContrib, .InContrib, .InContrib, .InContrib], [1]⟩ ∧
    Circuit.validate ⟨[.InContrib, .InEval], [0, 1]⟩ = .ok () ∧
    Circuit.validate
      ⟨[.InContrib, .InEval, .InContrib, .InContrib, .InContrib, .InContrib], [1]⟩ = .ok () := by
  refine ⟨by decide, by decide, by rfl, by rfl⟩

end Tandem

namespace Tandem

/-- 128-bit word (`SecurityBits = u128` in `types.rs`).  Rust values are below
`2^128` and XOR never leaves that range, so plain `Nat` with `Nat.xor` is a
faithful model of the XOR algebra. -/
abbrev U128 := Nat

/-- `BitShare` of `types.rs`: the share of an authenticated bit — a key for
the counterparty's bit, a MAC for one's own bit, and the bit itself. -/
structure BitShare where
  key : U128
  mac : U128
  bit : Bool
deriving DecidableEq, Repr

/-- `PartialBitShare` of `types.rs`: a disclosed authenticated bit. -/
structure PartialBitShare where
  mac : U128
  bit : Bool
deriving DecidableEq, Repr

/-- `BitShare::xor` (`types.rs` lines 198-207): componentwise XOR. -/
def BitShare.xor (a b : BitShare) : BitShare :=
  ⟨a.key ^^^ b.key, a.mac ^^^ b.mac, a.bit ^^ b.bit⟩

/-- `impl From<&BitShare> for PartialBitShare` (`types.rs` lines 146-153). -/
def BitShare.toPartial (s : BitShare) : PartialBitShare := ⟨s.mac, s.bit⟩

/-- `PartialBitShare::verify` (`types.rs` lines 209-214):
`(if self.bit { delta.0 } else { 0 }) ^ key.0 == self.mac.0`. -/
def PartialBitShare.verify (s : PartialBitShare) (key delta : U128) : Bool :=
  ((if s.bit then delta else 0) ^^^ key) == s.mac

/-- Claim C5: XOR of two authenticated bits that verify against peer keys
`k1`, `k2` (same `delta`) verifies against `k1 ^^^ k2`. -/
theorem claim_C5_xor_homomorphism (b1 b2 : BitShare) (k1 k2 delta : U128)
    (h1 : b1.toPartial.verify k1 delta = true)
    (h2 : b2.toPartial.verify k2 delta = true) :
    ((b1.xor b2).toPartial).verify (k1 ^^^ k2) delta = true := by
  obtain ⟨key1, mac1, bit1⟩ := b1
  obtain ⟨key2, mac2, bit2⟩ := b2
  simp only [PartialBitShare.verify, BitShare.toPartial, BitShare.xor, beq_iff_eq] at h1 h2 ⊢
  rw [← h1, ← h2]
  have hlc : ∀ a b c : Nat, a ^^^ (b ^^^ c) = b ^^^ (a ^^^ c) := fun a b c => by
    rw [← Nat.xor_assoc, Nat.xor_comm a b, Nat.xor_assoc]
  have hcl : ∀ a b : Nat, a ^^^ (a ^^^ b) = b := fun a b => by
    rw [← Nat.xor_assoc, Nat.xor_self, Nat.zero_xor]
  cases bit1 <;> cases bit2 <;>
    simp [Nat.xor_assoc, Nat.xor_comm, hlc, hcl, Nat.xor_self,
      Nat.zero_xor, Nat.xor_zero]

/-- Witness for C5 at concrete values. -/
theorem claim_C5_xor_homomorphism_witness :
    ((BitShare.xor ⟨0, 3, true⟩ ⟨0, 5, false⟩).toPartial).verify (1 ^^^ 5) 2 = true :=
  claim_C5_xor_homomorphism ⟨0, 3, true⟩ ⟨0, 5, false⟩ 1 5 2 (by decide) (by decide)

end Tandem

namespace Tandem

/-- `MsgQueue` (`tandem_http_client/src/msg_queue.rs`): the pending payloads
(`VecDeque<Vec<u8>>`, front at the head) plus the count of all payloads ever
sent. -/
structure MsgQueue where
  send_q : List (List Nat)
  msg_counter : Nat
deriving DecidableEq, Repr

/-- `MsgQueue::new`. -/
def MsgQueue.new : MsgQueue := ⟨[], 0⟩

/-- `MsgQueue::send`: bumps the counter and pushes the payload at the back. -/
def MsgQueue.send (q : MsgQueue) (msg : List Nat) : MsgQueue :=
  ⟨q.send_q ++ [msg], q.msg_counter + 1⟩

/-- The `while offset <= last && !empty` pop loop of `MsgQueue::flush_queue`,
returning the final `offset` and the remaining queue. -/
def flushLoop (last : Nat) : Nat → List (List Nat) → Nat × List (List Nat)
  | offset, [] => (offset, [])
  | offset, m :: ms =>
    if offset ≤ last then flushLoop last (offset + 1) ms
    else (offset, m :: ms)

/-- `MsgQueue::flush_queue`: pops every payload whose offset is at most
`last`, returning the new queue and the number of removed payloads
(`offset - first_offset`). -/
def MsgQueue.flush_queue (q : MsgQueue) (last : Nat) : MsgQueue × Nat :=
  let first_offset := q.msg_counter - q.send_q.length
  let r := flushLoop last first_offset q.send_q
  (⟨r.2, q.msg_counter⟩, r.1 - first_offset)

/-- The offset labelling of `MsgIter`: each payload paired with its offset,
counting up from `off`. -/
def msgsFrom (off : Nat) : List (List Nat) → List (List Nat × Nat)
  | [] => []
  | m :: ms => (m, off) :: msgsFrom (off + 1) ms

/-- `MsgQueue::msgs_iter`: the queued payloads with offsets starting at
`msg_counter - send_q.len()`. -/
def MsgQueue.msgs_iter (q : MsgQueue) : List (List Nat × Nat) :=
  msgsFrom (q.msg_counter - q.send_q.length) q.send_q

/-- A sequence of `send`s. -/
def MsgQueue.sendAll (q : MsgQueue) (msgs : List (List Nat)) : MsgQueue :=
  msgs.foldl MsgQueue.send q

lemma sendAll_eq (msgs : List (List Nat)) : ∀ (q : List (List Nat)) (n : Nat),
    MsgQueue.sendAll ⟨q, n⟩ msgs = ⟨q ++ msgs, n + msgs.length⟩ := by
  induction msgs with
  | nil => intro q n; simp [MsgQueue.sendAll]
  | cons m ms ih =>
    intro q n
    have h := ih (q ++ [m]) (n + 1)
    simp only [MsgQueue.sendAll, List.foldl_cons] at h ⊢
    rw [show MsgQueue.send ⟨q, n⟩ m = ⟨q ++ [m], n + 1⟩ from rfl, h]
    simp only [List.append_assoc, List.singleton_append, List.length_cons]
    congr 1
    omega

lemma flushLoop_eq (last : Nat) : ∀ (off : Nat) (q : List (List Nat)),
    flushLoop last off q =
      (off + min q.length (last + 1 - off), q.drop (min q.length (last + 1 - off))) := by
  intro off q
  induction q generalizing off with
  | nil => simp [flushLoop]
  | cons m ms ih =>
    by_cases h : off ≤ last
    · rw [flushLoop, if_pos h, ih]
      have hmin : min (m :: ms).length (last + 1 - off) =
          min ms.length (last + 1 - (off + 1)) + 1 := by
        simp only [List.length_cons]
        omega
      rw [hmin, List.drop_succ_cons]
      simp only [Prod.mk.injEq, and_true]
      omega
    · rw [flushLoop, if_neg h]
      have h0 : last + 1 - off = 0 := by omega
      simp [h0]

lemma msgsFrom_filter_all {o : Nat} : ∀ (ms : List (List Nat)) (off : Nat), o < off →
    (msgsFrom off ms).filter (fun p => decide (o < p.2)) = msgsFrom off ms := by
  intro ms
  induction ms with
  | nil => intro off _; rfl
  | cons m ms ih =>
    intro off hoff
    rw [msgsFrom, List.filter_cons]
    have hkeep : (decide (o < (m, off).2)) = true := by simpa using hoff
    rw [hkeep]
    simp only [if_true]
    rw [ih (off + 1) (by omega)]

lemma msgsFrom_filter (o : Nat) : ∀ (ms : List (List Nat)) (off : Nat),
    (msgsFrom off ms).filter (fun p => decide (o < p.2)) =
      msgsFrom (off + min ms.length (o + 1 - off)) (ms.drop (min ms.length (o + 1 - off))) := by
  intro ms
  induction ms with
  | nil => intro off; simp [msgsFrom]
  | cons m ms ih =>
    intro off
    by_cases h : off ≤ o
    · rw [msgsFrom, List.filter_cons]
      have hdrop : (decide (o < (m, off).2)) = false := by simpa using h
      rw [hdrop]
      simp only [Bool.false_eq_true, if_false]
      rw [ih (off + 1)]
      have hmin : min (m :: ms).length (o + 1 - off) =
          min ms.length (o + 1 - (off + 1)) + 1 := by
        simp only [List.length_cons]
        omega
      rw [hmin, List.drop_succ_cons]
      have : off + (min ms.length (o + 1 - (off + 1)) + 1) =
          off + 1 + min ms.length (o + 1 - (off + 1)) := by omega
      rw [this]
    · have h0 : o + 1 - off = 0 := by omega
      rw [h0]
      simp only [Nat.min_zero, List.drop_zero, Nat.add_zero]
      exact msgsFrom_filter_all (m :: ms) off (by omega)

/-- Claim C8: for a queue holding a sequence of sends, offsets start at 0 and
increase consecutively; `flush_queue o` removes exactly the payloads with
offset `≤ o`; flushing through the last offset empties the queue; and a
repeated flush with the same or a smaller offset removes nothing. -/
theorem claim_C8_msg_queue (msgs : List (List Nat)) (o o' : Nat) :
    ((MsgQueue.sendAll MsgQueue.new msgs).msgs_iter = msgsFrom 0 msgs) ∧
    (((MsgQueue.sendAll MsgQueue.new msgs).flush_queue o).1.msgs_iter =
      ((MsgQueue.sendAll MsgQueue.new msgs).msgs_iter).filter (fun p => decide (o < p.2))) ∧
    (msgs.length ≤ o + 1 →
      ((MsgQueue.sendAll MsgQueue.new msgs).flush_queue o).1.send_q = []) ∧
    (o' ≤ o →
      ((((MsgQueue.sendAll MsgQueue.new msgs).flush_queue o).1).flush_queue o').2 = 0) := by
  have hq : MsgQueue.sendAll MsgQueue.new msgs = ⟨msgs, msgs.length⟩ := by
    rw [MsgQueue.new, sendAll_eq]
    simp
  rw [hq]
  have hflush : MsgQueue.flush_queue ⟨msgs, msgs.length⟩ o =
      (⟨msgs.drop (min msgs.length (o + 1)), msgs.length⟩, min msgs.length (o + 1)) := by
    simp [MsgQueue.flush_queue, flushLoop_eq]
  refine ⟨?_, ?_, ?_, ?_⟩
  · simp [MsgQueue.msgs_iter]
  · rw [hflush]
    show MsgQueue.msgs_iter ⟨msgs.drop (min msgs.length (o + 1)), msgs.length⟩ = _
    rw [MsgQueue.msgs_iter, MsgQueue.msgs_iter]
    simp only [List.length_drop]
    have hkn : min msgs.length (o + 1) ≤ msgs.length := Nat.min_le_left _ _
    have h1 : msgs.length - (msgs.length - min msgs.length (o + 1)) =
        min msgs.length (o + 1) := by omega
    rw [h1, Nat.sub_self]
    rw [msgsFrom_filter o msgs 0]
    simp
  · intro hlen
    rw [hflush]
    have hmin : min msgs.length (o + 1) = msgs.length := by omega
    simp [hmin, List.drop_length]
  · intro hle
    rw [hflush]
    show (MsgQueue.flush_queue ⟨msgs.drop (min msgs.length (o + 1)), msgs.length⟩ o').2 = 0
    simp only [MsgQueue.flush_queue, flushLoop_eq, List.length_drop]
    have hkn : min msgs.length (o + 1) ≤ msgs.length := Nat.min_le_left _ _
    have h1 : msgs.length - (msgs.length - min msgs.length (o + 1)) =
        min msgs.length (o + 1) := by omega
    rw [h1]
    have h2 : min (msgs.length - min msgs.length (o + 1))
        (o' + 1 - min msgs.length (o + 1)) = 0 := by omega
    rw [h2]
    simp

/-- Witness for C8 at a concrete two-payload queue. -/
theorem claim_C8_msg_queue_witness :
    ((MsgQueue.sendAll MsgQueue.new [[1], [2]]).msgs_iter = msgsFrom 0 [[1], [2]]) ∧
    ((MsgQueue.sendAll MsgQueue.new [[1], [2]]).flush_queue 1).1.send_q = [] ∧
    ((((MsgQueue.sendAll MsgQueue.new [[1], [2]]).flush_queue 1).1).flush_queue 0).2 = 0 :=
  ⟨(claim_C8_msg_queue [[1], [2]] 1 0).1,
   (claim_C8_msg_queue [[1], [2]] 1 0).2.2.1 (by decide),
   (claim_C8_msg_queue [[1], [2]] 1 0).2.2.2 (by decide)⟩

/-- A 32-byte OT message (`OtMessage = [u8; 32]` in `ot_base.rs`); bytes as
`Nat` (XOR stays below `2^8`). -/
def OtMsg := Fin 32 → Nat

/-- Bytewise XOR (`Sender::xor_keys` and the loop in `Receiver::recv`). -/
def xorBytes (a b : OtMsg) : OtMsg := fun i => a i ^^^ b i

/-- The Ristretto255 group is cyclic of prime order, so the honest-case
algebra of `ot_base.rs` lives in the subgroup generated by the basepoint `G`;
it is modelled by `ℤ` written additively (`n` stands for `n·G`), with scalar
multiplication as integer multiplication.  Point compression is injective, so
the blake3 hash of `A.compress ‖ P.compress` is modelled by an arbitrary
function of the two points. -/
structure OtSender where
  private_key : ℤ
  pub_key : ℤ
  pub_key_squared : ℤ

/-- `Sender::new`: `pub_key = a·G`, `pub_key_squared = pub_key * private_key`. -/
def OtSender.new (a : ℤ) : OtSender := ⟨a, a * 1, a * 1 * a⟩

/-- `Receiver` of `ot_base.rs`. -/
structure OtReceiver where
  private_key : ℤ
  upstream_pub_key : ℤ
  choice : Bool

/-- `Receiver::init` (`ot_base.rs` lines 171-197): sends
`B = x·G` or `A + x·G` depending on the choice bit. -/
def OtReceiver.init (x : ℤ) (upstream_pub_key : ℤ) (choice : Bool) :
    ℤ × OtReceiver :=
  let my_pub_key := x * 1
  let chosen_pub_key :=
    if choice then upstream_pub_key + my_pub_key else my_pub_key
  (chosen_pub_key, ⟨x, upstream_pub_key, choice⟩)

/-- `Sender::send` (`ot_base.rs` lines 123-155):
`e0 = H(A, a·B) ⊕ m0`, `e1 = H(A, a·B − A²) ⊕ m1`, where `H` abstracts
`blake3(A.compress ‖ point.compress)`. -/
def OtSender.send (H : ℤ → ℤ → OtMsg) (s : OtSender) (upstream_pub_key : ℤ)
    (messages : OtMsg × OtMsg) : OtMsg × OtMsg :=
  let key0 := xorBytes (H s.pub_key (upstream_pub_key * s.private_key)) messages.1
  let key1 :=
    xorBytes (H s.pub_key (upstream_pub_key * s.private_key - s.pub_key_squared))
      messages.2
  (key0, key1)

/-- `Receiver::recv` (`ot_base.rs` lines 211-231): `k = H(A, x·A)`, output
`e_c ⊕ k`. -/
def OtReceiver.recv (H : ℤ → ℤ → OtMsg) (r : OtReceiver)
    (reply : OtMsg × OtMsg) : OtMsg :=
  let k := H r.upstream_pub_key (r.upstream_pub_key * r.private_key)
  xorBytes k (if r.choice then reply.2 else reply.1)

/-- The base OT round trip delivers exactly `m_c` (helper shared between the
claim C6 theorem and the OT-extension development). -/
lemma baseOT_roundtrip (H : ℤ → ℤ → OtMsg) (a x : ℤ) (c : Bool)
    (m0 m1 : OtMsg) :
    (let s := OtSender.new a
     let ir := OtReceiver.init x s.pub_key c
     OtReceiver.recv H ir.2 (OtSender.send H s ir.1 (m0, m1))) =
      (if c then m1 else m0) := by
  cases c <;>
    · simp only [OtSender.new, OtReceiver.init, OtSender.send, OtReceiver.recv,
        if_true, if_false, Bool.false_eq_true]
      funext i
      simp only [xorBytes]
      ring_nf
      rw [← Nat.xor_assoc, Nat.xor_self, Nat.zero_xor]

/-- Claim C6: the base OT round trip delivers exactly `m_c`, for every pair of
messages, every choice bit, every pair of honest scalars, and every hash
function. -/
theorem claim_C6_base_ot (H : ℤ → ℤ → OtMsg) (a x : ℤ) (c : Bool)
    (m0 m1 : OtMsg) :
    (let s := OtSender.new a
     let ir := OtReceiver.init x s.pub_key c
     OtReceiver.recv H ir.2 (OtSender.send H s ir.1 (m0, m1))) =
      (if c then m1 else m0) :=
  baseOT_roundtrip H a x c m0 m1

/-- `K = 128` (`types.rs`), the security parameter and OT block width. -/
def K : Nat := 128

/-- `BLOCK_SIZE = K` (`leakydelta_ot.rs`). -/
def BLOCK_SIZE : Nat := K

/-- `TRIPLES = BLOCK_SIZE * 3` (`states.rs` line 39). -/
def TRIPLES : Nat := BLOCK_SIZE * 3

/-- `bucket_size` (`states.rs` lines 587-593), WRK17a Table 4 at ρ = 40. -/
def bucket_size (c : Circuit) : Nat :=
  if 280000 ≤ c.and_gates then 3
  else if 3100 ≤ c.and_gates then 4
  else 5

/-- The validation and block-count computation of `init_ot1` (`states.rs`
lines 600-627).  In Rust the function also draws the base-OT receiver state
and the coin share from the RNG; neither influences validation or the
`blocks` field (`bincode` serialization of the fixed-size coin data cannot
fail), so the embedding returns the `blocks` value of the `OtInitState1`. -/
def init_ot1_blocks (c : Circuit) : Except Error Nat :=
  match c.validate with
  | .error e => .error e
  | .ok _ =>
    let wire_abits := c.and_gates + c.eval_inputs + c.contrib_inputs
    let triples_bits := c.and_gates * 3 * bucket_size c
    let triples_bits_aligned := (triples_bits + TRIPLES - 1) / TRIPLES * TRIPLES
    let total_abits := wire_abits + triples_bits_aligned
    let num_abits_aligned := (total_abits + BLOCK_SIZE - 1) / BLOCK_SIZE * BLOCK_SIZE
    .ok (num_abits_aligned / BLOCK_SIZE)

/-- The block count asserted by claim C7:
`ceil((wire_bits + 3·B·and_gates) / K)` rounded up to a multiple of 3. -/
def claimedBlocks (c : Circuit) : Nat :=
  let wire_bits := c.and_gates + c.eval_inputs + c.contrib_inputs
  let n := (wire_bits + 3 * bucket_size c * c.and_gates + K - 1) / K
  (n + 2) / 3 * 3

/-- Claim C7 (amended): on a valid circuit the `blocks` field equals
`ceil(wire_bits/K) + 3·ceil(B·and_gates/K)` — the wire aBits rounded up to a
block plus the triple aBits rounded up to a multiple of three blocks; it is
in general neither `ceil((wire_bits + 3·B·and_gates)/K)` nor a multiple
of 3 (see `claim_C7_counterexample`). -/
theorem claim_C7_blocks (c : Circuit) (h : c.validate = .ok ()) :
    init_ot1_blocks c =
      .ok ((c.and_gates + c.eval_inputs + c.contrib_inputs + K - 1) / K +
        3 * ((bucket_size c * c.and_gates + K - 1) / K)) := by
  rw [init_ot1_blocks, h]
  simp only [Except.ok.injEq]
  rw [K, TRIPLES, BLOCK_SIZE, K]
  have hmul : c.and_gates * 3 * bucket_size c = 3 * (bucket_size c * c.and_gates) := by
    ring
  rw [hmul]
  omega

/-- Witness for C7 at the single-AND circuit. -/
theorem claim_C7_blocks_witness :
    init_ot1_blocks ⟨[.InContrib, .InEval, .And 0 1], [2]⟩ = .ok 4 := by
  have h := claim_C7_blocks ⟨[.InContrib, .InEval, .And 0 1], [2]⟩ (by rfl)
  rw [h]
  rfl

/-- Counterexample to C7 as stated: for the single-AND circuit the code
computes 4 blocks (1 wire block plus 3 aligned triple blocks), while
`ceil((wire_bits + 3·B·and_gates)/K)` rounded up to a multiple of 3 is 3. -/
theorem claim_C7_counterexample :
    init_ot1_blocks ⟨[.InContrib, .InEval, .And 0 1], [2]⟩ = .ok 4 ∧
      claimedBlocks ⟨[.InContrib, .InEval, .And 0 1], [2]⟩ = 3 := by
  constructor
  · rfl
  · rfl

/-- `Circuit::validate_contributor_input` (`circuit.rs` lines 226-238): the
input length must equal the number of `InContrib` gates. -/
def Circuit.validate_contributor_input (c : Circuit) (input : List Bool) :
    Except Error Unit :=
  if c.contrib_inputs = input.length then .ok () else .error .InsufficientInput

/-- `Circuit::validate_evaluator_input` (`circuit.rs` lines 240-252). -/
def Circuit.validate_evaluator_input (c : Circuit) (input : List Bool) :
    Except Error Unit :=
  if c.eval_inputs = input.length then .ok () else .error .InsufficientInput

/-- `Evaluator::new`, which is `EvalStep1::init` (`states.rs` lines 123-130
and 411-417): only the evaluator input length is checked; the circuit is not
validated and no other failure is possible. -/
def Evaluator_new (c : Circuit) (input : List Bool) : Except Error Unit :=
  c.validate_evaluator_input input

/-- `Contributor::new`, which is `ContribStep1::init` (`states.rs` lines
57-67 and 419-429): checks the contributor input length, then runs
`init_ot1`, which validates the circuit before anything else. -/
def Contributor_new (c : Circuit) (input : List Bool) : Except Error Nat :=
  match c.validate_contributor_input input with
  | .error e => .error e
  | .ok _ => init_ot1_blocks c

lemma checkGatesFrom_error (i : Nat) (gs : List Gate) (e : Error)
    (h : checkGatesFrom i gs = .error e) : e = .InvalidCircuit := by
  induction gs generalizing i e with
  | nil => simp [checkGatesFrom] at h
  | cons g gs ih =>
    by_cases hg : gateCheck i g = true
    · simp only [checkGatesFrom, hg, if_pos] at h
      cases hrec : checkGatesFrom (i + 1) gs with
      | error e2 =>
        rw [hrec] at h
        simp only [Except.map, Except.error.injEq] at h
        rw [← h]
        exact ih (i + 1) e2 hrec
      | ok m => rw [hrec] at h; simp [Except.map] at h
    · simp only [checkGatesFrom, hg, Bool.false_eq_true, if_false,
        Except.error.injEq] at h
      exact h.symm

lemma validate_error_classes (c : Circuit) (e : Error)
    (h : c.validate = .error e) :
    e = .InvalidCircuit ∨ e = .MaxCircuitSizeExceeded := by
  cases hcg : checkGatesFrom 0 c.gates with
  | error e2 =>
    simp only [Circuit.validate, hcg, Except.error.injEq] at h
    rw [← h]
    exact .inl (checkGatesFrom_error 0 c.gates e2 hcg)
  | ok n =>
    simp only [Circuit.validate, hcg] at h
    by_cases h1 : c.output_gates.isEmpty = true
    · rw [if_pos h1] at h; simp only [Except.error.injEq] at h; exact .inl h.symm
    rw [if_neg h1] at h
    by_cases h2 :
        (c.output_gates.any fun o => decide (c.gates.length % 2 ^ 32 ≤ o)) = true
    · rw [if_pos h2] at h; simp only [Except.error.injEq] at h; exact .inl h.symm
    rw [if_neg h2] at h
    by_cases h3 : MAX_AND_GATES < n
    · rw [if_pos h3] at h; simp only [Except.error.injEq] at h; exact .inr h.symm
    rw [if_neg h3] at h
    by_cases h4 : MAX_GATES < c.gates.length
    · rw [if_pos h4] at h; simp only [Except.error.injEq] at h; exact .inr h.symm
    · rw [if_neg h4] at h; simp at h

/-- Claim C10: `Evaluator::new` performs no circuit validation — it succeeds
for every circuit whose `InEval` count matches the input length — while the
evaluator's first `run` step (via `init_ot1`) propagates the validation
error, and `Contributor::new` validates the circuit at construction. -/
theorem claim_C10_lazy_validation (c : Circuit) (input : List Bool) (e : Error) :
    (Evaluator_new c input = .ok () ↔ c.eval_inputs = input.length) ∧
    (c.validate = .error e →
      init_ot1_blocks c = .error e ∧
        (e = .InvalidCircuit ∨ e = .MaxCircuitSizeExceeded)) ∧
    (c.validate = .ok () → ∃ n, init_ot1_blocks c = .ok n) ∧
    (c.contrib_inputs = input.length → c.validate = .error e →
      Contributor_new c input = .error e) := by
  refine ⟨?_, ?_, ?_, ?_⟩
  · rw [Evaluator_new, Circuit.validate_evaluator_input]
    by_cases h : c.eval_inputs = input.length
    · simp [h]
    · simp [h]
  · intro h
    refine ⟨?_, validate_error_classes c e h⟩
    rw [init_ot1_blocks, h]
  · intro h
    rw [init_ot1_blocks, h]
    exact ⟨_, rfl⟩
  · intro hlen h
    rw [Contributor_new, Circuit.validate_contributor_input, if_pos hlen,
      init_ot1_blocks, h]

/-- Witness for C10 at the invalid circuit `[Xor 0 0]` (forward reference)
with empty inputs. -/
theorem claim_C10_lazy_validation_witness :
    (Evaluator_new ⟨[.Xor 0 0], [0]⟩ [] = .ok ()) ∧
    init_ot1_blocks ⟨[.Xor 0 0], [0]⟩ = .error .InvalidCircuit ∧
    Contributor_new ⟨[.Xor 0 0], [0]⟩ [] = .error .InvalidCircuit := by
  have h := claim_C10_lazy_validation ⟨[.Xor 0 0], [0]⟩ [] .InvalidCircuit
  exact ⟨h.1.mpr (by rfl), (h.2.1 (by rfl)).1, h.2.2.2 (by rfl) (by rfl)⟩

/-- Splitting a character list at a separator, modelling Rust's
`str::split(char)` (an empty input yields one empty piece, like Rust). -/
def splitOnChar (sep : Char) : List Char → List (List Char)
  | [] => [[]]
  | c :: cs =>
    match splitOnChar sep cs, decide (c = sep) with
    | r, true => [] :: r
    | [], false => [[c]]
    | h :: t, false => (c :: h) :: t

/-- Rust `str::parse::<u32>` on a character list: one or more digits whose
value fits in a `u32` (the optional leading `+` sign accepted by Rust is
irrelevant to the theorems below). -/
def parseU32 (s : List Char) : Option Nat :=
  if s = [] then none
  else if s.all Char.isDigit then
    let n := s.foldl (fun acc ch => acc * 10 + (ch.toNat - 48)) 0
    if n < 2 ^ 32 then some n else none
  else none

/-- The wire-remapping table (`mapped_wires: HashMap<u32, u32>`). -/
def WireMap := Nat → Option Nat

def emptyWM : WireMap := fun _ => none

def wmInsert (m : WireMap) (k v : Nat) : WireMap :=
  fun x => if x = k then some v else m x

/-- First gate-line pass of `Circuit::from_bristol_format` (`circuit.rs`
lines 114-121): records `bristol_output_wire ↦ tandem_output_wire` for each
gate line; a missing or unparsable fifth field is a Rust panic (`none`). -/
def bristolMapPass (base : Nat) : WireMap → Nat → List (List Char) → Option WireMap
  | m, _, [] => some m
  | m, pos, line :: rest =>
    match (splitOnChar ' ' line).get? 4 with
    | none => none
    | some s =>
      match parseU32 s with
      | none => none
      | some bw => bristolMapPass base (wmInsert m bw (base + pos)) (pos + 1) rest

/-- Second gate-line pass (`circuit.rs` lines 123-145): parses the two input
wires (panicking on parse failure), remaps them (panicking via `unwrap` when
the table misses), and matches the operator token, failing with
`InvalidCircuit` only on an unknown operator. -/
def bristolGatePass (m : WireMap) : List (List Char) → Option (Except Error (List Gate))
  | [] => some (.ok [])
  | line :: rest =>
    let gv := splitOnChar ' ' line
    match gv.get? 2 with
    | none => none
    | some sa =>
    match parseU32 sa with
    | none => none
    | some a0 =>
    match gv.get? 3 with
    | none => none
    | some sb =>
    match parseU32 sb with
    | none => none
    | some b0 =>
    match m a0 with
    | none => none
    | some a =>
    match m b0 with
    | none => none
    | some b =>
    match gv.getLast? with
    | some op =>
      if op = "XOR".data then
        (bristolGatePass m rest).map (Except.map (Gate.Xor a b :: ·))
      else if op = "AND".data then
        (bristolGatePass m rest).map (Except.map (Gate.And a b :: ·))
      else if op = "INV".data then
        (bristolGatePass m rest).map (Except.map (Gate.NotG a :: ·))
      else some (.error .InvalidCircuit)
    | none => some (.error .InvalidCircuit)

/-- `Circuit::from_bristol_format` (`circuit.rs` lines 79-154), on the
character list of the input string.  The result `none` models a Rust panic:
every `lines[i]` / `gate_vec[i]` indexing, `parse::<u32>().unwrap()`,
`unwrap_or_else(panic!)` and `mapped_wires.get(..).unwrap()` of the source
becomes a `none` case here. -/
def from_bristol_format (input : List Char) : Option (Except Error Circuit) :=
  let lines := (splitOnChar '\n' input).filter (fun l => ¬ l.isEmpty)
  match lines.get? 1 with
  | none => none
  | some l1 =>
  match (splitOnChar ' ' l1).get? 1 with
  | none => none
  | some s1 =>
  match parseU32 s1 with
  | none => none
  | some contrib_bits =>
  match (splitOnChar ' ' l1).get? 2 with
  | none => none
  | some s2 =>
  match parseU32 s2 with
  | none => none
  | some eval_bits =>
  match lines.get? 2 with
  | none => none
  | some l2 =>
  match (splitOnChar ' ' l2).get? 1 with
  | none => none
  | some s3 =>
  match parseU32 s3 with
  | none => none
  | some output_bits =>
  let gates0 := List.replicate contrib_bits Gate.InContrib ++
    List.replicate eval_bits Gate.InEval
  let m0 := (List.range (eval_bits + contrib_bits)).foldl
    (fun m i => wmInsert m i i) emptyWM
  match bristolMapPass (contrib_bits + eval_bits) m0 0 (lines.drop 3) with
  | none => none
  | some m =>
  match bristolGatePass m (lines.drop 3) with
  | none => none
  | some (.error e) => some (.error e)
  | some (.ok gs) =>
    let gates := gates0 ++ gs
    let num_wires := gates.length
    some (.ok ⟨gates, List.range' (num_wires - output_bits) output_bits⟩)

/-- Claim C9 evaluated on concrete inputs: malformed Bristol inputs make
`from_bristol_format` panic (modelled as `none`) instead of returning
`Err(InvalidCircuit)`.  The first input has a non-numeric input-width field
(`input_values[1].parse::<u32>().unwrap()` panics), the second is empty
(`lines[1]` indexing panics), the third has a non-numeric output-wire field
in a gate line (`unwrap_or_else(|e| panic!())`).  Only an unknown operator
token (fourth input) is reported as `Err(InvalidCircuit)`; a well-formed
input (fifth) parses. -/
theorem claim_C9_bristol_panics :
    from_bristol_format "2 1\n1 x 1\n1 1\n".data = none ∧
    from_bristol_format "".data = none ∧
    from_bristol_format "1 3\n2 1 1\n1 1\n2 1 0 1 abc XOR".data = none ∧
    from_bristol_format "1 3\n2 1 1\n1 1\n2 1 0 1 2 FOO".data =
      some (.error .InvalidCircuit) ∧
    from_bristol_format "1 3\n2 1 1\n1 1\n2 1 0 1 2 XOR".data =
      some (.ok ⟨[.InContrib, .InEval, .Xor 0 1], [2]⟩) :=
  ⟨rfl, rfl, rfl, rfl, rfl⟩

/-- `WireMask` of `types.rs`: a zero-label plus the wire's mask bit share. -/
structure WireMask where
  label_0 : U128
  bit : BitShare
deriving DecidableEq, Repr

/-- The evaluator-input processing loop of `ot_ands8_eval` (`states.rs` lines
1558-1569): for each received `(index, bit_share)` zipped with the local
input bits, a non-`InEval` index is rejected with `UnexpectedMessageType`,
and then the code runs `assert!(bit_share.verify(&mask.bit.key, &delta))` —
a Rust panic, modelled as `none`, whenever the disclosed MAC does not verify
— before computing the masked input `mask.bit.bit ^ bit_share.bit ^ input`.
(Out-of-range indexing of `gates()[index]` or `masks[index]` also panics.) -/
def processInputMaskShares (circuit : Circuit) (masks : List WireMask)
    (delta : U128) :
    List (Nat × PartialBitShare) → List Bool →
      Option (Except Error (List (Nat × Bool)))
  | [], _ => some (.ok [])
  | _ :: _, [] => some (.ok [])
  | (index, bit_share) :: rest, inp :: inps =>
    match circuit.gates.get? index with
    | none => none
    | some g =>
      if g ≠ Gate.InEval then some (.error .UnexpectedMessageType)
      else
        match masks.get? index with
        | none => none
        | some mask =>
          if bit_share.verify mask.bit.key delta then
            (processInputMaskShares circuit masks delta rest inps).map
              (Except.map ((index, (mask.bit.bit ^^ bit_share.bit) ^^ inp) :: ·))
          else none

/-- Claim C2 evaluated at a concrete session state: with the honest
mask-share message the evaluator's step succeeds, but after flipping one MAC
bit the `assert!` fires — the function panics (`none`) instead of returning
`MacError` or `LeakyAndNotEqual`.  The state is the reachable shape of an
honest session at `EvalStep6`: wire 1 is the evaluator input of the AND
circuit, the evaluator holds key `5` and `delta` `7` for the contributor's
mask bit, and the contributor's honest disclosure is `(bit: false, mac: 5)`;
`mac = 4` is that message with bit 0 flipped. -/
theorem claim_C2_mac_corruption_panics :
    (processInputMaskShares ⟨[.InContrib, .InEval, .And 0 1], [2]⟩
      [⟨0, ⟨0, 0, false⟩⟩, ⟨9, ⟨5, 3, true⟩⟩, ⟨0, ⟨0, 0, false⟩⟩] 7
      [(1, ⟨5, false⟩)] [true] = some (.ok [(1, false)])) ∧
    (processInputMaskShares ⟨[.InContrib, .InEval, .And 0 1], [2]⟩
      [⟨0, ⟨0, 0, false⟩⟩, ⟨9, ⟨5, 3, true⟩⟩, ⟨0, ⟨0, 0, false⟩⟩] 7
      [(1, ⟨4, false⟩)] [true] = none) :=
  ⟨rfl, rfl⟩

/-! ### Bit-level utilities for the 128-bit packed protocol phases -/

lemma xor_left_comm (a b c : Nat) : a ^^^ (b ^^^ c) = b ^^^ (a ^^^ c) := by
  rw [← Nat.xor_assoc, Nat.xor_comm a b, Nat.xor_assoc]

lemma xor_cancel_left (a b : Nat) : a ^^^ (a ^^^ b) = b := by
  rw [← Nat.xor_assoc, Nat.xor_self, Nat.zero_xor]

lemma xor_cancel_right (a b : Nat) : a ^^^ b ^^^ b = a := by
  rw [Nat.xor_assoc, Nat.xor_self, Nat.xor_zero]

/-- `u128::from(b)`. -/
def bTo (b : Bool) : U128 := if b then 1 else 0

lemma testBit_bTo (b : Bool) (j : Nat) :
    (bTo b).testBit j = (b && decide (j = 0)) := by
  cases b <;> cases j <;> simp [bTo, Nat.testBit_succ]

/-- Packing the first `n` bits of a boolean source into a word, low bit
first: the accumulator shape of the `result |= bit << i` loops of
`states.rs` and `leakydelta_ot.rs`. -/
def packBits (f : Nat → Bool) : Nat → U128
  | 0 => 0
  | n + 1 => packBits f n ||| (bTo (f n) <<< n)

lemma testBit_packBits (f : Nat → Bool) (n j : Nat) :
    (packBits f n).testBit j = (decide (j < n) && f j) := by
  induction n with
  | zero => simp [packBits]
  | succ n ih =>
    rw [packBits, Nat.testBit_or, ih, Nat.testBit_shiftLeft, testBit_bTo]
    by_cases hj : j < n
    · simp [hj, Nat.lt_succ_of_lt hj, show ¬ n ≤ j by omega]
    · by_cases hjn : j = n
      · subst hjn
        simp [Nat.lt_irrefl, Nat.lt_succ_self]
      · simp [hj, hjn, show ¬ j < n + 1 by omega]
        intro h
        omega

lemma packBits_congr {f g : Nat → Bool} (n : Nat)
    (h : ∀ i, i < n → f i = g i) : packBits f n = packBits g n := by
  induction n with
  | zero => rfl
  | succ n ih =>
    rw [packBits, packBits, ih (fun i hi => h i (by omega)), h n (by omega)]

lemma testBit_eq_of_eq {x y : U128} (h : x = y) (j : Nat) :
    x.testBit j = y.testBit j := by rw [h]

/-- Bitwise equality on packed words. -/
lemma packBits_ext {x : U128} {f : Nat → Bool} (n : Nat) (hx : x < 2 ^ n)
    (h : ∀ j, j < n → x.testBit j = f j) : x = packBits f n := by
  apply Nat.eq_of_testBit_eq
  intro j
  rw [testBit_packBits]
  by_cases hj : j < n
  · simp [hj, h j hj]
  · simp [hj]
    exact Nat.testBit_lt_two_pow (lt_of_lt_of_le hx (Nat.pow_le_pow_right (by omega) (by omega)))

lemma packBits_lt (f : Nat → Bool) (n : Nat) : packBits f n < 2 ^ n := by
  induction n with
  | zero => simp [packBits]
  | succ n ih =>
    rw [packBits]
    have hpos : 0 < 2 ^ n := Nat.pos_pow_of_pos n (by omega)
    have h2 : (2 : Nat) ^ (n + 1) = 2 ^ n + 2 ^ n := by rw [Nat.pow_succ]; omega
    have hb : bTo (f n) <<< n < 2 ^ (n + 1) := by
      rw [Nat.shiftLeft_eq]
      have hle : bTo (f n) * 2 ^ n ≤ 2 ^ n := by
        have h1 : bTo (f n) ≤ 1 := by cases f n <;> simp [bTo]
        calc bTo (f n) * 2 ^ n ≤ 1 * 2 ^ n := Nat.mul_le_mul_right _ h1
          _ = 2 ^ n := Nat.one_mul _
      exact lt_of_le_of_lt hle (Nat.pow_lt_pow_right (by omega) (Nat.lt_succ_self n))
    exact Nat.or_lt_two_pow
      (lt_of_lt_of_le ih (Nat.pow_le_pow_right (by omega) (Nat.le_succ n))) hb

/-! ### Environment: hash primitives and PRG streams

Every cryptographic primitive of the engine is a deterministic function, and
the honest-run correctness proved below holds for each choice of them, so
they are parameters.  A party's ChaCha20 RNG is modelled by naming the value
it yields at each draw site of the source, in source order; quantifying over
the structure quantifies over all RNG streams. -/

structure Env where
  /-- `hash` / `hash_key` (`hash.rs`): blake3 of one 128-bit word. -/
  hashU : U128 → U128
  /-- `hash_keys` (`hash.rs`): blake3 of two words. -/
  hashKeys : U128 → U128 → U128
  /-- `garbling_hash::new` (`hash.rs`): two labels, gate index, row. -/
  garbleHash : U128 → U128 → Nat → Nat → BitShare
  /-- `hash_coinshare` (`cointossing.rs`); 32-byte coins as numbers. -/
  commHash : Nat → Nat
  /-- `ChaCha20Rng::from_seed(seed).gen::<u128>()` draw number `n`, for the
  row PRGs of the OT extension (seeded by 32-byte base-OT secrets). -/
  chacha : OtMsg → Nat → U128
  /-- The `i32` draws of `new_permutation` (`states.rs`), as a function of
  the jointly tossed coin that seeds the permutation RNG. -/
  permDraws : Nat → Nat → Int
  /-- The blake3 of two compressed Ristretto points in `ot_base.rs`
  (`Sender::send`, `Receiver::recv`). -/
  pointHash : ℤ → ℤ → OtMsg

/-- The values one party's session RNG produces, named per draw site. -/
structure PartyRand where
  /-- `Delta::gen_random` (`ContribStep1::init` / `EvalStep1::run`). -/
  delta : U128
  /-- `rng.fill(&mut coin)` in `init_ot1`. -/
  coin : Nat
  /-- `Scalar::random` for base-OT sender `i` (`ReceiverInitializer::init`). -/
  otScalar : Nat → Int
  /-- The two random 32-byte seeds for base OT `i`
  (`ReceiverInitializer::init`). -/
  otMsgs : Nat → Bool → OtMsg
  /-- `Scalar::random` for base-OT receiver `i` (`SenderInitializer::init`). -/
  otRecvScalar : Nat → Int
  /-- `state.rng.gen()` for block `blk` in `init_ot4`. -/
  blockBits : Nat → U128
  /-- `self.rng.gen()` for block `blk` in `compute_and_ot_data`. -/
  haandT : Nat → U128
  /-- `state.rng.gen()` (`r`) for triple `t` in `ot_ands4`. -/
  eqR : Nat → U128
  /-- `rand_for_eq_box_hash` for triple `t` in `ot_ands4`. -/
  eqS : Nat → U128
  /-- `rng.gen::<u128>()` for the zero-label of gate `g`
  (`preprocessing_assign_masks`). -/
  labels : Nat → U128

/-! ### Coin tossing (`protocol/cointossing.rs`), coins as numbers. -/

/-- `cointossing::init`: commitment message is the hash of the coin. -/
def coin_init (E : Env) (coin : Nat) : Nat × Nat := (coin, E.commHash coin)

/-- `cointossing::finish`: check the peer's commitment, output the XOR. -/
def coin_finish (E : Env) (coin_share upstream_hash upstream_coin : Nat) :
    Except Error Nat :=
  if E.commHash upstream_coin ≠ upstream_hash then .error .MacError
  else .ok (coin_share ^^^ upstream_coin)

/-! ### OT extension (`leakydelta_ot.rs`)

Fixed-size `K`-indexed arrays are modelled as functions from `Nat`.  The
`ChaCha20Rng` owned by each row is modelled by its seed plus the draw index:
`new_batch` and `send` are called once per block, in block order, and each
call consumes exactly one `u128` per row, so the draw index is the block id. -/

/-- `ReceiverInitializer`: `K` base-OT senders plus `K` seed pairs. -/
structure ReceiverInitializer where
  senders : Nat → OtSender
  ot_messages : Nat → Bool → OtMsg

/-- `ReceiverInitializer::init`: fresh base-OT senders and random seeds; the
message is the senders' public points. -/
def ReceiverInitializer.init (r : PartyRand) :
    ReceiverInitializer × (Nat → ℤ) :=
  (⟨fun i => OtSender.new (r.otScalar i), r.otMsgs⟩,
   fun i => (OtSender.new (r.otScalar i)).pub_key)

/-- `SenderInitializer`: `delta` plus `K` base-OT receivers whose choice bits
are the bits of `delta`. -/
structure SenderInitializer where
  delta : U128
  receivers : Nat → OtReceiver

/-- `SenderInitializer::init`. -/
def SenderInitializer.init (r : PartyRand) (delta : U128) (m : Nat → ℤ) :
    SenderInitializer × (Nat → ℤ) :=
  (⟨delta, fun i => (OtReceiver.init (r.otRecvScalar i) (m i) (delta.testBit i)).2⟩,
   fun i => (OtReceiver.init (r.otRecvScalar i) (m i) (delta.testBit i)).1)

/-- `LeakyOtReceiver`: the two row PRGs, by their seeds. -/
structure LeakyOtReceiver where
  otg0 : Nat → OtMsg
  otg1 : Nat → OtMsg

/-- `ReceiverInitializer::recv` (`H` abstracts the blake3 of compressed
points): answers the `K` base OTs with the two seeds as the messages, and
keeps the seeds as row PRGs. -/
def ReceiverInitializer.recv (H : ℤ → ℤ → OtMsg) (s : ReceiverInitializer)
    (m : Nat → ℤ) : LeakyOtReceiver × (Nat → OtMsg × OtMsg) :=
  (⟨fun i => s.ot_messages i false, fun i => s.ot_messages i true⟩,
   fun i => OtSender.send H (s.senders i) (m i)
     (s.ot_messages i false, s.ot_messages i true))

/-- `LeakyOtSender`: `delta` plus the received row-PRG seeds. -/
structure LeakyOtSender where
  delta : U128
  otg : Nat → OtMsg

/-- `SenderInitializer::recv`: finish each base OT, learning seed
`ot_messages[i][delta_i]`. -/
def SenderInitializer.recv (H : ℤ → ℤ → OtMsg) (s : SenderInitializer)
    (m : Nat → OtMsg × OtMsg) : LeakyOtSender :=
  ⟨s.delta, fun i => OtReceiver.recv H (s.receivers i) (m i)⟩

/-- `transpose_column` (`leakydelta_ot.rs`): bit `j` of each of the 128 rows,
packed. -/
def transpose_column (t : Nat → U128) (j : Nat) : U128 :=
  packBits (fun i => (t i).testBit j) 128

/-- `matrix_transpose`. -/
def matrix_transpose (t : Nat → U128) : Nat → U128 :=
  fun j => transpose_column t j

/-- `LeakyOtReceiver::new_batch` for block `blk`: draws `t_i` from stream 0
and the correction words from stream 1; returns `(macs_out, ot_out)`. -/
def LeakyOtReceiver.new_batch (E : Env) (r : LeakyOtReceiver) (blk : Nat)
    (random_bits : U128) : (Nat → U128) × (Nat → U128) :=
  let t_i : Nat → U128 := fun i => E.chacha (r.otg0 i) blk
  (matrix_transpose t_i,
   fun i => t_i i ^^^ E.chacha (r.otg1 i) blk ^^^ random_bits)

/-- `LeakyOtSender::send` for block `blk`: reconstruct the column keys and
transpose. -/
def LeakyOtSender.send (E : Env) (s : LeakyOtSender) (blk : Nat)
    (ot_rx : Nat → U128) : Nat → U128 :=
  matrix_transpose
    (fun i => E.chacha (s.otg i) blk ^^^
      (if s.delta.testBit i then ot_rx i else 0))

lemma packBits_xor (f g : Nat → Bool) (n : Nat) :
    packBits (fun i => f i ^^ g i) n = packBits f n ^^^ packBits g n := by
  apply Nat.eq_of_testBit_eq
  intro j
  rw [Nat.testBit_xor, testBit_packBits, testBit_packBits, testBit_packBits]
  by_cases hj : j < n <;> simp [hj]

lemma packBits_testBit_self {x : U128} (hx : x < 2 ^ 128) :
    packBits x.testBit 128 = x :=
  (packBits_ext 128 hx (fun _ _ => rfl)).symm

/-! ### The OT-initialization pipeline (`init_ot1` … `init_ot4` plus the
key-filling loop of `ot_ands1`, `states.rs` lines 600-712).

Messages are the typed values the Rust code moves through `bincode`; honest
(de)serialization round-trips, so serialization is the identity here. -/

/-- The crypto state of `OtInitState1`. -/
structure OtInitState1S where
  delta : U128
  r_init : ReceiverInitializer
  coin_share : Nat
  blocks : Nat

/-- `init_ot1` (`states.rs` lines 600-627) with its cryptographic state:
validation and the `blocks` count are exactly `init_ot1_blocks`. -/
def init_ot1_full (E : Env) (r : PartyRand) (p : Circuit) :
    Except Error (OtInitState1S × ((Nat → ℤ) × Nat)) :=
  match init_ot1_blocks p with
  | .error e => .error e
  | .ok blocks =>
    let ri := ReceiverInitializer.init r
    let cs := coin_init E r.coin
    .ok (⟨r.delta, ri.1, cs.1, blocks⟩, (ri.2, cs.2))

/-- The crypto state of `OtInitState2`. -/
structure OtInitState2S where
  delta : U128
  r_init : ReceiverInitializer
  s : SenderInitializer
  coin_share : Nat
  coin_commitment : Nat
  blocks : Nat

/-- `init_ot2` (`states.rs` lines 629-645): start the base-OT receivers on
the peer's points, reveal the own coin. -/
def init_ot2S (r : PartyRand) (st : OtInitState1S) (msg : (Nat → ℤ) × Nat) :
    OtInitState2S × ((Nat → ℤ) × Nat) :=
  let s := SenderInitializer.init r st.delta msg.1
  (⟨st.delta, st.r_init, s.1, st.coin_share, msg.2, st.blocks⟩,
   (s.2, st.coin_share))

/-- The crypto state of `OtInitState3`. -/
structure OtInitState3S where
  delta : U128
  s : SenderInitializer
  r : LeakyOtReceiver
  coin : Nat
  blocks : Nat

/-- `init_ot3` (`states.rs` lines 647-663): verify the peer's coin against
its commitment, answer the base OTs. -/
def init_ot3S (E : Env) (st : OtInitState2S) (msg : (Nat → ℤ) × Nat) :
    Except Error (OtInitState3S × (Nat → OtMsg × OtMsg)) :=
  match coin_finish E st.coin_share st.coin_commitment msg.2 with
  | .error e => .error e
  | .ok coin =>
    let rr := ReceiverInitializer.recv E.pointHash st.r_init msg.1
    .ok (⟨st.delta, st.s, rr.1, coin, st.blocks⟩, rr.2)

/-- The crypto state of `OtInitState4`. -/
structure OtInitState4S where
  delta : U128
  s : LeakyOtSender
  coin : Nat
  blocks : Nat
  abits : Nat → BitShare

/-- `init_ot4` (`states.rs` lines 665-696): finish the base OTs, then per
block draw the own bits and derive their MACs; the reply carries each
block's correction words.  `abits[blk*128 + i]` holds bit `i` of block
`blk`; keys stay 0 until `ot_ands1`. -/
def init_ot4S (E : Env) (r : PartyRand) (st : OtInitState3S)
    (msg : Nat → OtMsg × OtMsg) : OtInitState4S × (Nat → Nat → U128) :=
  let s := SenderInitializer.recv E.pointHash st.s msg
  (⟨st.delta, s, st.coin, st.blocks, fun idx =>
      ⟨0, ((st.r.new_batch E (idx / 128) (r.blockBits (idx / 128))).1) (idx % 128),
        (r.blockBits (idx / 128)).testBit (idx % 128)⟩⟩,
   fun blk => (st.r.new_batch E blk (r.blockBits blk)).2)

/-- The key-filling loop of `ot_ands1` (`states.rs` lines 698-712): store the
peer's correction blocks into the local sender, writing the key of
`abits[blk*128 + i]`. -/
def fill_keys (E : Env) (s : LeakyOtSender) (abits : Nat → BitShare)
    (rx : Nat → Nat → U128) : Nat → BitShare :=
  fun idx =>
    { abits idx with key := (s.send E (idx / 128) (rx (idx / 128))) (idx % 128) }

/-- The heart of the OT extension: the key party `Q` derives for row `j` of a
block equals the MAC party `P` derived, shifted by `delta_Q` exactly when
`P`'s bit is set. -/
lemma otx_key_mac (E : Env) (seedpair : Nat → Bool → OtMsg) (deltaQ : U128)
    (hdQ : deltaQ < 2 ^ 128) (bits : U128) (blk : Nat) (j : Nat) :
    (LeakyOtSender.send E ⟨deltaQ, fun i => seedpair i (deltaQ.testBit i)⟩ blk
        ((LeakyOtReceiver.new_batch E ⟨fun i => seedpair i false, fun i => seedpair i true⟩
          blk bits).2)) j =
      ((LeakyOtReceiver.new_batch E
          ⟨fun i => seedpair i false, fun i => seedpair i true⟩ blk bits).1) j ^^^
        (if bits.testBit j then deltaQ else 0) := by
  simp only [LeakyOtSender.send, LeakyOtReceiver.new_batch,
    matrix_transpose, transpose_column]
  have hq : ∀ i : Nat,
      (E.chacha (seedpair i (deltaQ.testBit i)) blk ^^^
        (if deltaQ.testBit i then
          E.chacha (seedpair i false) blk ^^^ E.chacha (seedpair i true) blk ^^^ bits
        else 0)).testBit j =
      ((E.chacha (seedpair i false) blk).testBit j ^^
        (deltaQ.testBit i && bits.testBit j)) := by
    intro i
    cases hd : deltaQ.testBit i with
    | false => simp
    | true =>
      simp only [if_true, Nat.testBit_xor]
      have h1 : ∀ a b c : Bool, (a ^^ ((b ^^ a) ^^ c)) = (b ^^ (true && c)) := by
        decide
      exact h1 _ _ _
  have hpack : packBits (fun i =>
      (E.chacha (seedpair i (deltaQ.testBit i)) blk ^^^
        (if deltaQ.testBit i then
          E.chacha (seedpair i false) blk ^^^ E.chacha (seedpair i true) blk ^^^ bits
        else 0)).testBit j) 128 =
      packBits (fun i => (E.chacha (seedpair i false) blk).testBit j ^^
        (deltaQ.testBit i && bits.testBit j)) 128 :=
    packBits_congr 128 (fun i _ => hq i)
  rw [hpack, packBits_xor]
  cases hb : bits.testBit j with
  | false =>
    have : packBits (fun i => deltaQ.testBit i && false) 128 = 0 := by
      rw [show (fun i => deltaQ.testBit i && false) = (fun _ => false) by
        funext i; simp]
      induction (128 : Nat) with
      | zero => rfl
      | succ n ih => rw [packBits, ih]; simp [bTo]
    rw [this]
    simp
  | true =>
    have : packBits (fun i => deltaQ.testBit i && true) 128 = deltaQ := by
      rw [show (fun i => deltaQ.testBit i && true) = deltaQ.testBit by
        funext i; simp]
      exact packBits_testBit_self hdQ
    rw [this]
    simp

/-! ### Leaky AND (`leakyand.rs` and the `Π__LaAND` steps of `states.rs`)

Triple vectors are functions `Nat → BitShare`; block `blk` of the triples is
the slice starting at `blk * 384`, with triple `i` of a block at rows
`3i`, `3i+1`, `3i+2` (x, y, z). -/

/-- The role tag of `states.rs`. -/
inductive Role where
  | Contributor : Role
  | Evaluator : Role

/-- `collect_y_bits` (`states.rs`): the 128 y-bits of one block, packed
(the source's `bits[i * 3 + 1]`, written `3 * i + 1`). -/
def collect_y_bits (bits : Nat → BitShare) : U128 :=
  packBits (fun i => (bits (3 * i + 1)).bit) 128

/-- `collect_authenticated_bits` (`states.rs`): the packed x, y, z bits of
one block. -/
def collect_authenticated_bits (bits : Nat → BitShare) : U128 × U128 × U128 :=
  (packBits (fun i => (bits (3 * i)).bit) 128,
   packBits (fun i => (bits (3 * i + 1)).bit) 128,
   packBits (fun i => (bits (3 * i + 2)).bit) 128)

/-- `keys` (`states.rs`): the x-row keys of one block. -/
def keysOf (bits : Nat → BitShare) : Nat → U128 := fun i => (bits (3 * i)).key

/-- `macs` (`states.rs`): the x-row MACs of one block. -/
def macsOf (bits : Nat → BitShare) : Nat → U128 := fun i => (bits (3 * i)).mac

/-- `compute_leaky_and_hashes` (`leakyand.rs` lines 19-35). -/
def compute_leaky_and_hashes (E : Env) (delta : U128) (random_bits y : U128)
    (keys : Nat → U128) : Nat → U128 × U128 :=
  fun i =>
    (E.hashU (keys i) ^^^ bTo (random_bits.testBit i),
     E.hashU (delta ^^^ keys i) ^^^ bTo (random_bits.testBit i) ^^^
       bTo (y.testBit i))

/-- `derive_and_shares` (`leakyand.rs` lines 41-59). -/
def derive_and_shares (E : Env) (random_bits x : U128) (macs : Nat → U128)
    (and_hashes : Nat → U128 × U128) : U128 :=
  packBits (fun i =>
    decide (((if x.testBit i then (and_hashes i).2 else (and_hashes i).1) ^^^
      E.hashU (macs i)) ≠ 0)) 128 ^^^ random_bits

/-- `OtAndsState1::compute_and_ot_data` (`states.rs` lines 756-781): the
step-1 hashes, per block and row. -/
def compute_and_ot_data (E : Env) (r : PartyRand) (delta : U128)
    (and_triples : Nat → BitShare) : Nat → Nat → U128 × U128 :=
  fun blk =>
    compute_leaky_and_hashes E delta (r.haandT blk)
      (collect_y_bits (fun k => and_triples (blk * 384 + k)))
      (keysOf (fun k => and_triples (blk * 384 + k)))

/-- `OtAndsState1::compute_and_shares` (`states.rs` lines 783-815), per
block (the honest-length check of the source is a message-length guard). -/
def compute_and_shares (E : Env) (r : PartyRand) (role : Role)
    (and_triples : Nat → BitShare) (and_hashes : Nat → Nat → U128 × U128) :
    Nat → U128 :=
  fun blk =>
    let bits := fun k => and_triples (blk * 384 + k)
    let xyz := collect_authenticated_bits bits
    let and_bits := derive_and_shares E (r.haandT blk) xyz.1 (macsOf bits)
      (and_hashes blk)
    match role with
    | .Contributor => and_bits ^^^ (xyz.1 &&& xyz.2.1) ^^^ xyz.2.2
    | .Evaluator => and_bits

/-- The difference vector `d` of `ot_ands3_update_z2_eval` (`states.rs`
lines 901-914): per block, the old z bits XOR the fresh `z₂`. -/
def z2_d (and_triples : Nat → BitShare) (own_shares upstream : Nat → U128) :
    Nat → U128 :=
  fun blk =>
    let bits := fun k => and_triples (blk * 384 + k)
    let xyz := collect_authenticated_bits bits
    let z_2 := own_shares blk ^^^ (xyz.1 &&& xyz.2.1) ^^^ upstream blk
    xyz.2.2 ^^^ z_2

/-- The z-bit update of `ot_ands3_update_z2_eval` (`states.rs` lines
888-932): flip the local z bits by `d`, and return `d` to be sent. -/
def update_z2_eval (and_triples : Nat → BitShare)
    (own_shares upstream : Nat → U128) :
    (Nat → BitShare) × (Nat → U128) :=
  (fun idx =>
    if (idx % 384) % 3 = 2 then
      { and_triples idx with
        bit := ((and_triples idx).bit ^^
          (z2_d and_triples own_shares upstream (idx / 384)).testBit
            ((idx % 384) / 3)) }
    else and_triples idx,
   z2_d and_triples own_shares upstream)

/-- The z-key update of `ot_ands3_update_z2_contrib` (`states.rs` lines
851-886): XOR `delta` into the z-keys at the positions the evaluator
flipped. -/
def update_z2_contrib (delta : U128) (and_triples : Nat → BitShare)
    (d : Nat → U128) : Nat → BitShare :=
  fun idx =>
    if (idx % 384) % 3 = 2 ∧ (d (idx / 384)).testBit ((idx % 384) / 3) then
      { and_triples idx with key := (and_triples idx).key ^^^ delta }
    else and_triples idx

/-- `compute_u` (`states.rs` lines 818-849), per triple `t` (the source
steps through the triple vector three rows at a time). -/
def compute_u (E : Env) (delta : U128) (and_bits : Nat → BitShare) :
    Nat → U128 :=
  fun t =>
    let k_x1 := (and_bits (3 * t)).key
    let b_x2 := (and_bits (3 * t)).bit
    let k_y1 := (and_bits (3 * t + 1)).key
    let b_y2 := (and_bits (3 * t + 1)).bit
    let k_z1 := (and_bits (3 * t + 2)).key
    let b_z2 := (and_bits (3 * t + 2)).bit
    let t0 := E.hashKeys k_x1 (k_z1 ^^^ (if b_z2 then delta else 0))
    let u0 := t0 ^^^ E.hashKeys (k_x1 ^^^ delta)
      (k_y1 ^^^ k_z1 ^^^ (if b_y2 ^^ b_z2 then delta else 0))
    let t1 := E.hashKeys k_x1
      (k_y1 ^^^ k_z1 ^^^ (if b_y2 ^^ b_z2 then delta else 0))
    let u1 := t1 ^^^ E.hashKeys (k_x1 ^^^ delta)
      (k_z1 ^^^ (if b_z2 then delta else 0))
    if b_x2 then u1 else u0

/-- The per-triple body of `ot_ands4` (`states.rs` lines 934-986): the `w`
pair plus the committed `(r, s)` randomness; the message carries
`hash_keys(r, s)` and `w`. -/
def ot_ands4_w (E : Env) (r : PartyRand) (delta : U128)
    (and_bits : Nat → BitShare) (u_from_other : Nat → U128) :
    Nat → U128 × U128 :=
  fun t =>
    let k_x1 := (and_bits (3 * t)).key
    let m_x2 := (and_bits (3 * t)).mac
    let b_x2 := (and_bits (3 * t)).bit
    let m_y2 := (and_bits (3 * t + 1)).mac
    let m_z2 := (and_bits (3 * t + 2)).mac
    let rr := r.eqR t
    let u := u_from_other t
    let v0 := E.hashKeys m_x2 m_z2
    let v1 := E.hashKeys m_x2 (m_z2 ^^^ m_y2)
    if b_x2 then
      (E.hashU k_x1 ^^^ v1 ^^^ u ^^^ rr,
       E.hashU (k_x1 ^^^ delta) ^^^ v0 ^^^ u ^^^ rr)
    else
      (E.hashU k_x1 ^^^ v0 ^^^ rr,
       E.hashU (k_x1 ^^^ delta) ^^^ v1 ^^^ rr)

/-- The per-triple `r'` computation of `ot_ands5` (`states.rs` lines
988-1040). -/
def ot_ands5_rprime (E : Env) (delta : U128) (and_bits : Nat → BitShare)
    (w_from_other : Nat → U128 × U128) : Nat → U128 :=
  fun t =>
    let m_x2 := (and_bits (3 * t)).mac
    let b_x2 := (and_bits (3 * t)).bit
    let k_x1 := (and_bits (3 * t)).key
    let k_y1 := (and_bits (3 * t + 1)).key
    let b_y2 := (and_bits (3 * t + 1)).bit
    let k_z1 := (and_bits (3 * t + 2)).key
    let b_z2 := (and_bits (3 * t + 2)).bit
    let t0 := E.hashKeys k_x1 (k_z1 ^^^ (if b_z2 then delta else 0))
    let t1 := E.hashKeys k_x1
      (k_y1 ^^^ k_z1 ^^^ (if b_y2 ^^ b_z2 then delta else 0))
    let t_x2 := if b_x2 then t1 else t0
    let w_x1_x2 := if b_x2 then (w_from_other t).2 else (w_from_other t).1
    E.hashU m_x2 ^^^ w_x1_x2 ^^^ t_x2

/-- The per-triple body of `check_hash` (`states.rs` lines 1042-1074): the
peer's opened `(r, s)` must match its commitment, the peer's `r` must match
the own `r'`, and the peer's `r'` must match the own `r`. -/
def check_hash_ok (E : Env) (r_and_rand_hash : Nat → U128)
    (r_prime_own : Nat → U128) (eqR_own : Nat → U128)
    (r_prime_peer : Nat → U128) (r_and_rand_peer : Nat → U128 × U128)
    (t : Nat) : Bool :=
  (E.hashKeys (r_and_rand_peer t).1 (r_and_rand_peer t).2 ==
      r_and_rand_hash t) &&
    ((r_and_rand_peer t).1 == r_prime_own t) &&
    (eqR_own t == r_prime_peer t)

lemma bTo_xor (a b : Bool) : bTo a ^^^ bTo b = bTo (a ^^ b) := by
  cases a <;> cases b <;> rfl

lemma bTo_ne_zero (a : Bool) : decide (bTo a ≠ 0) = a := by
  cases a <;> rfl

/-- Correctness of one HaAND exchange: the share party `P` derives from party
`Q`'s hashes is `t_P ⊕ t_Q ⊕ (x_P ∧ y_Q)`, bit by bit, for every hash
function — the hash contributions cancel exactly because
`mac_P = key_Q ⊕ x_P·Δ_Q`. -/
lemma derive_and_shares_spec (E : Env) (deltaQ tQ tP xP yQ : U128)
    (keysQ macsP : Nat → U128)
    (hinv : ∀ i, i < 128 →
      macsP i = keysQ i ^^^ (if xP.testBit i then deltaQ else 0)) :
    ∀ j, j < 128 →
      (derive_and_shares E tP xP macsP
          (compute_leaky_and_hashes E deltaQ tQ yQ keysQ)).testBit j =
        ((tP.testBit j ^^ tQ.testBit j) ^^ (xP.testBit j && yQ.testBit j)) := by
  intro j hj
  rw [derive_and_shares, Nat.testBit_xor, testBit_packBits]
  have hdec : decide (j < 128) = true := by simp [hj]
  rw [hdec]
  simp only [Bool.true_and]
  rw [compute_leaky_and_hashes]
  cases hx : xP.testBit j with
  | false =>
    simp only [Bool.false_and, if_false, Bool.false_eq_true]
    rw [hinv j hj, hx]
    simp only [if_false, Bool.false_eq_true, Nat.xor_zero]
    rw [show E.hashU (keysQ j) ^^^ bTo (tQ.testBit j) ^^^ E.hashU (keysQ j) =
      bTo (tQ.testBit j) by
        rw [Nat.xor_comm (E.hashU (keysQ j)) (bTo (tQ.testBit j)), xor_cancel_right]]
    rw [bTo_ne_zero]
    cases tP.testBit j <;> cases tQ.testBit j <;> rfl
  | true =>
    simp only [if_true]
    rw [hinv j hj, hx]
    simp only [if_true]
    rw [show deltaQ ^^^ keysQ j = keysQ j ^^^ deltaQ from Nat.xor_comm _ _]
    rw [show E.hashU (keysQ j ^^^ deltaQ) ^^^ bTo (tQ.testBit j) ^^^
        bTo (yQ.testBit j) ^^^ E.hashU (keysQ j ^^^ deltaQ) =
        bTo (tQ.testBit j) ^^^ bTo (yQ.testBit j) by
      rw [Nat.xor_assoc (E.hashU (keysQ j ^^^ deltaQ)),
        Nat.xor_comm (E.hashU (keysQ j ^^^ deltaQ)), Nat.xor_assoc,
        Nat.xor_self, Nat.xor_zero]]
    rw [bTo_xor, bTo_ne_zero]
    cases tP.testBit j <;> cases tQ.testBit j <;> cases yQ.testBit j <;> rfl

/-- The authenticated-bit pairing invariant: `P`'s MAC for its bit equals
`Q`'s key shifted by `Q`'s delta when the bit is set. -/
def pairInv (a b : BitShare) (deltaQ : U128) : Prop :=
  a.mac = b.key ^^^ (if a.bit then deltaQ else 0)

lemma pairInv_verify {a b : BitShare} {deltaQ : U128} (h : pairInv a b deltaQ) :
    (a.toPartial).verify b.key deltaQ = true := by
  rw [PartialBitShare.verify, BitShare.toPartial, beq_iff_eq, h, Nat.xor_comm]

/-- XOR-combination preserves the pairing invariant (the algebra behind
`BitShare::xor`). -/
lemma pairInv_xor {a1 b1 a2 b2 : BitShare} {deltaQ : U128}
    (h1 : pairInv a1 b1 deltaQ) (h2 : pairInv a2 b2 deltaQ) :
    pairInv (a1.xor a2) (b1.xor b2) deltaQ := by
  rw [pairInv, BitShare.xor, BitShare.xor] at *
  simp only []
  rw [h1, h2]
  cases a1.bit <;> cases a2.bit <;>
    simp [Nat.xor_assoc, Nat.xor_comm, xor_left_comm, xor_cancel_left,
      Nat.xor_self, Nat.zero_xor, Nat.xor_zero]

/-- The two-party aBit invariant over a vector prefix. -/
def abitsInv (C Eb : Nat → BitShare) (deltaC deltaE : U128) (n : Nat) : Prop :=
  ∀ i, i < n → pairInv (C i) (Eb i) deltaE ∧ pairInv (Eb i) (C i) deltaC

lemma collect_x_testBit (bits : Nat → BitShare) {j : Nat} (hj : j < 128) :
    (collect_authenticated_bits bits).1.testBit j = (bits (3 * j)).bit := by
  rw [collect_authenticated_bits, testBit_packBits]
  simp [hj]

lemma collect_y_testBit (bits : Nat → BitShare) {j : Nat} (hj : j < 128) :
    (collect_authenticated_bits bits).2.1.testBit j = (bits (3 * j + 1)).bit := by
  rw [collect_authenticated_bits, testBit_packBits]
  simp [hj]

lemma collect_z_testBit (bits : Nat → BitShare) {j : Nat} (hj : j < 128) :
    (collect_authenticated_bits bits).2.2.testBit j = (bits (3 * j + 2)).bit := by
  rw [collect_authenticated_bits, testBit_packBits]
  simp [hj]

lemma collect_y_bits_testBit (bits : Nat → BitShare) {j : Nat} (hj : j < 128) :
    (collect_y_bits bits).testBit j = (bits (3 * j + 1)).bit := by
  rw [collect_y_bits, testBit_packBits]
  simp [hj]

lemma blk_row_lt {blk nb r : Nat} (hblk : blk < nb) (hr : r < 384) :
    blk * 384 + r < nb * 384 := by
  have h1 : blk * 384 + r < (blk + 1) * 384 := by
    have : (blk + 1) * 384 = blk * 384 + 384 := by ring
    omega
  have h2 : (blk + 1) * 384 ≤ nb * 384 := Nat.mul_le_mul_right _ hblk
  omega

/-- Bit `j` of the evaluator's and-share for a block:
`t_E ⊕ t_C ⊕ (x_E ∧ y_C)`. -/
lemma sharesE_testBit (E : Env) (rC rE : PartyRand) (deltaC deltaE : U128)
    (C Eb : Nat → BitShare) (nb : Nat)
    (hinv : abitsInv C Eb deltaC deltaE (nb * 384))
    {blk : Nat} (hblk : blk < nb) {j : Nat} (hj : j < 128) :
    (compute_and_shares E rE .Evaluator Eb
        (compute_and_ot_data E rC deltaC C) blk).testBit j =
      (((rE.haandT blk).testBit j ^^ (rC.haandT blk).testBit j) ^^
        ((Eb (blk * 384 + 3 * j)).bit && (C (blk * 384 + (3 * j + 1))).bit)) := by
  simp only [compute_and_shares, compute_and_ot_data]
  rw [derive_and_shares_spec E deltaC (rC.haandT blk) (rE.haandT blk)
    (collect_authenticated_bits fun k => Eb (blk * 384 + k)).1
    (collect_y_bits fun k => C (blk * 384 + k))
    (keysOf fun k => C (blk * 384 + k)) (macsOf fun k => Eb (blk * 384 + k))
    ?_ j hj]
  · rw [collect_x_testBit _ hj, collect_y_bits_testBit _ hj]
  · intro i hi
    rw [macsOf, keysOf, collect_x_testBit _ hi]
    exact (hinv (blk * 384 + 3 * i) (blk_row_lt hblk (by omega))).2

/-- Bit `j` of the contributor's and-share for a block:
`(t_C ⊕ t_E ⊕ (x_C ∧ y_E)) ⊕ (x_C ∧ y_C) ⊕ z_C`. -/
lemma sharesC_testBit (E : Env) (rC rE : PartyRand) (deltaC deltaE : U128)
    (C Eb : Nat → BitShare) (nb : Nat)
    (hinv : abitsInv C Eb deltaC deltaE (nb * 384))
    {blk : Nat} (hblk : blk < nb) {j : Nat} (hj : j < 128) :
    (compute_and_shares E rC .Contributor C
        (compute_and_ot_data E rE deltaE Eb) blk).testBit j =
      ((((rC.haandT blk).testBit j ^^ (rE.haandT blk).testBit j) ^^
          ((C (blk * 384 + 3 * j)).bit && (Eb (blk * 384 + (3 * j + 1))).bit)) ^^
        (((C (blk * 384 + 3 * j)).bit && (C (blk * 384 + (3 * j + 1))).bit) ^^
          (C (blk * 384 + (3 * j + 2))).bit)) := by
  simp only [compute_and_shares, compute_and_ot_data]
  rw [Nat.testBit_xor, Nat.testBit_xor, Nat.testBit_and]
  rw [derive_and_shares_spec E deltaE (rE.haandT blk) (rC.haandT blk)
    (collect_authenticated_bits fun k => C (blk * 384 + k)).1
    (collect_y_bits fun k => Eb (blk * 384 + k))
    (keysOf fun k => Eb (blk * 384 + k)) (macsOf fun k => C (blk * 384 + k))
    ?_ j hj]
  · rw [collect_x_testBit _ hj, collect_y_bits_testBit _ hj,
      collect_y_testBit _ hj, collect_z_testBit _ hj]
    simp [Bool.xor_assoc]
  · intro i hi
    rw [macsOf, keysOf, collect_x_testBit _ hi]
    exact (hinv (blk * 384 + 3 * i) (blk_row_lt hblk (by omega))).1

/-- Bit `j` of the evaluator's difference vector `d`:
`(z_E ⊕ z_C) ⊕ ((x_C ⊕ x_E) ∧ (y_C ⊕ y_E))` — the correction that aligns the
joint z bit with the joint AND. -/
lemma d_testBit (E : Env) (rC rE : PartyRand) (deltaC deltaE : U128)
    (C Eb : Nat → BitShare) (nb : Nat)
    (hinv : abitsInv C Eb deltaC deltaE (nb * 384))
    {blk : Nat} (hblk : blk < nb) {j : Nat} (hj : j < 128) :
    ((update_z2_eval Eb
        (compute_and_shares E rE .Evaluator Eb (compute_and_ot_data E rC deltaC C))
        (compute_and_shares E rC .Contributor C (compute_and_ot_data E rE deltaE Eb))).2
        blk).testBit j =
      (((Eb (blk * 384 + (3 * j + 2))).bit ^^ (C (blk * 384 + (3 * j + 2))).bit) ^^
        (((C (blk * 384 + 3 * j)).bit ^^ (Eb (blk * 384 + 3 * j)).bit) &&
          ((C (blk * 384 + (3 * j + 1))).bit ^^ (Eb (blk * 384 + (3 * j + 1))).bit))) := by
  simp only [update_z2_eval, z2_d]
  rw [Nat.testBit_xor, Nat.testBit_xor, Nat.testBit_xor, Nat.testBit_and]
  rw [collect_z_testBit _ hj, collect_x_testBit _ hj, collect_y_testBit _ hj]
  rw [sharesE_testBit E rC rE deltaC deltaE C Eb nb hinv hblk hj,
    sharesC_testBit E rC rE deltaC deltaE C Eb nb hinv hblk hj]
  generalize (rC.haandT blk).testBit j = tC
  generalize (rE.haandT blk).testBit j = tE
  generalize (C (blk * 384 + 3 * j)).bit = xC
  generalize (Eb (blk * 384 + 3 * j)).bit = xE
  generalize (C (blk * 384 + (3 * j + 1))).bit = yC
  generalize (Eb (blk * 384 + (3 * j + 1))).bit = yE
  generalize (C (blk * 384 + (3 * j + 2))).bit = zC
  generalize (Eb (blk * 384 + (3 * j + 2))).bit = zE
  revert tC tE xC xE yC yE zC zE
  decide

/-- The z-share exchange stage: after the evaluator aligns its z bits and the
contributor shifts its z keys, the aBit invariant still holds, the x and y
rows are untouched, and every triple satisfies `x ∧ y = z` jointly. -/
lemma update_z2_spec (E : Env) (rC rE : PartyRand) (deltaC deltaE : U128)
    (C Eb : Nat → BitShare) (nb : Nat)
    (hinv : abitsInv C Eb deltaC deltaE (nb * 384)) :
    (abitsInv
      (update_z2_contrib deltaC C
        (update_z2_eval Eb
          (compute_and_shares E rE .Evaluator Eb (compute_and_ot_data E rC deltaC C))
          (compute_and_shares E rC .Contributor C
            (compute_and_ot_data E rE deltaE Eb))).2)
      (update_z2_eval Eb
        (compute_and_shares E rE .Evaluator Eb (compute_and_ot_data E rC deltaC C))
        (compute_and_shares E rC .Contributor C
          (compute_and_ot_data E rE deltaE Eb))).1
      deltaC deltaE (nb * 384)) ∧
    (∀ idx, idx < nb * 384 → (idx % 384) % 3 ≠ 2 →
      (update_z2_contrib deltaC C
        (update_z2_eval Eb
          (compute_and_shares E rE .Evaluator Eb (compute_and_ot_data E rC deltaC C))
          (compute_and_shares E rC .Contributor C
            (compute_and_ot_data E rE deltaE Eb))).2) idx = C idx ∧
      (update_z2_eval Eb
        (compute_and_shares E rE .Evaluator Eb (compute_and_ot_data E rC deltaC C))
        (compute_and_shares E rC .Contributor C
          (compute_and_ot_data E rE deltaE Eb))).1 idx = Eb idx) ∧
    (∀ blk, blk < nb → ∀ i, i < 128 →
      (((update_z2_contrib deltaC C
          (update_z2_eval Eb
            (compute_and_shares E rE .Evaluator Eb (compute_and_ot_data E rC deltaC C))
            (compute_and_shares E rC .Contributor C
              (compute_and_ot_data E rE deltaE Eb))).2) (blk * 384 + (3 * i + 2))).bit ^^
        ((update_z2_eval Eb
          (compute_and_shares E rE .Evaluator Eb (compute_and_ot_data E rC deltaC C))
          (compute_and_shares E rC .Contributor C
            (compute_and_ot_data E rE deltaE Eb))).1 (blk * 384 + (3 * i + 2))).bit) =
      ((((update_z2_contrib deltaC C
          (update_z2_eval Eb
            (compute_and_shares E rE .Evaluator Eb (compute_and_ot_data E rC deltaC C))
            (compute_and_shares E rC .Contributor C
              (compute_and_ot_data E rE deltaE Eb))).2) (blk * 384 + 3 * i)).bit ^^
        ((update_z2_eval Eb
          (compute_and_shares E rE .Evaluator Eb (compute_and_ot_data E rC deltaC C))
          (compute_and_shares E rC .Contributor C
            (compute_and_ot_data E rE deltaE Eb))).1 (blk * 384 + 3 * i)).bit) &&
        (((update_z2_contrib deltaC C
          (update_z2_eval Eb
            (compute_and_shares E rE .Evaluator Eb (compute_and_ot_data E rC deltaC C))
            (compute_and_shares E rC .Contributor C
              (compute_and_ot_data E rE deltaE Eb))).2) (blk * 384 + (3 * i + 1))).bit ^^
        ((update_z2_eval Eb
          (compute_and_shares E rE .Evaluator Eb (compute_and_ot_data E rC deltaC C))
          (compute_and_shares E rC .Contributor C
            (compute_and_ot_data E rE deltaE Eb))).1 (blk * 384 + (3 * i + 1))).bit))) := by
  set sE := compute_and_shares E rE .Evaluator Eb (compute_and_ot_data E rC deltaC C)
    with hsE
  set sC := compute_and_shares E rC .Contributor C (compute_and_ot_data E rE deltaE Eb)
    with hsC
  set d := (update_z2_eval Eb sE sC).2 with hdd
  have hz1 : ∀ idx, (update_z2_eval Eb sE sC).1 idx =
      (if (idx % 384) % 3 = 2 then
        { Eb idx with bit := ((Eb idx).bit ^^ (d (idx / 384)).testBit ((idx % 384) / 3)) }
      else Eb idx) := fun idx => rfl
  have hz2 : ∀ idx, update_z2_contrib deltaC C d idx =
      (if (idx % 384) % 3 = 2 ∧ (d (idx / 384)).testBit ((idx % 384) / 3) then
        { C idx with key := (C idx).key ^^^ deltaC }
      else C idx) := fun idx => rfl
  have harith : ∀ blk i r, i < 128 → r < 3 →
      ((blk * 384 + (3 * i + r)) % 384 = 3 * i + r ∧
       (blk * 384 + (3 * i + r)) / 384 = blk) := by
    intro blk i r hi hr
    constructor <;> omega
  have hCbit : ∀ idx, (update_z2_contrib deltaC C d idx).bit = (C idx).bit := by
    intro idx
    rw [hz2]
    split <;> rfl
  have hdbit : ∀ blk, blk < nb → ∀ j, j < 128 →
      (d blk).testBit j =
        (((Eb (blk * 384 + (3 * j + 2))).bit ^^ (C (blk * 384 + (3 * j + 2))).bit) ^^
          (((C (blk * 384 + 3 * j)).bit ^^ (Eb (blk * 384 + 3 * j)).bit) &&
            ((C (blk * 384 + (3 * j + 1))).bit ^^ (Eb (blk * 384 + (3 * j + 1))).bit))) := by
    intro blk hblk j hj
    rw [hdd, hsE, hsC]
    exact d_testBit E rC rE deltaC deltaE C Eb nb hinv hblk hj
  refine ⟨?_, ?_, ?_⟩
  · intro idx hidx
    obtain ⟨blk, i, r, hblk, hi, hr, rfl⟩ :
        ∃ blk i r, blk < nb ∧ i < 128 ∧ r < 3 ∧ idx = blk * 384 + (3 * i + r) := by
      refine ⟨idx / 384, (idx % 384) / 3, (idx % 384) % 3, ?_, ?_, ?_, ?_⟩ <;> omega
    obtain ⟨hmod, hdiv⟩ := harith blk i r hi hr
    have hc'mac : ∀ k, (update_z2_contrib deltaC C d k).mac = (C k).mac := by
      intro k; rw [hz2]; split <;> rfl
    have he'key : ∀ k, ((update_z2_eval Eb sE sC).1 k).key = (Eb k).key := by
      intro k; rw [hz1]; split <;> rfl
    have he'mac : ∀ k, ((update_z2_eval Eb sE sC).1 k).mac = (Eb k).mac := by
      intro k; rw [hz1]; split <;> rfl
    by_cases hr2 : r = 2
    · subst hr2
      have hcond : ((blk * 384 + (3 * i + 2)) % 384) % 3 = 2 := by
        rw [hmod]; omega
      have hpos : ((blk * 384 + (3 * i + 2)) % 384) / 3 = i := by
        rw [hmod]; omega
      have old := hinv (blk * 384 + (3 * i + 2)) hidx
      have o1 := old.1
      have o2 := old.2
      rw [pairInv] at o1 o2
      have he'bit : ((update_z2_eval Eb sE sC).1 (blk * 384 + (3 * i + 2))).bit =
          ((Eb (blk * 384 + (3 * i + 2))).bit ^^ (d blk).testBit i) := by
        rw [hz1, if_pos hcond, hdiv, hpos]
      have hc'key : (update_z2_contrib deltaC C d (blk * 384 + (3 * i + 2))).key =
          (C (blk * 384 + (3 * i + 2))).key ^^^
            (if (d blk).testBit i then deltaC else 0) := by
        rw [hz2, hdiv, hpos]
        by_cases hdb : (d blk).testBit i = true
        · rw [if_pos ⟨hcond, hdb⟩, hdb, if_pos rfl]
        · rw [if_neg (fun hc => hdb hc.2)]
          simp only [Bool.not_eq_true] at hdb
          rw [hdb]
          simp
      constructor
      · rw [pairInv, hc'mac, hCbit, he'key]
        exact o1
      · rw [pairInv, he'mac, he'bit, hc'key, o2]
        cases hdb : (d blk).testBit i <;>
          cases (Eb (blk * 384 + (3 * i + 2))).bit <;>
            simp [Nat.xor_assoc, Nat.xor_comm, xor_left_comm, xor_cancel_left,
              Nat.xor_self, Nat.zero_xor, Nat.xor_zero]
    · have hcond : ¬ (((blk * 384 + (3 * i + r)) % 384) % 3 = 2) := by
        rw [hmod]; omega
      have old := hinv (blk * 384 + (3 * i + r)) hidx
      rw [pairInv, pairInv, hz1, hz2, if_neg hcond,
        if_neg (fun hc => hcond hc.1)]
      exact old
  · intro idx hidx hrne
    rw [hz1, hz2, if_neg hrne, if_neg (fun hc => hrne hc.1)]
    exact ⟨rfl, rfl⟩
  · intro blk hblk i hi
    have hx := harith blk i 0 hi (by omega)
    have hy := harith blk i 1 hi (by omega)
    have hz := harith blk i 2 hi (by omega)
    have hxmod : ((blk * 384 + 3 * i) % 384) % 3 ≠ 2 := by
      have : (blk * 384 + 3 * i) % 384 = 3 * i := by omega
      omega
    have hymod : ((blk * 384 + (3 * i + 1)) % 384) % 3 ≠ 2 := by
      rw [hy.1]; omega
    have hzcond : ((blk * 384 + (3 * i + 2)) % 384) % 3 = 2 := by
      rw [hz.1]; omega
    have hzpos : ((blk * 384 + (3 * i + 2)) % 384) / 3 = i := by
      rw [hz.1]; omega
    rw [hCbit, hCbit, hCbit]
    rw [hz1, hz1, hz1]
    rw [if_neg hxmod, if_neg hymod, if_pos hzcond]
    simp only [hz.2, hzpos]
    rw [hdbit blk hblk i hi]
    generalize (C (blk * 384 + 3 * i)).bit = xC
    generalize (Eb (blk * 384 + 3 * i)).bit = xE
    generalize (C (blk * 384 + (3 * i + 1))).bit = yC
    generalize (Eb (blk * 384 + (3 * i + 1))).bit = yE
    generalize (C (blk * 384 + (3 * i + 2))).bit = zC
    generalize (Eb (blk * 384 + (3 * i + 2))).bit = zE
    revert xC xE yC yE zC zE
    decide

set_option maxHeartbeats 1000000 in
/-- The equality-check value `r'` party `Q` computes from `P`'s `w` message
equals `P`'s committed randomness `r`, given the aBit invariants and the
triple relation `x ∧ y = z` — the hash terms cancel pairwise for every hash
function. -/
lemma rprime_eq (E : Env) (rP : PartyRand) (deltaP deltaQ : U128)
    (P Q : Nat → BitShare) (t : Nat)
    (hx1 : pairInv (P (3 * t)) (Q (3 * t)) deltaQ)
    (hy1 : pairInv (P (3 * t + 1)) (Q (3 * t + 1)) deltaQ)
    (hz1 : pairInv (P (3 * t + 2)) (Q (3 * t + 2)) deltaQ)
    (hx2 : pairInv (Q (3 * t)) (P (3 * t)) deltaP)
    (hrel : ((P (3 * t + 2)).bit ^^ (Q (3 * t + 2)).bit) =
      (((P (3 * t)).bit ^^ (Q (3 * t)).bit) &&
        ((P (3 * t + 1)).bit ^^ (Q (3 * t + 1)).bit))) :
    ot_ands5_rprime E deltaQ Q (ot_ands4_w E rP deltaP P (compute_u E deltaQ Q)) t =
      rP.eqR t := by
  rw [pairInv] at hx1 hy1 hz1 hx2
  simp only [ot_ands5_rprime, ot_ands4_w, compute_u]
  rw [hx1, hy1, hz1, hx2]
  generalize hxP : (P (3 * t)).bit = xP at hrel ⊢
  generalize hyP : (P (3 * t + 1)).bit = yP at hrel ⊢
  generalize hzP : (P (3 * t + 2)).bit = zP at hrel ⊢
  generalize hxQ : (Q (3 * t)).bit = xQ at hrel ⊢
  generalize hyQ : (Q (3 * t + 1)).bit = yQ at hrel ⊢
  generalize hzQ : (Q (3 * t + 2)).bit = zQ at hrel ⊢
  cases xP <;> cases xQ <;> cases yP <;> cases yQ <;> cases zP <;> cases zQ <;>
    simp_all [Nat.xor_assoc, Nat.xor_comm, xor_left_comm, xor_cancel_left,
      Nat.xor_self, Nat.zero_xor, Nat.xor_zero]

/-! ### Bucketing (`Π_aAND`, `states.rs` lines 1190-1343) -/

/-- One vector swap of the Fisher-Yates loop. -/
def swapAt (p : Nat → Nat) (i j : Nat) : Nat → Nat :=
  fun x => if x = i then p j else if x = j then p i else p x

/-- The descending Fisher-Yates loop of `new_permutation` (`states.rs` lines
1192-1210): at index `i` swap with `|idx[i] % (i+1)|` (Rust `%` on `i32` is
truncated division, hence `Int.tmod` and the absolute value). -/
def fyLoop (draw : Nat → Int) : Nat → (Nat → Nat) → (Nat → Nat)
  | 0, p => p
  | i + 1, p => fyLoop draw i (swapAt p i (((draw i).tmod (i + 1 : Int)).natAbs))

/-- `new_permutation`, seeded by the jointly tossed coin. -/
def new_permutation (E : Env) (coin total : Nat) : Nat → Nat :=
  fyLoop (E.permDraws coin) total id

lemma neg_tmod (a b : Int) : (-a).tmod b = -(a.tmod b) := by
  simp [Int.tmod_def, Int.neg_tdiv, mul_comm]
  ring

lemma tmod_natAbs_le (v : Int) (i : Nat) : ((v.tmod (i + 1 : Int)).natAbs) ≤ i := by
  rcases le_or_lt 0 v with hv | hv
  · rw [Int.tmod_eq_emod hv (by positivity)]
    have h := Int.emod_lt_of_pos v (show (0:Int) < (i+1 : Int) by positivity)
    have h2 := Int.emod_nonneg v (show ((i:Int)+1) ≠ 0 by positivity)
    omega
  · have hneg : v.tmod (i+1 : Int) = -((-v).tmod (i+1 : Int)) := by
      rw [neg_tmod]; ring
    rw [hneg, Int.natAbs_neg, Int.tmod_eq_emod (by omega) (by positivity)]
    have h := Int.emod_lt_of_pos (-v) (show (0:Int) < (i+1 : Int) by positivity)
    have h2 := Int.emod_nonneg (-v) (show ((i:Int)+1) ≠ 0 by positivity)
    omega

lemma fyLoop_lt (draw : Nat → Int) (total : Nat) :
    ∀ (n : Nat) (p : Nat → Nat), n ≤ total →
      (∀ pos, pos < total → p pos < total) →
      ∀ pos, pos < total → fyLoop draw n p pos < total := by
  intro n
  induction n with
  | zero => intro p _ hp pos hpos; exact hp pos hpos
  | succ n ih =>
    intro p hn hp pos hpos
    rw [fyLoop]
    apply ih _ (by omega) _ pos hpos
    intro q hq
    rw [swapAt]
    have hj : ((draw n).tmod (n + 1 : Int)).natAbs ≤ n := tmod_natAbs_le _ _
    split
    · exact hp _ (by omega)
    · split
      · exact hp _ (by omega)
      · exact hp _ hq

lemma new_permutation_lt (E : Env) (coin total : Nat) :
    ∀ pos, pos < total → new_permutation E coin total pos < total := by
  intro pos hpos
  exact fyLoop_lt _ total total id (le_refl _) (fun q hq => hq) pos hpos

/-- The bucketing message of `AndsBucketingState::init` (`states.rs` lines
1225-1235): for slot `i` and bucket position `j ≥ 1` the bit and MAC of the
XOR of the primary and `j`-th y-shares (position `i*B` holds the untouched
zero initialisation). -/
def bucketing_msg (perm : Nat → Nat) (B : Nat) (and_triples : Nat → BitShare) :
    Nat → Bool × U128 :=
  fun pos =>
    if pos % B = 0 then (false, 0)
    else
      let d := (and_triples (perm (pos / B * B) * 3 + 1)).xor
        (and_triples (perm pos * 3 + 1))
      (d.bit, d.mac)

/-- The combined x-share of bucket `i` (`update_triples`, `states.rs` lines
1319-1335): the primary x-share XOR all the others. -/
def bucket_x (triples : Nat → BitShare) (perm : Nat → Nat) (B i : Nat) :
    BitShare :=
  (List.range (B - 1)).foldl
    (fun acc j => acc.xor (triples (perm (i * B + (j + 1)) * 3)))
    (triples (perm (i * B) * 3))

/-- The combined z-share of bucket `i`: the primary z-share XOR the others,
plus the x-share of every member whose joint `d` bit is set. -/
def bucket_z (triples : Nat → BitShare) (perm : Nat → Nat) (B i : Nat)
    (dbits : Nat → Bool) : BitShare :=
  (List.range (B - 1)).foldl
    (fun acc j =>
      let acc2 := acc.xor (triples (perm (i * B + (j + 1)) * 3 + 2))
      if dbits (i * B + (j + 1)) then
        acc2.xor (triples (perm (i * B + (j + 1)) * 3))
      else acc2)
    (triples (perm (i * B) * 3 + 2))

/-- The combined triples of `update_triples` (loop at `states.rs` lines
1319-1335): bucket `i` becomes `(x*, y₀, z*)`. -/
def combined_triples (triples : Nat → BitShare) (perm : Nat → Nat) (B : Nat)
    (dbits : Nat → Bool) : Nat → BitShare :=
  fun idx =>
    if idx % 3 = 0 then bucket_x triples perm B (idx / 3)
    else if idx % 3 = 1 then triples (perm (idx / 3 * B) * 3 + 1)
    else bucket_z triples perm B (idx / 3) dbits

/-- `AndsBucketingState::update_triples` (`states.rs` lines 1274-1342): check
every received `d` MAC, fold the joint `d` bits, and combine the buckets. -/
def update_triples_model (delta : U128) (triples : Nat → BitShare)
    (perm : Nat → Nat) (B L : Nat) (upstream : Nat → Bool × U128)
    (own : Nat → Bool × U128) : Except Error (Nat → BitShare) :=
  if (List.range L).all (fun i => (List.range (B - 1)).all (fun j =>
      let d := (triples (perm (i * B) * 3 + 1)).xor
        (triples (perm (i * B + (j + 1)) * 3 + 1))
      PartialBitShare.verify ⟨(upstream (i * B + (j + 1))).2,
        (upstream (i * B + (j + 1))).1⟩ d.key delta)) then
    .ok (combined_triples triples perm B
      (fun pos => (own pos).1 ^^ (upstream pos).1))
  else .error .MacError

/-- The bundled invariant of one authenticated AND triple: all six aBit
pairings plus the joint relation `x ∧ y = z`. -/
def tripleInv (C Eb : Nat → BitShare) (deltaC deltaE : U128) (t : Nat) : Prop :=
  (∀ k, k < 3 →
    pairInv (C (t * 3 + k)) (Eb (t * 3 + k)) deltaE ∧
    pairInv (Eb (t * 3 + k)) (C (t * 3 + k)) deltaC) ∧
  ((C (t * 3 + 2)).bit ^^ (Eb (t * 3 + 2)).bit) =
    (((C (t * 3)).bit ^^ (Eb (t * 3)).bit) &&
      ((C (t * 3 + 1)).bit ^^ (Eb (t * 3 + 1)).bit))

/-- Prefixes of the bucket folds: after `m` of the `B-1` combination steps,
both pairing directions hold for the partial x and z shares and the partial
joint z bit already equals the partial joint x bit AND the primary joint y
bit. -/
lemma bucket_fold_spec (C Eb : Nat → BitShare) (deltaC deltaE : U128)
    (perm : Nat → Nat) (B L i : Nat) (hi : i < L) (hB : 0 < B)
    (hinv : ∀ pos, pos < L * B → tripleInv C Eb deltaC deltaE (perm pos)) :
    ∀ m, m ≤ B - 1 →
      (pairInv
        ((List.range m).foldl
          (fun acc j => acc.xor (C (perm (i * B + (j + 1)) * 3)))
          (C (perm (i * B) * 3)))
        ((List.range m).foldl
          (fun acc j => acc.xor (Eb (perm (i * B + (j + 1)) * 3)))
          (Eb (perm (i * B) * 3))) deltaE ∧
       pairInv
        ((List.range m).foldl
          (fun acc j => acc.xor (Eb (perm (i * B + (j + 1)) * 3)))
          (Eb (perm (i * B) * 3)))
        ((List.range m).foldl
          (fun acc j => acc.xor (C (perm (i * B + (j + 1)) * 3)))
          (C (perm (i * B) * 3))) deltaC) ∧
      (∀ dbits : Nat → Bool,
        (∀ j, j < m →
          dbits (i * B + (j + 1)) =
            (((C (perm (i * B) * 3 + 1)).bit ^^ (Eb (perm (i * B) * 3 + 1)).bit) ^^
              ((C (perm (i * B + (j + 1)) * 3 + 1)).bit ^^
                (Eb (perm (i * B + (j + 1)) * 3 + 1)).bit))) →
        (pairInv
          ((List.range m).foldl
            (fun acc j =>
              let acc2 := acc.xor (C (perm (i * B + (j + 1)) * 3 + 2))
              if dbits (i * B + (j + 1)) then
                acc2.xor (C (perm (i * B + (j + 1)) * 3))
              else acc2)
            (C (perm (i * B) * 3 + 2)))
          ((List.range m).foldl
            (fun acc j =>
              let acc2 := acc.xor (Eb (perm (i * B + (j + 1)) * 3 + 2))
              if dbits (i * B + (j + 1)) then
                acc2.xor (Eb (perm (i * B + (j + 1)) * 3))
              else acc2)
            (Eb (perm (i * B) * 3 + 2))) deltaE ∧
         pairInv
          ((List.range m).foldl
            (fun acc j =>
              let acc2 := acc.xor (Eb (perm (i * B + (j + 1)) * 3 + 2))
              if dbits (i * B + (j + 1)) then
                acc2.xor (Eb (perm (i * B + (j + 1)) * 3))
              else acc2)
            (Eb (perm (i * B) * 3 + 2)))
          ((List.range m).foldl
            (fun acc j =>
              let acc2 := acc.xor (C (perm (i * B + (j + 1)) * 3 + 2))
              if dbits (i * B + (j + 1)) then
                acc2.xor (C (perm (i * B + (j + 1)) * 3))
              else acc2)
            (C (perm (i * B) * 3 + 2))) deltaC) ∧
        ((((List.range m).foldl
            (fun acc j =>
              let acc2 := acc.xor (C (perm (i * B + (j + 1)) * 3 + 2))
              if dbits (i * B + (j + 1)) then
                acc2.xor (C (perm (i * B + (j + 1)) * 3))
              else acc2)
            (C (perm (i * B) * 3 + 2))).bit ^^
          ((List.range m).foldl
            (fun acc j =>
              let acc2 := acc.xor (Eb (perm (i * B + (j + 1)) * 3 + 2))
              if dbits (i * B + (j + 1)) then
                acc2.xor (Eb (perm (i * B + (j + 1)) * 3))
              else acc2)
            (Eb (perm (i * B) * 3 + 2))).bit) =
          ((((List.range m).foldl
              (fun acc j => acc.xor (C (perm (i * B + (j + 1)) * 3)))
              (C (perm (i * B) * 3))).bit ^^
            ((List.range m).foldl
              (fun acc j => acc.xor (Eb (perm (i * B + (j + 1)) * 3)))
              (Eb (perm (i * B) * 3))).bit) &&
            ((C (perm (i * B) * 3 + 1)).bit ^^ (Eb (perm (i * B) * 3 + 1)).bit)))) := by
  have hpos0 : i * B < L * B := by
    calc i * B < (i + 1) * B := by
          have : (i + 1) * B = i * B + B := by ring
          omega
    _ ≤ L * B := Nat.mul_le_mul_right _ hi
  have h0 := hinv (i * B) hpos0
  intro m
  induction m with
  | zero =>
    intro _
    simp only [List.range_zero, List.foldl_nil]
    refine ⟨⟨(h0.1 0 (by omega)).1, (h0.1 0 (by omega)).2⟩, ?_⟩
    intro dbits _
    refine ⟨⟨(h0.1 2 (by omega)).1, (h0.1 2 (by omega)).2⟩, ?_⟩
    exact h0.2
  | succ m ih =>
    intro hm
    have hmember : i * B + (m + 1) < L * B := by
      have hm1 : m + 1 < B := by omega
      calc i * B + (m + 1) < i * B + B := by omega
      _ = (i + 1) * B := by ring
      _ ≤ L * B := Nat.mul_le_mul_right _ hi
    have hj := hinv (i * B + (m + 1)) hmember
    have hih := ih (by omega)
    simp only [List.range_succ, List.foldl_append, List.foldl_cons, List.foldl_nil]
    constructor
    · exact ⟨pairInv_xor hih.1.1 (hj.1 0 (by omega)).1,
        pairInv_xor hih.1.2 (hj.1 0 (by omega)).2⟩
    · intro dbits hd
      have hdm : ∀ j, j < m →
          dbits (i * B + (j + 1)) =
            (((C (perm (i * B) * 3 + 1)).bit ^^ (Eb (perm (i * B) * 3 + 1)).bit) ^^
              ((C (perm (i * B + (j + 1)) * 3 + 1)).bit ^^
                (Eb (perm (i * B + (j + 1)) * 3 + 1)).bit)) :=
        fun j hjm => hd j (by omega)
      have hprev := hih.2 dbits hdm
      refine ⟨?_, ?_⟩
      · by_cases hdb : dbits (i * B + (m + 1)) = true
        · simp only [hdb, if_pos]
          exact ⟨pairInv_xor (pairInv_xor hprev.1.1 (hj.1 2 (by omega)).1)
              (hj.1 0 (by omega)).1,
            pairInv_xor (pairInv_xor hprev.1.2 (hj.1 2 (by omega)).2)
              (hj.1 0 (by omega)).2⟩
        · simp only [Bool.not_eq_true] at hdb
          simp only [hdb, Bool.false_eq_true, if_false]
          exact ⟨pairInv_xor hprev.1.1 (hj.1 2 (by omega)).1,
            pairInv_xor hprev.1.2 (hj.1 2 (by omega)).2⟩
      · have hdval := hd m (by omega)
        have hzrel := hj.2
        have hrelprev := hprev.2
        have hxzC : ∀ a b : BitShare, (a.xor b).bit = (a.bit ^^ b.bit) :=
          fun a b => rfl
        by_cases hdb : dbits (i * B + (m + 1)) = true
        · simp only [hdb, if_pos, hxzC]
          rw [hdval] at hdb
          generalize ((List.range m).foldl
            (fun acc j =>
              let acc2 := acc.xor (C (perm (i * B + (j + 1)) * 3 + 2))
              if dbits (i * B + (j + 1)) then
                acc2.xor (C (perm (i * B + (j + 1)) * 3))
              else acc2)
            (C (perm (i * B) * 3 + 2))).bit = zfC at hrelprev ⊢
          generalize ((List.range m).foldl
            (fun acc j =>
              let acc2 := acc.xor (Eb (perm (i * B + (j + 1)) * 3 + 2))
              if dbits (i * B + (j + 1)) then
                acc2.xor (Eb (perm (i * B + (j + 1)) * 3))
              else acc2)
            (Eb (perm (i * B) * 3 + 2))).bit = zfE at hrelprev ⊢
          generalize ((List.range m).foldl
            (fun acc j => acc.xor (C (perm (i * B + (j + 1)) * 3)))
            (C (perm (i * B) * 3))).bit = xfC at hrelprev ⊢
          generalize ((List.range m).foldl
            (fun acc j => acc.xor (Eb (perm (i * B + (j + 1)) * 3)))
            (Eb (perm (i * B) * 3))).bit = xfE at hrelprev ⊢
          generalize ((C (perm (i * B) * 3 + 1)).bit ^^
            (Eb (perm (i * B) * 3 + 1)).bit) = y0 at hrelprev hdb ⊢
          generalize (C (perm (i * B + (m + 1)) * 3)).bit = xjC at hzrel ⊢
          generalize (Eb (perm (i * B + (m + 1)) * 3)).bit = xjE at hzrel ⊢
          generalize (C (perm (i * B + (m + 1)) * 3 + 2)).bit = zjC at hzrel ⊢
          generalize (Eb (perm (i * B + (m + 1)) * 3 + 2)).bit = zjE at hzrel ⊢
          generalize (C (perm (i * B + (m + 1)) * 3 + 1)).bit = yjC at hzrel hdb
          generalize (Eb (perm (i * B + (m + 1)) * 3 + 1)).bit = yjE at hzrel hdb
          revert hrelprev hzrel hdb
          revert zfC zfE xfC xfE y0 xjC xjE zjC zjE yjC yjE
          decide
        · simp only [Bool.not_eq_true] at hdb
          simp only [hdb, Bool.false_eq_true, if_false, hxzC]
          rw [hdval] at hdb
          generalize ((List.range m).foldl
            (fun acc j =>
              let acc2 := acc.xor (C (perm (i * B + (j + 1)) * 3 + 2))
              if dbits (i * B + (j + 1)) then
                acc2.xor (C (perm (i * B + (j + 1)) * 3))
              else acc2)
            (C (perm (i * B) * 3 + 2))).bit = zfC at hrelprev ⊢
          generalize ((List.range m).foldl
            (fun acc j =>
              let acc2 := acc.xor (Eb (perm (i * B + (j + 1)) * 3 + 2))
              if dbits (i * B + (j + 1)) then
                acc2.xor (Eb (perm (i * B + (j + 1)) * 3))
              else acc2)
            (Eb (perm (i * B) * 3 + 2))).bit = zfE at hrelprev ⊢
          generalize ((List.range m).foldl
            (fun acc j => acc.xor (C (perm (i * B + (j + 1)) * 3)))
            (C (perm (i * B) * 3))).bit = xfC at hrelprev ⊢
          generalize ((List.range m).foldl
            (fun acc j => acc.xor (Eb (perm (i * B + (j + 1)) * 3)))
            (Eb (perm (i * B) * 3))).bit = xfE at hrelprev ⊢
          generalize ((C (perm (i * B) * 3 + 1)).bit ^^
            (Eb (perm (i * B) * 3 + 1)).bit) = y0 at hrelprev hdb ⊢
          generalize (C (perm (i * B + (m + 1)) * 3)).bit = xjC at hzrel ⊢
          generalize (Eb (perm (i * B + (m + 1)) * 3)).bit = xjE at hzrel ⊢
          generalize (C (perm (i * B + (m + 1)) * 3 + 2)).bit = zjC at hzrel ⊢
          generalize (Eb (perm (i * B + (m + 1)) * 3 + 2)).bit = zjE at hzrel ⊢
          generalize (C (perm (i * B + (m + 1)) * 3 + 1)).bit = yjC at hzrel hdb
          generalize (Eb (perm (i * B + (m + 1)) * 3 + 1)).bit = yjE at hzrel hdb
          revert hrelprev hzrel hdb
          revert zfC zfE xfC xfE y0 xjC xjE zjC zjE yjC yjE
          decide
lemma bucket_index_arith {j B : Nat} (i : Nat) (h : j < B) :
    (i * B + j) % B = j ∧ (i * B + j) / B = i := by
  constructor
  · rw [Nat.add_comm, Nat.add_mul_mod_self_right, Nat.mod_eq_of_lt h]
  · rw [Nat.add_comm, Nat.add_mul_div_right _ _ (by omega : 0 < B)]
    simp [Nat.div_eq_of_lt h]

lemma bool_xor_swap (a b c d : Bool) :
    ((a ^^ b) ^^ (c ^^ d)) = ((a ^^ c) ^^ (b ^^ d)) := by
  revert a b c d; decide

lemma bucket_pos_lt {i j B L : Nat} (hi : i < L) (hj : j < B) :
    i * B + j < L * B := by
  calc i * B + j < i * B + B := by omega
  _ = (i + 1) * B := by ring
  _ ≤ L * B := Nat.mul_le_mul_right _ hi

/-- The bucketing stage on honest messages: both parties' MAC checks pass,
`update_triples` returns the combined triples, and every combined triple
again satisfies all six aBit pairings plus the joint AND relation. -/
lemma update_triples_spec (C Eb : Nat → BitShare) (deltaC deltaE : U128)
    (perm : Nat → Nat) (B L : Nat) (hB : 0 < B)
    (hinv : ∀ pos, pos < L * B → tripleInv C Eb deltaC deltaE (perm pos)) :
    update_triples_model deltaC C perm B L (bucketing_msg perm B Eb)
        (bucketing_msg perm B C) =
      .ok (combined_triples C perm B
        (fun pos => (bucketing_msg perm B C pos).1 ^^
          (bucketing_msg perm B Eb pos).1)) ∧
    update_triples_model deltaE Eb perm B L (bucketing_msg perm B C)
        (bucketing_msg perm B Eb) =
      .ok (combined_triples Eb perm B
        (fun pos => (bucketing_msg perm B Eb pos).1 ^^
          (bucketing_msg perm B C pos).1)) ∧
    ∀ t, t < L →
      tripleInv
        (combined_triples C perm B
          (fun pos => (bucketing_msg perm B C pos).1 ^^
            (bucketing_msg perm B Eb pos).1))
        (combined_triples Eb perm B
          (fun pos => (bucketing_msg perm B Eb pos).1 ^^
            (bucketing_msg perm B C pos).1))
        deltaC deltaE t := by
  have harith : ∀ i j, j + 1 < B →
      ((i * B + (j + 1)) % B = j + 1 ∧ (i * B + (j + 1)) / B = i) :=
    fun i j hj => bucket_index_arith i hj
  have hmsg : ∀ (T : Nat → BitShare) i j, i < L → j + 1 < B →
      bucketing_msg perm B T (i * B + (j + 1)) =
        (((T (perm (i * B) * 3 + 1)).xor (T (perm (i * B + (j + 1)) * 3 + 1))).bit,
         ((T (perm (i * B) * 3 + 1)).xor (T (perm (i * B + (j + 1)) * 3 + 1))).mac) := by
    intro T i j hi hj
    rw [bucketing_msg]
    rw [if_neg (by rw [(harith i j hj).1]; omega)]
    rw [(harith i j hj).2]
  have hdpair : ∀ i j, i < L → j + 1 < B →
      pairInv ((Eb (perm (i * B) * 3 + 1)).xor (Eb (perm (i * B + (j + 1)) * 3 + 1)))
        ((C (perm (i * B) * 3 + 1)).xor (C (perm (i * B + (j + 1)) * 3 + 1))) deltaC ∧
      pairInv ((C (perm (i * B) * 3 + 1)).xor (C (perm (i * B + (j + 1)) * 3 + 1)))
        ((Eb (perm (i * B) * 3 + 1)).xor (Eb (perm (i * B + (j + 1)) * 3 + 1))) deltaE := by
    intro i j hi hj
    have h0 := hinv (i * B)
      (by have := @bucket_pos_lt i 0 B L hi hB; omega)
    have h1 := hinv (i * B + (j + 1)) (bucket_pos_lt hi hj)
    exact ⟨pairInv_xor (h0.1 1 (by omega)).2 (h1.1 1 (by omega)).2,
      pairInv_xor (h0.1 1 (by omega)).1 (h1.1 1 (by omega)).1⟩
  have hguardC : (List.range L).all (fun i => (List.range (B - 1)).all (fun j =>
      let d := (C (perm (i * B) * 3 + 1)).xor (C (perm (i * B + (j + 1)) * 3 + 1))
      PartialBitShare.verify
        ⟨(bucketing_msg perm B Eb (i * B + (j + 1))).2,
         (bucketing_msg perm B Eb (i * B + (j + 1))).1⟩ d.key deltaC)) = true := by
    simp only [List.all_eq_true, List.mem_range]
    intro i hi j hj
    rw [hmsg Eb i j hi (by omega)]
    exact pairInv_verify (hdpair i j hi (by omega)).1
  have hguardE : (List.range L).all (fun i => (List.range (B - 1)).all (fun j =>
      let d := (Eb (perm (i * B) * 3 + 1)).xor (Eb (perm (i * B + (j + 1)) * 3 + 1))
      PartialBitShare.verify
        ⟨(bucketing_msg perm B C (i * B + (j + 1))).2,
         (bucketing_msg perm B C (i * B + (j + 1))).1⟩ d.key deltaE)) = true := by
    simp only [List.all_eq_true, List.mem_range]
    intro i hi j hj
    rw [hmsg C i j hi (by omega)]
    exact pairInv_verify (hdpair i j hi (by omega)).2
  have hdfun : (fun pos => (bucketing_msg perm B Eb pos).1 ^^
      (bucketing_msg perm B C pos).1) =
      (fun pos => (bucketing_msg perm B C pos).1 ^^
        (bucketing_msg perm B Eb pos).1) := by
    funext pos
    exact Bool.xor_comm _ _
  have hdval : ∀ t j, t < L → j < B - 1 →
      ((bucketing_msg perm B C (t * B + (j + 1))).1 ^^
        (bucketing_msg perm B Eb (t * B + (j + 1))).1) =
        (((C (perm (t * B) * 3 + 1)).bit ^^ (Eb (perm (t * B) * 3 + 1)).bit) ^^
          ((C (perm (t * B + (j + 1)) * 3 + 1)).bit ^^
            (Eb (perm (t * B + (j + 1)) * 3 + 1)).bit)) := by
    intro t j ht hj
    rw [hmsg C t j ht (by omega), hmsg Eb t j ht (by omega)]
    simp only [BitShare.xor]
    exact bool_xor_swap _ _ _ _
  refine ⟨?_, ?_, ?_⟩
  · rw [update_triples_model, if_pos hguardC]
  · rw [update_triples_model, if_pos hguardE]
  · intro t ht
    have hspec := bucket_fold_spec C Eb deltaC deltaE perm B L t ht hB hinv
      (B - 1) (le_refl _)
    have hdhyp := (hspec.2
      (fun pos => (bucketing_msg perm B C pos).1 ^^ (bucketing_msg perm B Eb pos).1)
      (fun j hj => hdval t j ht hj))
    have hxarith : ∀ k, k < 3 → ((t * 3 + k) % 3 = k ∧ (t * 3 + k) / 3 = t) := by
      intro k hk
      constructor <;> omega
    constructor
    · intro k hk
      interval_cases k
      · simp only [combined_triples, (hxarith 0 (by omega)).1, (hxarith 0 (by omega)).2]
        norm_num
        rw [bucket_x, bucket_x]
        exact ⟨hspec.1.1, hspec.1.2⟩
      · simp only [combined_triples, (hxarith 1 (by omega)).1, (hxarith 1 (by omega)).2]
        norm_num
        have h0 := hinv (t * B)
          (by have := @bucket_pos_lt t 0 B L ht hB; omega)
        exact ⟨(h0.1 1 (by omega)).1, (h0.1 1 (by omega)).2⟩
      · simp only [combined_triples, (hxarith 2 (by omega)).1, (hxarith 2 (by omega)).2]
        norm_num
        rw [hdfun]
        rw [bucket_z, bucket_z]
        exact ⟨hdhyp.1.1, hdhyp.1.2⟩
    · simp only [combined_triples, (hxarith 0 (by omega)).1, (hxarith 0 (by omega)).2,
        (hxarith 1 (by omega)).1, (hxarith 1 (by omega)).2,
        (hxarith 2 (by omega)).1, (hxarith 2 (by omega)).2]
      norm_num
      rw [hdfun]
      rw [bucket_x, bucket_x, bucket_z, bucket_z]
      exact hdhyp.2

/-! ### The composed OT-initialization pipeline of `simulate`
(`Contributor::new`, `EvalStep1::run` … `ContribStep1a::run`). -/

/-- The base-OT public points a party publishes in `init_ot1`. -/
def pointsOf (r : PartyRand) : Nat → ℤ :=
  fun i => (OtSender.new (r.otScalar i)).pub_key

/-- The blinded points a party publishes in `init_ot2` (its delta bits as
base-OT choice bits against the peer's points). -/
def blindOf (rSelf rPeer : PartyRand) : Nat → ℤ :=
  fun i =>
    (OtReceiver.init (rSelf.otRecvScalar i) (pointsOf rPeer i)
      (rSelf.delta.testBit i)).1

/-- The base-OT answer pairs a party sends in `init_ot3`. -/
def replyOf (E : Env) (rSelf rPeer : PartyRand) : Nat → OtMsg × OtMsg :=
  fun i =>
    OtSender.send E.pointHash (OtSender.new (rSelf.otScalar i))
      (blindOf rPeer rSelf i) (rSelf.otMsgs i false, rSelf.otMsgs i true)

/-- The `LeakyOtSender` a party ends up with after `init_ot4`. -/
def leakySenderOf (E : Env) (rSelf rPeer : PartyRand) : LeakyOtSender :=
  ⟨rSelf.delta,
   fun i =>
    OtReceiver.recv E.pointHash
      (OtReceiver.init (rSelf.otRecvScalar i) (pointsOf rPeer i)
        (rSelf.delta.testBit i)).2
      (replyOf E rPeer rSelf i)⟩

/-- The `LeakyOtReceiver` a party ends up with after `init_ot3`. -/
def leakyReceiverOf (rSelf : PartyRand) : LeakyOtReceiver :=
  ⟨fun i => rSelf.otMsgs i false, fun i => rSelf.otMsgs i true⟩

/-- The correction blocks a party sends in `init_ot4`. -/
def rxOf (E : Env) (rSelf : PartyRand) : Nat → Nat → U128 :=
  fun blk => ((leakyReceiverOf rSelf).new_batch E blk (rSelf.blockBits blk)).2

/-- A party's aBits right after `init_ot4` (keys still zero). -/
def abits0Of (E : Env) (rSelf : PartyRand) : Nat → BitShare :=
  fun idx =>
    ⟨0,
     ((leakyReceiverOf rSelf).new_batch E (idx / 128)
        (rSelf.blockBits (idx / 128))).1 (idx % 128),
     (rSelf.blockBits (idx / 128)).testBit (idx % 128)⟩

/-- A party's aBits after the key-filling loop of `ot_ands1`. -/
def pipelineAbits (E : Env) (rSelf rPeer : PartyRand) : Nat → BitShare :=
  fill_keys E (leakySenderOf E rSelf rPeer) (abits0Of E rSelf) (rxOf E rPeer)

/-- `init_ot1` through the key filling of `ot_ands1` for both parties, with
the messages wired as `simulate` wires them (`A` = contributor,
`B` = evaluator). -/
def ot_pipeline (E : Env) (rA rB : PartyRand) (c : Circuit) :
    Except Error ((Nat → BitShare) × (Nat → BitShare) × Nat × Nat × Nat) := do
  let a1 ← init_ot1_full E rA c
  let b1 ← init_ot1_full E rB c
  let b2 := init_ot2S rB b1.1 a1.2
  let a2 := init_ot2S rA a1.1 b1.2
  let a3 ← init_ot3S E a2.1 b2.2
  let b3 ← init_ot3S E b2.1 a2.2
  let b4 := init_ot4S E rB b3.1 a3.2
  let a4 := init_ot4S E rA a3.1 b3.2
  let abitsA := fill_keys E a4.1.s a4.1.abits b4.2
  let abitsB := fill_keys E b4.1.s b4.1.abits a4.2
  pure (abitsA, abitsB, a4.1.coin, b4.1.coin, a4.1.blocks)

/-- Through the base OTs, a party's leaky-OT sender holds exactly the peer's
seed selected by its own delta bit, for every row. -/
lemma leakySender_otg (E : Env) (rSelf rPeer : PartyRand) :
    leakySenderOf E rSelf rPeer =
      ⟨rSelf.delta, fun i => rPeer.otMsgs i (rSelf.delta.testBit i)⟩ := by
  rw [leakySenderOf]
  congr 1
  funext i
  have h := baseOT_roundtrip E.pointHash (rPeer.otScalar i) (rSelf.otRecvScalar i)
    (rSelf.delta.testBit i) (rPeer.otMsgs i false) (rPeer.otMsgs i true)
  simp only [] at h
  rw [replyOf, blindOf]
  rw [show pointsOf rPeer i = (OtSender.new (rPeer.otScalar i)).pub_key from rfl]
  rw [h]
  cases rSelf.delta.testBit i <;> rfl

/-- The two pipelines' aBit vectors pair correctly: each party's MAC equals
the peer's key shifted by the peer's-view delta exactly when the bit is
set — for all indices at once. -/
lemma pipelineAbits_inv (E : Env) (rA rB : PartyRand)
    (hA : rA.delta < 2 ^ 128) (hB : rB.delta < 2 ^ 128) (n : Nat) :
    abitsInv (pipelineAbits E rA rB) (pipelineAbits E rB rA)
      rA.delta rB.delta n := by
  intro idx _
  have key_mac : ∀ (rS rP : PartyRand), rP.delta < 2 ^ 128 →
      (pipelineAbits E rP rS idx).key =
        (pipelineAbits E rS rP idx).mac ^^^
          (if (pipelineAbits E rS rP idx).bit then rP.delta else 0) := by
    intro rS rP hP
    simp only [pipelineAbits, fill_keys, abits0Of, rxOf]
    rw [leakySender_otg]
    exact otx_key_mac E rS.otMsgs rP.delta hP (rS.blockBits (idx / 128))
      (idx / 128) (idx % 128)
  constructor
  · rw [pairInv]
    have h := key_mac rA rB hB
    rw [h]
    exact (xor_cancel_right _ _).symm
  · rw [pairInv]
    have h := key_mac rB rA hA
    rw [h]
    exact (xor_cancel_right _ _).symm

/-- Running the composed OT pipeline on a circuit whose block count is `n`:
the coin checks pass and the pipeline returns the two aBit vectors, the two
(equal up to XOR-symmetry) coins and the block count. -/
lemma ot_pipeline_run (E : Env) (rA rB : PartyRand) (c : Circuit) (n : Nat)
    (hbl : init_ot1_blocks c = .ok n) :
    ot_pipeline E rA rB c =
      .ok (pipelineAbits E rA rB, pipelineAbits E rB rA,
        rA.coin ^^^ rB.coin, rB.coin ^^^ rA.coin, n) := by
  rw [ot_pipeline]
  simp only [init_ot1_full, hbl, ReceiverInitializer.init, coin_init,
    init_ot2S, SenderInitializer.init, init_ot3S, coin_finish, ne_eq,
    eq_self_iff_true, not_true, if_false, ReceiverInitializer.recv,
    init_ot4S, SenderInitializer.recv, bind, Except.bind, pure, Except.pure]
  rfl

/-! ### The composed leaky-AND and equality-check stage
(`ot_ands1` … `ot_ands6`, simulate steps 2-4). -/

/-- The `Π_LaAND` + `F_EQ` pipeline on the triple region of the aBits:
both parties exchange HaAND hashes and shares, the evaluator aligns its z
bits, the contributor shifts its z keys, both halves of the `F_EQ`
commit-open check run, and on success the two updated triple vectors are
returned (`A` = contributor, `B` = evaluator; `NB` = number of 384-share
triple blocks). -/
def laand_pipeline (E : Env) (rA rB : PartyRand)
    (abitsA abitsB : Nat → BitShare) (NB : Nat) :
    Except Error ((Nat → BitShare) × (Nat → BitShare)) :=
  let hashA := compute_and_ot_data E rA rA.delta abitsA
  let hashB := compute_and_ot_data E rB rB.delta abitsB
  let sharesB := compute_and_shares E rB .Evaluator abitsB hashA
  let sharesA := compute_and_shares E rA .Contributor abitsA hashB
  let z2 := update_z2_eval abitsB sharesB sharesA
  let triplesB := z2.1
  let triplesA := update_z2_contrib rA.delta abitsA z2.2
  let uA := compute_u E rA.delta triplesA
  let uB := compute_u E rB.delta triplesB
  let wA := ot_ands4_w E rA rA.delta triplesA uB
  let wB := ot_ands4_w E rB rB.delta triplesB uA
  let rpA := ot_ands5_rprime E rA.delta triplesA wB
  let rpB := ot_ands5_rprime E rB.delta triplesB wA
  if (List.range (NB * 128)).all (fun t =>
      check_hash_ok E (fun s => E.hashKeys (rB.eqR s) (rB.eqS s)) rpA rA.eqR
        rpB (fun s => (rB.eqR s, rB.eqS s)) t) then
    if (List.range (NB * 128)).all (fun t =>
        check_hash_ok E (fun s => E.hashKeys (rA.eqR s) (rA.eqS s)) rpB rB.eqR
          rpA (fun s => (rA.eqR s, rA.eqS s)) t) then
      .ok (triplesA, triplesB)
    else .error .LeakyAndNotEqual
  else .error .LeakyAndNotEqual

/-- The LaAND stage on honestly paired aBits: both equality checks pass, the
stage succeeds, and every one of the `NB * 128` triples satisfies all six
aBit pairings plus the joint AND relation. -/
lemma laand_pipeline_spec (E : Env) (rA rB : PartyRand)
    (abitsA abitsB : Nat → BitShare) (NB : Nat)
    (hinv : abitsInv abitsA abitsB rA.delta rB.delta (NB * 384)) :
    ∃ triplesA triplesB,
      laand_pipeline E rA rB abitsA abitsB NB = .ok (triplesA, triplesB) ∧
      ∀ t, t < NB * 128 → tripleInv triplesA triplesB rA.delta rB.delta t := by
  have hz2 := update_z2_spec E rA rB rA.delta rB.delta abitsA abitsB NB hinv
  rw [laand_pipeline]
  set sharesB := compute_and_shares E rB .Evaluator abitsB
    (compute_and_ot_data E rA rA.delta abitsA) with hsB
  set sharesA := compute_and_shares E rA .Contributor abitsA
    (compute_and_ot_data E rB rB.delta abitsB) with hsA
  set triplesB := (update_z2_eval abitsB sharesB sharesA).1 with htB
  set triplesA := update_z2_contrib rA.delta abitsA
    (update_z2_eval abitsB sharesB sharesA).2 with htA
  obtain ⟨hinv2, _, hrel⟩ := hz2
  have hrow : ∀ t k, t < NB * 128 → k < 3 → t * 3 + k < NB * 384 := by
    intro t k ht hk
    have h1 : t * 3 + k < (t + 1) * 3 := by omega
    have h2 : (t + 1) * 3 ≤ NB * 128 * 3 := Nat.mul_le_mul_right _ ht
    have h3 : NB * 128 * 3 = NB * 384 := by ring
    omega
  have hidx : ∀ t k, t < NB * 128 → k < 3 →
      t * 3 + k = t / 128 * 384 + (3 * (t % 128) + k) := by
    intro t k ht hk
    omega
  have htrip : ∀ t, t < NB * 128 → tripleInv triplesA triplesB rA.delta rB.delta t := by
    intro t ht
    have hblk : t / 128 < NB := by omega
    have hi : t % 128 < 128 := by omega
    have hr := hrel (t / 128) hblk (t % 128) hi
    constructor
    · intro k hk
      rw [hidx t k ht hk]
      exact hinv2 _ (blk_row_lt hblk (by omega))
    · have h0 : t * 3 = t / 128 * 384 + 3 * (t % 128) := by omega
      have h1 : t * 3 + 1 = t / 128 * 384 + (3 * (t % 128) + 1) := by omega
      have h2 : t * 3 + 2 = t / 128 * 384 + (3 * (t % 128) + 2) := by omega
      rw [h2, h1, h0]
      exact hr
  have hrpA : ∀ t, t < NB * 128 →
      ot_ands5_rprime E rA.delta triplesA
        (ot_ands4_w E rB rB.delta triplesB (compute_u E rA.delta triplesA)) t =
        rB.eqR t := by
    intro t ht
    have h := htrip t ht
    refine rprime_eq E rB rB.delta rA.delta triplesB triplesA t ?_ ?_ ?_ ?_ ?_
    · have := (h.1 0 (by omega)).2
      rw [show t * 3 + 0 = 3 * t by ring] at this
      exact this
    · have := (h.1 1 (by omega)).2
      rw [show t * 3 + 1 = 3 * t + 1 by ring] at this
      exact this
    · have := (h.1 2 (by omega)).2
      rw [show t * 3 + 2 = 3 * t + 2 by ring] at this
      exact this
    · have := (h.1 0 (by omega)).1
      rw [show t * 3 + 0 = 3 * t by ring] at this
      exact this
    · have := h.2
      rw [show t * 3 + 2 = 3 * t + 2 by ring, show t * 3 + 1 = 3 * t + 1 by ring,
        show t * 3 = 3 * t by ring] at this
      rw [Bool.xor_comm ((triplesA (3 * t)).bit), Bool.xor_comm ((triplesA (3 * t + 1)).bit),
        Bool.xor_comm ((triplesA (3 * t + 2)).bit)] at this
      exact this
  have hrpB : ∀ t, t < NB * 128 →
      ot_ands5_rprime E rB.delta triplesB
        (ot_ands4_w E rA rA.delta triplesA (compute_u E rB.delta triplesB)) t =
        rA.eqR t := by
    intro t ht
    have h := htrip t ht
    refine rprime_eq E rA rA.delta rB.delta triplesA triplesB t ?_ ?_ ?_ ?_ ?_
    · have := (h.1 0 (by omega)).1
      rw [show t * 3 + 0 = 3 * t by ring] at this
      exact this
    · have := (h.1 1 (by omega)).1
      rw [show t * 3 + 1 = 3 * t + 1 by ring] at this
      exact this
    · have := (h.1 2 (by omega)).1
      rw [show t * 3 + 2 = 3 * t + 2 by ring] at this
      exact this
    · have := (h.1 0 (by omega)).2
      rw [show t * 3 + 0 = 3 * t by ring] at this
      exact this
    · have := h.2
      rw [show t * 3 + 2 = 3 * t + 2 by ring, show t * 3 + 1 = 3 * t + 1 by ring,
        show t * 3 = 3 * t by ring] at this
      exact this
  have hguardA : (List.range (NB * 128)).all (fun t =>
      check_hash_ok E (fun s => E.hashKeys (rB.eqR s) (rB.eqS s))
        (ot_ands5_rprime E rA.delta triplesA
          (ot_ands4_w E rB rB.delta triplesB (compute_u E rA.delta triplesA)))
        rA.eqR
        (ot_ands5_rprime E rB.delta triplesB
          (ot_ands4_w E rA rA.delta triplesA (compute_u E rB.delta triplesB)))
        (fun s => (rB.eqR s, rB.eqS s)) t) = true := by
    simp only [List.all_eq_true, List.mem_range]
    intro t ht
    rw [check_hash_ok, hrpA t ht, hrpB t ht]
    simp
  have hguardB : (List.range (NB * 128)).all (fun t =>
      check_hash_ok E (fun s => E.hashKeys (rA.eqR s) (rA.eqS s))
        (ot_ands5_rprime E rB.delta triplesB
          (ot_ands4_w E rA rA.delta triplesA (compute_u E rB.delta triplesB)))
        rB.eqR
        (ot_ands5_rprime E rA.delta triplesA
          (ot_ands4_w E rB rB.delta triplesB (compute_u E rA.delta triplesA)))
        (fun s => (rA.eqR s, rA.eqS s)) t) = true := by
    simp only [List.all_eq_true, List.mem_range]
    intro t ht
    rw [check_hash_ok, hrpB t ht, hrpA t ht]
    simp
  refine ⟨triplesA, triplesB, ?_, htrip⟩
  rw [if_pos hguardA, if_pos hguardB]

/-! ### Function-dependent preprocessing and online evaluation
(`preprocessing_assign_masks`, `sigma_mac`, `compute_hashes[_contrib]`,
`ot_ands8_*`, `InputProcContrib::run`, `InputProcEval::run`).

Wire-indexed vectors are functions from the gate index; vectors the source
indexes by the AND-gate counter are re-indexed by the gate index of the
corresponding AND gate (the counter is `andIdx`). -/

/-- `WireMask::xor` (`types.rs` lines 178-184). -/
def WireMask.xor (a b : WireMask) : WireMask :=
  ⟨a.label_0 ^^^ b.label_0, a.bit.xor b.bit⟩

/-- `WireMask::not` (`types.rs` lines 190-195). -/
def WireMask.not (m : WireMask) (delta : U128) : WireMask :=
  ⟨m.label_0 ^^^ delta, m.bit⟩

/-- `WireMask::label` (`types.rs` lines 168-174). -/
def WireMask.label (m : WireMask) (bit : Bool) (delta : U128) : U128 :=
  if bit then m.label_0 ^^^ delta else m.label_0

/-- Whether a gate consumes a wire aBit and a fresh label in
`preprocessing_assign_masks`. -/
def isInOrAnd : Gate → Bool
  | .InContrib => true
  | .InEval => true
  | .And _ _ => true
  | _ => false

/-- The aBit / label counter of `preprocessing_assign_masks` at gate `idx`. -/
def maskIdx (gates : List Gate) (idx : Nat) : Nat :=
  ((gates.take idx).filter isInOrAnd).length

/-- The AND counter (`ands` in the source) at gate `idx`. -/
def andIdx (gates : List Gate) (idx : Nat) : Nat :=
  ((gates.take idx).filter Gate.is_and).length

/-- The contributor-input counter at gate `idx`. -/
def contribIdx (gates : List Gate) (idx : Nat) : Nat :=
  ((gates.take idx).filter (fun g => g = Gate.InContrib)).length

/-- The evaluator-input counter at gate `idx`. -/
def evalIdx (gates : List Gate) (idx : Nat) : Nat :=
  ((gates.take idx).filter (fun g => g = Gate.InEval)).length

/-- `preprocessing_assign_masks` (`states.rs` lines 1115-1154) as a function
of the gate index: input and AND gates consume an aBit and a fresh label (in
gate order, so draw number `maskIdx`), XOR and NOT gates derive their mask
from their operands (already final, as operands precede the gate). -/
def assign_masks (delta : U128) (labels : Nat → U128) (abits : Nat → BitShare)
    (gates : List Gate) (idx : Nat) : WireMask :=
  match gates[idx]? with
  | some .InContrib => ⟨labels (maskIdx gates idx), abits (maskIdx gates idx)⟩
  | some .InEval => ⟨labels (maskIdx gates idx), abits (maskIdx gates idx)⟩
  | some (.And _ _) => ⟨labels (maskIdx gates idx), abits (maskIdx gates idx)⟩
  | some (.Xor a b) =>
    if h : a < idx ∧ b < idx then
      (assign_masks delta labels abits gates a).xor
        (assign_masks delta labels abits gates b)
    else ⟨0, ⟨0, 0, false⟩⟩
  | some (.NotG a) =>
    if h : a < idx then (assign_masks delta labels abits gates a).not delta
    else ⟨0, ⟨0, 0, false⟩⟩
  | none => ⟨0, ⟨0, 0, false⟩⟩
termination_by idx

/-- One party's `preprocessing_and_gate_bits` entries (`states.rs` lines
1161-1179) for the AND gate at index `idx`: the lhs/rhs mask bits blinded by
the triple's x/y bits. -/
def and_gate_bits (gates : List Gate) (masks : Nat → WireMask)
    (triples : Nat → BitShare) (idx : Nat) : Bool × Bool :=
  match gates[idx]? with
  | some (.And l r) =>
    ((masks l).bit.bit ^^ (triples (3 * andIdx gates idx)).bit,
     (masks r).bit.bit ^^ (triples (3 * andIdx gates idx + 1)).bit)
  | _ => (false, false)

/-- `OtAndsState6::sigma_mac` (`states.rs` lines 1428-1446), with the joint
(already-XORed) `lhs_and_bits[ands]` / `rhs_and_bits[ands]` entries passed
as the two booleans. -/
def sigma_mac (delta : U128) (and_triples : Nat → BitShare)
    (lhsb rhsb : Bool) (ands : Nat) (role : Role) : BitShare :=
  let res0 := and_triples (3 * ands + 2)
  let res1 := if lhsb then res0.xor (and_triples (3 * ands + 1)) else res0
  let res2 := if rhsb then res1.xor (and_triples (3 * ands)) else res1
  if lhsb && rhsb then
    match role with
    | .Contributor => { res2 with key := res2.key ^^^ delta }
    | .Evaluator => { res2 with bit := !res2.bit }
  else res2

/-- `compute_hashes_contrib` (`states.rs` lines 1076-1108): the four garbled
rows the contributor sends for one AND gate (`mac` of line 1110-1112 spelled
out; `gate_index as u32` is the `% 2^32`). -/
def compute_hashes_contrib (E : Env) (delta : U128) (gate_index : Nat)
    (output_mask lhs rhs : WireMask) (input_mask : BitShare) :
    Nat → BitShare :=
  let h0 := output_mask.bit.xor input_mask
  let h1 := h0.xor lhs.bit
  let h2 := h0.xor rhs.bit
  let h3p := h1.xor rhs.bit
  let h3 := { h3p with key := h3p.key ^^^ delta }
  let tr : BitShare → BitShare := fun h =>
    { h with key := (h.key ^^^ output_mask.label_0) ^^^
        (if h.bit then delta else 0) }
  let l0 := lhs.label_0
  let l1 := lhs.label_0 ^^^ delta
  let r0 := rhs.label_0
  let r1 := rhs.label_0 ^^^ delta
  fun row =>
    if row = 0 then (tr h0).xor (E.garbleHash l0 r0 (gate_index % 2 ^ 32) 0)
    else if row = 1 then (tr h1).xor (E.garbleHash l0 r1 (gate_index % 2 ^ 32) 1)
    else if row = 2 then (tr h2).xor (E.garbleHash l1 r0 (gate_index % 2 ^ 32) 2)
    else (tr h3).xor (E.garbleHash l1 r1 (gate_index % 2 ^ 32) 3)

/-- `compute_hashes` (`states.rs` lines 1638-1650): the evaluator's local
table shares for one AND gate. -/
def compute_hashes (output_mask lhs rhs : WireMask) (input_mask : BitShare) :
    Nat → BitShare :=
  let h0 := output_mask.bit.xor input_mask
  let h1 := h0.xor lhs.bit
  let h2 := h0.xor rhs.bit
  let h3p := h1.xor rhs.bit
  let h3 := { h3p with bit := h3p.bit ^^ true }
  fun row =>
    if row = 0 then h0
    else if row = 1 then h1
    else if row = 2 then h2
    else h3

/-- The reference clear-text wire value: input gates read the next input bit
(in gate order), the boolean gates compute on earlier wires. -/
def plain_wire (gates : List Gate) (inC inE : List Bool) (idx : Nat) : Bool :=
  match gates[idx]? with
  | some .InContrib => inC.getD (contribIdx gates idx) false
  | some .InEval => inE.getD (evalIdx gates idx) false
  | some (.Xor a b) =>
    if h : a < idx ∧ b < idx then
      plain_wire gates inC inE a ^^ plain_wire gates inC inE b
    else false
  | some (.And a b) =>
    if h : a < idx ∧ b < idx then
      plain_wire gates inC inE a && plain_wire gates inC inE b
    else false
  | some (.NotG a) =>
    if h : a < idx then ! plain_wire gates inC inE a
    else false
  | none => false
termination_by idx

/-- The in-the-clear evaluation of claim C1: compute every gate and project
the output gate indices. -/
def plain_eval (c : Circuit) (inC inE : List Bool) : List Bool :=
  c.output_gates.map (fun g => plain_wire c.gates inC inE g)

/-- The evaluator's online loop (`InputProcEval::run`, `states.rs` lines
1727-1757) as a function of the gate index, returning the pair
`(masked_value, label)` of each wire.  Input wires take the state received
during input processing; AND gates decrypt the garbled row selected by the
operands' masked values. -/
def eval_wires (E : Env) (gates : List Gate) (inputsW : Nat → Bool × U128)
    (myTable otherTable : Nat → Nat → BitShare) (idx : Nat) : Bool × U128 :=
  match gates[idx]? with
  | some .InContrib => inputsW idx
  | some .InEval => inputsW idx
  | some (.Xor a b) =>
    if h : a < idx ∧ b < idx then
      ((eval_wires E gates inputsW myTable otherTable a).1 ^^
        (eval_wires E gates inputsW myTable otherTable b).1,
       (eval_wires E gates inputsW myTable otherTable a).2 ^^^
        (eval_wires E gates inputsW myTable otherTable b).2)
    else (false, 0)
  | some (.NotG a) =>
    if h : a < idx then
      (! (eval_wires E gates inputsW myTable otherTable a).1,
       (eval_wires E gates inputsW myTable otherTable a).2)
    else (false, 0)
  | some (.And a b) =>
    if h : a < idx ∧ b < idx then
      let wa := eval_wires E gates inputsW myTable otherTable a
      let wb := eval_wires E gates inputsW myTable otherTable b
      let row := 2 * (if wa.1 then 1 else 0) + (if wb.1 then 1 else 0)
      let result := (otherTable idx row).xor
        (E.garbleHash wa.2 wb.2 (idx % 2 ^ 32) row)
      ((myTable idx row).bit ^^ result.bit,
       result.key ^^^ (myTable idx row).mac)
    else (false, 0)
  | none => (false, 0)
termination_by idx

/-- The garbled-table shares the contributor sends in `ot_ands8_contrib`
(`states.rs` lines 1376-1391), per AND-gate index and row.  The σ share uses
the joint and-gate bits (own XOR upstream, contributor orientation). -/
def tables_contrib (E : Env) (deltaC : U128) (gates : List Gate)
    (masksC masksE : Nat → WireMask) (triplesA triplesB : Nat → BitShare) :
    Nat → Nat → BitShare :=
  fun idx =>
    match gates[idx]? with
    | some (.And l r) =>
      compute_hashes_contrib E deltaC idx (masksC idx) (masksC l) (masksC r)
        (sigma_mac deltaC triplesA
          ((and_gate_bits gates masksC triplesA idx).1 ^^
            (and_gate_bits gates masksE triplesB idx).1)
          ((and_gate_bits gates masksC triplesA idx).2 ^^
            (and_gate_bits gates masksE triplesB idx).2)
          (andIdx gates idx) .Contributor)
    | _ => fun _ => ⟨0, 0, false⟩

/-- The evaluator's own table shares from `ot_ands8_eval` (`states.rs` lines
1463-1477), per AND-gate index and row (evaluator orientation of the joint
and-gate bits). -/
def tables_eval (E : Env) (deltaE : U128) (gates : List Gate)
    (masksC masksE : Nat → WireMask) (triplesA triplesB : Nat → BitShare) :
    Nat → Nat → BitShare :=
  fun idx =>
    match gates[idx]? with
    | some (.And l r) =>
      compute_hashes (masksE idx) (masksE l) (masksE r)
        (sigma_mac deltaE triplesB
          ((and_gate_bits gates masksE triplesB idx).1 ^^
            (and_gate_bits gates masksC triplesA idx).1)
          ((and_gate_bits gates masksE triplesB idx).2 ^^
            (and_gate_bits gates masksC triplesA idx).2)
          (andIdx gates idx) .Evaluator)
    | _ => fun _ => ⟨0, 0, false⟩

/-- The wire state for input wires after input processing: the evaluator
computes the masked bits of its own inputs (`ot_ands8_eval`, lines
1558-1569), the contributor those of its inputs and all the matching labels
(`InputProcContrib::run`, lines 1656-1682). -/
def input_wire_state (gates : List Gate) (masksC masksE : Nat → WireMask)
    (inC inE : List Bool) (deltaC : U128) (idx : Nat) : Bool × U128 :=
  match gates[idx]? with
  | some .InContrib =>
    let m := (inC.getD (contribIdx gates idx) false ^^ (masksE idx).bit.bit) ^^
      (masksC idx).bit.bit
    (m, (masksC idx).label m deltaC)
  | some .InEval =>
    let m := ((masksE idx).bit.bit ^^ (masksC idx).bit.bit) ^^
      inE.getD (evalIdx gates idx) false
    (m, (masksC idx).label m deltaC)
  | _ => (false, 0)

/-- The `assert!(bit_share.verify(..))` of `ot_ands8_eval` (lines 1517/1565)
over all evaluator-input wires: false means the process panics. -/
def eval_input_asserts (gates : List Gate) (masksC masksE : Nat → WireMask)
    (deltaE : U128) : Bool :=
  (List.range gates.length).all fun idx =>
    match gates[idx]? with
    | some .InEval =>
      PartialBitShare.verify ⟨(masksC idx).bit.mac, (masksC idx).bit.bit⟩
        (masksE idx).bit.key deltaE
    | _ => true

/-- The contributor's MAC checks on the evaluator's disclosed
contributor-input mask shares (`InputProcContrib::run`, line 1664). -/
def contrib_input_checks (gates : List Gate) (masksC masksE : Nat → WireMask)
    (deltaC : U128) : Bool :=
  (List.range gates.length).all fun idx =>
    match gates[idx]? with
    | some .InContrib =>
      PartialBitShare.verify ⟨(masksE idx).bit.mac, (masksE idx).bit.bit⟩
        (masksC idx).bit.key deltaC
    | _ => true

/-- The evaluator's garbled-row MAC checks (`InputProcEval::run`, lines
1749-1750), one per AND gate. -/
def eval_and_checks (E : Env) (gates : List Gate) (inputsW : Nat → Bool × U128)
    (myTable otherTable : Nat → Nat → BitShare) (deltaE : U128) : Bool :=
  (List.range gates.length).all fun idx =>
    match gates[idx]? with
    | some (.And a b) =>
      if a < idx ∧ b < idx then
        let wa := eval_wires E gates inputsW myTable otherTable a
        let wb := eval_wires E gates inputsW myTable otherTable b
        let row := 2 * (if wa.1 then 1 else 0) + (if wb.1 then 1 else 0)
        let result := (otherTable idx row).xor
          (E.garbleHash wa.2 wb.2 (idx % 2 ^ 32) row)
        PartialBitShare.verify ⟨result.mac, result.bit⟩
          (myTable idx row).key deltaE
      else true
    | _ => true

/-- The evaluator's MAC checks on the contributor's disclosed output-mask
shares (`InputProcEval::run`, lines 1766-1768). -/
def output_share_checks (c : Circuit) (masksC masksE : Nat → WireMask)
    (deltaE : U128) : Bool :=
  c.output_gates.all fun g =>
    PartialBitShare.verify ⟨(masksC g).bit.mac, (masksC g).bit.bit⟩
      (masksE g).bit.key deltaE

/-- The evaluator's final outputs (`InputProcEval::run`, lines 1770-1774):
each output wire's masked value unmasked by both parties' mask bits. -/
def eval_output (c : Circuit) (wires : Nat → Bool × U128)
    (masksC masksE : Nat → WireMask) : List Bool :=
  c.output_gates.map fun g =>
    ((wires g).1 ^^ (masksC g).bit.bit) ^^ (masksE g).bit.bit

/-- The composed protocol of `simulate` (`simulator.rs` lines 16-41): the
seven alternating steps of `Evaluator` and `Contributor`, at the granularity
of the stage functions above, with the typed messages wired exactly as the
state machines wire them.  `none` models a Rust panic (a failed
`assert!`). -/
def simulateModel (E : Env) (rA rB : PartyRand) (c : Circuit)
    (inC inE : List Bool) : Option (Except Error (List Bool)) :=
  match c.validate_evaluator_input inE with
  | .error e => some (.error e)
  | .ok _ =>
  match c.validate_contributor_input inC with
  | .error e => some (.error e)
  | .ok _ =>
  match ot_pipeline E rA rB c with
  | .error e => some (.error e)
  | .ok (abitsA, abitsB, coinA, coinB, blocks) =>
    let gates := c.gates
    let wire_bits := c.and_gates + c.eval_inputs + c.contrib_inputs
    let abits_blocks := (wire_bits + BLOCK_SIZE - 1) / BLOCK_SIZE
    let NB := (blocks - abits_blocks) / 3
    let wireA := fun k => abitsA ((blocks - abits_blocks) * BLOCK_SIZE + k)
    let wireB := fun k => abitsB ((blocks - abits_blocks) * BLOCK_SIZE + k)
    match laand_pipeline E rA rB abitsA abitsB NB with
    | .error e => some (.error e)
    | .ok (triplesA0, triplesB0) =>
      let B := bucket_size c
      let L := c.and_gates
      let permA := new_permutation E coinA (L * B)
      let permB := new_permutation E coinB (L * B)
      let msgA := bucketing_msg permA B triplesA0
      let msgB := bucketing_msg permB B triplesB0
      match update_triples_model rB.delta triplesB0 permB B L msgA msgB with
      | .error e => some (.error e)
      | .ok triplesB =>
      match update_triples_model rA.delta triplesA0 permA B L msgB msgA with
      | .error e => some (.error e)
      | .ok triplesA =>
        if hin : c.contrib_inputs + c.eval_inputs = 0 then
          some (.error .InvalidCircuit)
        else
          let masksC := assign_masks rA.delta rA.labels wireA gates
          let masksE := assign_masks rB.delta rB.labels wireB gates
          let tableC := tables_contrib E rA.delta gates masksC masksE triplesA triplesB
          let tableE := tables_eval E rB.delta gates masksC masksE triplesA triplesB
          if eval_input_asserts gates masksC masksE rB.delta = false then none
          else
            let inputsW := input_wire_state gates masksC masksE inC inE rA.delta
            if contrib_input_checks gates masksC masksE rA.delta = false then
              some (.error .MacError)
            else
              let wires := eval_wires E gates inputsW tableE tableC
              if eval_and_checks E gates inputsW tableE tableC rB.delta = false then
                some (.error .MacError)
              else if output_share_checks c masksC masksE rB.delta = false then
                some (.error .MacError)
              else some (.ok (eval_output c wires masksC masksE))

lemma pairInv_default (deltaQ : U128) :
    pairInv ⟨0, 0, false⟩ ⟨0, 0, false⟩ deltaQ := by
  rw [pairInv]
  simp

/-- The wire masks of the two parties pair correctly on every wire: XOR
gates combine paired shares, NOT gates keep them, input and AND gates take
them from the paired wire aBits. -/
lemma assign_masks_pairInv (deltaC deltaE : U128) (labC labE : Nat → U128)
    (wA wB : Nat → BitShare) (gates : List Gate)
    (hw : ∀ k, pairInv (wA k) (wB k) deltaE ∧ pairInv (wB k) (wA k) deltaC) :
    ∀ idx, pairInv (assign_masks deltaC labC wA gates idx).bit
        (assign_masks deltaE labE wB gates idx).bit deltaE ∧
      pairInv (assign_masks deltaE labE wB gates idx).bit
        (assign_masks deltaC labC wA gates idx).bit deltaC := by
  intro idx
  induction idx using Nat.strong_induction_on with
  | _ idx ih =>
    rw [assign_masks, assign_masks]
    rcases hgg : gates[idx]? with _ | g
    · exact ⟨pairInv_default _, pairInv_default _⟩
    · cases g with
      | InContrib => exact hw (maskIdx gates idx)
      | InEval => exact hw (maskIdx gates idx)
      | And a b => exact hw (maskIdx gates idx)
      | Xor a b =>
        by_cases h : a < idx ∧ b < idx
        · simp only [dif_pos h, WireMask.xor]
          exact ⟨pairInv_xor (ih a h.1).1 (ih b h.2).1,
            pairInv_xor (ih a h.1).2 (ih b h.2).2⟩
        · simp only [dif_neg h]
          exact ⟨pairInv_default _, pairInv_default _⟩
      | NotG a =>
        by_cases h : a < idx
        · simp only [dif_pos h, WireMask.not]
          exact ih a h
        · simp only [dif_neg h]
          exact ⟨pairInv_default _, pairInv_default _⟩

set_option maxHeartbeats 2000000 in
/-- The σ shares of the two parties pair correctly: the plain XOR chain is
covered by `pairInv_xor`, and in the double-correction case the
contributor's extra `Δ_C` on its key matches the evaluator's flipped bit. -/
lemma sigma_pairInv (deltaC deltaE : U128) (triplesA triplesB : Nat → BitShare)
    (l r : Bool) (t : Nat)
    (hx1 : pairInv (triplesA (3 * t)) (triplesB (3 * t)) deltaE)
    (hx2 : pairInv (triplesB (3 * t)) (triplesA (3 * t)) deltaC)
    (hy1 : pairInv (triplesA (3 * t + 1)) (triplesB (3 * t + 1)) deltaE)
    (hy2 : pairInv (triplesB (3 * t + 1)) (triplesA (3 * t + 1)) deltaC)
    (hz1 : pairInv (triplesA (3 * t + 2)) (triplesB (3 * t + 2)) deltaE)
    (hz2 : pairInv (triplesB (3 * t + 2)) (triplesA (3 * t + 2)) deltaC) :
    pairInv (sigma_mac deltaC triplesA l r t .Contributor)
      (sigma_mac deltaE triplesB l r t .Evaluator) deltaE ∧
    pairInv (sigma_mac deltaE triplesB l r t .Evaluator)
      (sigma_mac deltaC triplesA l r t .Contributor) deltaC := by
  rw [pairInv] at hx1 hx2 hy1 hy2 hz1 hz2
  generalize hg1 : triplesA (3 * t) = sxA at hx1 hx2 ⊢
  generalize hg2 : triplesB (3 * t) = sxB at hx1 hx2 ⊢
  generalize hg3 : triplesA (3 * t + 1) = syA at hy1 hy2 ⊢
  generalize hg4 : triplesB (3 * t + 1) = syB at hy1 hy2 ⊢
  generalize hg5 : triplesA (3 * t + 2) = szA at hz1 hz2 ⊢
  generalize hg6 : triplesB (3 * t + 2) = szB at hz1 hz2 ⊢
  obtain ⟨kxA, mxA, xA⟩ := sxA
  obtain ⟨kxB, mxB, xB⟩ := sxB
  obtain ⟨kyA, myA, yA⟩ := syA
  obtain ⟨kyB, myB, yB⟩ := syB
  obtain ⟨kzA, mzA, zA⟩ := szA
  obtain ⟨kzB, mzB, zB⟩ := szB
  simp only [] at hx1 hx2 hy1 hy2 hz1 hz2
  rw [sigma_mac, sigma_mac]
  simp only [BitShare.xor]
  constructor
  · rw [pairInv]
    cases l <;> cases r <;> cases xA <;> cases yA <;> cases zA <;>
      simp_all [Nat.xor_assoc, Nat.xor_comm, xor_left_comm,
        xor_cancel_left, Nat.xor_self, Nat.zero_xor, Nat.xor_zero]
  · rw [pairInv]
    cases l <;> cases r <;> cases xB <;> cases yB <;> cases zB <;>
      simp_all [Nat.xor_assoc, Nat.xor_comm, xor_left_comm,
        xor_cancel_left, Nat.xor_self, Nat.zero_xor, Nat.xor_zero]

/-- The joint σ bit is the AND of the two joint wire-mask bits: with
`l = λ_l ⊕ x`, `r = λ_r ⊕ y` and `z = x ∧ y` jointly, the blinding
cancels. -/
lemma sigma_joint_bit (deltaC deltaE : U128) (triplesA triplesB : Nat → BitShare)
    (laml lamr : Bool) (t : Nat)
    (hrel : ((triplesA (3 * t + 2)).bit ^^ (triplesB (3 * t + 2)).bit) =
      (((triplesA (3 * t)).bit ^^ (triplesB (3 * t)).bit) &&
        ((triplesA (3 * t + 1)).bit ^^ (triplesB (3 * t + 1)).bit))) :
    ((sigma_mac deltaC triplesA
        (laml ^^ ((triplesA (3 * t)).bit ^^ (triplesB (3 * t)).bit))
        (lamr ^^ ((triplesA (3 * t + 1)).bit ^^ (triplesB (3 * t + 1)).bit))
        t .Contributor).bit ^^
      (sigma_mac deltaE triplesB
        (laml ^^ ((triplesA (3 * t)).bit ^^ (triplesB (3 * t)).bit))
        (lamr ^^ ((triplesA (3 * t + 1)).bit ^^ (triplesB (3 * t + 1)).bit))
        t .Evaluator).bit) = (laml && lamr) := by
  generalize hg1 : triplesA (3 * t) = sxA at hrel ⊢
  generalize hg2 : triplesB (3 * t) = sxB at hrel ⊢
  generalize hg3 : triplesA (3 * t + 1) = syA at hrel ⊢
  generalize hg4 : triplesB (3 * t + 1) = syB at hrel ⊢
  generalize hg5 : triplesA (3 * t + 2) = szA at hrel ⊢
  generalize hg6 : triplesB (3 * t + 2) = szB at hrel ⊢
  obtain ⟨kxA, mxA, xA⟩ := sxA
  obtain ⟨kxB, mxB, xB⟩ := sxB
  obtain ⟨kyA, myA, yA⟩ := syA
  obtain ⟨kyB, myB, yB⟩ := syB
  obtain ⟨kzA, mzA, zA⟩ := szA
  obtain ⟨kzB, mzB, zB⟩ := szB
  simp only [] at hrel
  rw [sigma_mac, sigma_mac]
  simp only [BitShare.xor]
  cases laml <;> cases lamr <;> cases xA <;> cases xB <;> cases yA <;>
    cases yB <;> cases zA <;> cases zB <;> simp_all

lemma BitShare.xor_cancel (a b : BitShare) : (a.xor b).xor b = a := by
  obtain ⟨k, m, bb⟩ := a
  obtain ⟨k2, m2, b2⟩ := b
  simp [BitShare.xor, Nat.xor_assoc, Nat.xor_self, Nat.xor_zero,
    Bool.xor_assoc]

/-- One decrypted garbled row (rows 0-2): the MAC check passes and the
label algebra recovers the zero label shifted by the joint row bit. -/
lemma garbled_row_core (deltaC deltaE l0O : U128) (hC hE : BitShare)
    (p : pairInv hC hE deltaE) (q : pairInv hE hC deltaC) :
    (PartialBitShare.verify ⟨hC.mac, hC.bit⟩ hE.key deltaE = true) ∧
    (((hC.key ^^^ l0O) ^^^ (if hC.bit then deltaC else 0)) ^^^ hE.mac =
      l0O ^^^ (if (hE.bit ^^ hC.bit) then deltaC else 0)) := by
  constructor
  · exact pairInv_verify p
  · rw [pairInv] at q
    rw [q]
    generalize hC.bit = bc
    generalize hE.bit = be
    cases bc <;> cases be <;>
      simp [Nat.xor_assoc, Nat.xor_comm, xor_left_comm, xor_cancel_left,
        Nat.xor_self, Nat.zero_xor, Nat.xor_zero]

/-- Row 3: the contributor's extra `Δ_C` on the key cancels against the
evaluator's flipped bit. -/
lemma garbled_row3_core (deltaC deltaE l0O : U128) (hC hE : BitShare)
    (p : pairInv hC hE deltaE) (q : pairInv hE hC deltaC) :
    (PartialBitShare.verify ⟨hC.mac, hC.bit⟩ hE.key deltaE = true) ∧
    ((((hC.key ^^^ deltaC) ^^^ l0O) ^^^ (if hC.bit then deltaC else 0)) ^^^
        hE.mac =
      l0O ^^^ (if ((hE.bit ^^ true) ^^ hC.bit) then deltaC else 0)) := by
  constructor
  · exact pairInv_verify p
  · rw [pairInv] at q
    rw [q]
    generalize hC.bit = bc
    generalize hE.bit = be
    cases bc <;> cases be <;>
      simp [Nat.xor_assoc, Nat.xor_comm, xor_left_comm, xor_cancel_left,
        Nat.xor_self, Nat.zero_xor, Nat.xor_zero]

lemma ite_xor_bool (A B : Bool) (d : U128) :
    (if (A ^^ B) = true then d else 0) = (if A = B then 0 else d) := by
  cases A <;> cases B <;> simp

lemma ite_not_xor (A B : Bool) (d : U128) :
    (if (A ^^ true) = B then 0 else d) = (if A = B then d else 0) := by
  cases A <;> cases B <;> simp

set_option maxHeartbeats 2000000 in
/-- The online step of one AND gate: decrypting the garbled row selected by
the operands' masked values passes the MAC check, produces the masked AND of
the unmasked operand values, and recovers the label matching the new masked
value. -/
lemma and_gate_online (E : Env) (deltaC deltaE : U128) (gi : Nat)
    (mOC mLC mRC mOE mLE mRE : WireMask) (σC σE : BitShare) (ma mb : Bool)
    (row : Nat) (result myrow : BitShare)
    (hrow : row = 2 * (if ma then 1 else 0) + (if mb then 1 else 0))
    (hres : result = (compute_hashes_contrib E deltaC gi mOC mLC mRC σC row).xor
      (E.garbleHash (mLC.label_0 ^^^ (if ma then deltaC else 0))
        (mRC.label_0 ^^^ (if mb then deltaC else 0)) (gi % 2 ^ 32) row))
    (hmy : myrow = compute_hashes mOE mLE mRE σE row)
    (hO1 : pairInv mOC.bit mOE.bit deltaE) (hO2 : pairInv mOE.bit mOC.bit deltaC)
    (hL1 : pairInv mLC.bit mLE.bit deltaE) (hL2 : pairInv mLE.bit mLC.bit deltaC)
    (hR1 : pairInv mRC.bit mRE.bit deltaE) (hR2 : pairInv mRE.bit mRC.bit deltaC)
    (hs1 : pairInv σC σE deltaE) (hs2 : pairInv σE σC deltaC)
    (hsb : (σC.bit ^^ σE.bit) =
      ((mLC.bit.bit ^^ mLE.bit.bit) && (mRC.bit.bit ^^ mRE.bit.bit))) :
    (PartialBitShare.verify ⟨result.mac, result.bit⟩ myrow.key deltaE = true) ∧
    ((myrow.bit ^^ result.bit) =
      (((ma ^^ (mLC.bit.bit ^^ mLE.bit.bit)) &&
          (mb ^^ (mRC.bit.bit ^^ mRE.bit.bit))) ^^
        (mOC.bit.bit ^^ mOE.bit.bit))) ∧
    (result.key ^^^ myrow.mac =
      mOC.label_0 ^^^ (if (myrow.bit ^^ result.bit) then deltaC else 0)) := by
  have p0 : pairInv (mOC.bit.xor σC) (mOE.bit.xor σE) deltaE := pairInv_xor hO1 hs1
  have q0 : pairInv (mOE.bit.xor σE) (mOC.bit.xor σC) deltaC := pairInv_xor hO2 hs2
  have p1 : pairInv ((mOC.bit.xor σC).xor mLC.bit) ((mOE.bit.xor σE).xor mLE.bit)
      deltaE := pairInv_xor p0 hL1
  have q1 : pairInv ((mOE.bit.xor σE).xor mLE.bit) ((mOC.bit.xor σC).xor mLC.bit)
      deltaC := pairInv_xor q0 hL2
  have p2 : pairInv ((mOC.bit.xor σC).xor mRC.bit) ((mOE.bit.xor σE).xor mRE.bit)
      deltaE := pairInv_xor p0 hR1
  have q2 : pairInv ((mOE.bit.xor σE).xor mRE.bit) ((mOC.bit.xor σC).xor mRC.bit)
      deltaC := pairInv_xor q0 hR2
  have p3 : pairInv (((mOC.bit.xor σC).xor mLC.bit).xor mRC.bit)
      (((mOE.bit.xor σE).xor mLE.bit).xor mRE.bit) deltaE := pairInv_xor p1 hR1
  have q3 : pairInv (((mOE.bit.xor σE).xor mLE.bit).xor mRE.bit)
      (((mOC.bit.xor σC).xor mLC.bit).xor mRC.bit) deltaC := pairInv_xor q1 hR2
  subst hrow hres hmy
  cases ma <;> cases mb
  · -- row 0
    norm_num [compute_hashes_contrib, compute_hashes, BitShare.xor_cancel]
    refine ⟨(garbled_row_core deltaC deltaE mOC.label_0 _ _ p0 q0).1, ?_, ?_⟩
    · simp only [BitShare.xor]
      generalize mOC.bit.bit = a at hsb ⊢
      generalize mOE.bit.bit = b at hsb ⊢
      generalize σC.bit = sc at hsb ⊢
      generalize σE.bit = se at hsb ⊢
      generalize mLC.bit.bit = lc at hsb ⊢
      generalize mLE.bit.bit = le at hsb ⊢
      generalize mRC.bit.bit = rc at hsb ⊢
      generalize mRE.bit.bit = re at hsb ⊢
      revert hsb
      revert a b sc se lc le rc re
      decide
    · have h := (garbled_row_core deltaC deltaE mOC.label_0 _ _ p0 q0).2
      rw [ite_xor_bool] at h
      exact h
  · -- row 1
    norm_num [compute_hashes_contrib, compute_hashes, BitShare.xor_cancel]
    refine ⟨(garbled_row_core deltaC deltaE mOC.label_0 _ _ p1 q1).1, ?_, ?_⟩
    · simp only [BitShare.xor]
      generalize mOC.bit.bit = a at hsb ⊢
      generalize mOE.bit.bit = b at hsb ⊢
      generalize σC.bit = sc at hsb ⊢
      generalize σE.bit = se at hsb ⊢
      generalize mLC.bit.bit = lc at hsb ⊢
      generalize mLE.bit.bit = le at hsb ⊢
      generalize mRC.bit.bit = rc at hsb ⊢
      generalize mRE.bit.bit = re at hsb ⊢
      revert hsb
      revert a b sc se lc le rc re
      decide
    · have h := (garbled_row_core deltaC deltaE mOC.label_0 _ _ p1 q1).2
      rw [ite_xor_bool] at h
      exact h
  · -- row 2
    norm_num [compute_hashes_contrib, compute_hashes, BitShare.xor_cancel]
    refine ⟨(garbled_row_core deltaC deltaE mOC.label_0 _ _ p2 q2).1, ?_, ?_⟩
    · simp only [BitShare.xor]
      generalize mOC.bit.bit = a at hsb ⊢
      generalize mOE.bit.bit = b at hsb ⊢
      generalize σC.bit = sc at hsb ⊢
      generalize σE.bit = se at hsb ⊢
      generalize mLC.bit.bit = lc at hsb ⊢
      generalize mLE.bit.bit = le at hsb ⊢
      generalize mRC.bit.bit = rc at hsb ⊢
      generalize mRE.bit.bit = re at hsb ⊢
      revert hsb
      revert a b sc se lc le rc re
      decide
    · have h := (garbled_row_core deltaC deltaE mOC.label_0 _ _ p2 q2).2
      rw [ite_xor_bool] at h
      exact h
  · -- row 3
    norm_num [compute_hashes_contrib, compute_hashes, BitShare.xor_cancel]
    refine ⟨(garbled_row3_core deltaC deltaE mOC.label_0 _ _ p3 q3).1, ?_, ?_⟩
    · simp only [BitShare.xor]
      generalize mOC.bit.bit = a at hsb ⊢
      generalize mOE.bit.bit = b at hsb ⊢
      generalize σC.bit = sc at hsb ⊢
      generalize σE.bit = se at hsb ⊢
      generalize mLC.bit.bit = lc at hsb ⊢
      generalize mLE.bit.bit = le at hsb ⊢
      generalize mRC.bit.bit = rc at hsb ⊢
      generalize mRE.bit.bit = re at hsb ⊢
      revert hsb
      revert a b sc se lc le rc re
      decide
    · have h := (garbled_row3_core deltaC deltaE mOC.label_0 _ _ p3 q3).2
      rw [ite_xor_bool, ite_not_xor] at h
      exact h

lemma filter_take_lt (p : Gate → Bool) (gates : List Gate) (idx : Nat)
    (g : Gate) (hg : gates[idx]? = some g) (hp : p g = true) :
    ((gates.take idx).filter p).length < (gates.filter p).length := by
  have hidx : idx < gates.length := (List.getElem?_eq_some.mp hg).1
  have hgat : gates[idx] = g := by
    obtain ⟨h, hv⟩ := List.getElem?_eq_some.mp hg
    exact hv
  have hsplit : gates = gates.take idx ++ gates[idx] :: gates.drop (idx + 1) := by
    conv_lhs => rw [← List.take_append_drop idx gates]
    rw [List.drop_eq_getElem_cons hidx]
  conv_rhs => rw [hsplit]
  rw [List.filter_append, List.filter_cons, hgat, hp]
  simp only [if_pos, List.length_append, List.length_cons]
  omega

lemma getElem?_of_lt (gates : List Gate) {a n : Nat} (ha : a < n)
    (hn : n < gates.length) : gates[a]? = some gates[a] :=
  List.getElem?_eq_getElem (by omega)

lemma label_eq (m : WireMask) (b : Bool) (d : U128) :
    m.label b d = m.label_0 ^^^ (if b then d else 0) := by
  rw [WireMask.label]
  cases b <;> simp

set_option maxHeartbeats 2000000 in
/-- The online evaluation invariant: on a well-formed circuit, every wire's
masked value is the clear value XOR the joint mask bit, and every wire's
label is the contributor's zero label shifted by `Δ_C` exactly when the
masked value is set. -/
lemma online_invariant (E : Env) (deltaC deltaE : U128)
    (gates : List Gate) (inC inE : List Bool)
    (masksC masksE : Nat → WireMask) (triplesA triplesB : Nat → BitShare)
    (hmask : ∀ idx, pairInv (masksC idx).bit (masksE idx).bit deltaE ∧
      pairInv (masksE idx).bit (masksC idx).bit deltaC)
    (hXorC : ∀ idx a b, gates[idx]? = some (.Xor a b) → a < idx ∧ b < idx →
      masksC idx = (masksC a).xor (masksC b))
    (hXorE : ∀ idx a b, gates[idx]? = some (.Xor a b) → a < idx ∧ b < idx →
      masksE idx = (masksE a).xor (masksE b))
    (hNotC : ∀ idx a, gates[idx]? = some (.NotG a) → a < idx →
      masksC idx = (masksC a).not deltaC)
    (hNotE : ∀ idx a, gates[idx]? = some (.NotG a) → a < idx →
      masksE idx = (masksE a).not deltaE)
    (htrip : ∀ t, t < (gates.filter Gate.is_and).length →
      tripleInv triplesA triplesB deltaC deltaE t)
    (hok : ∀ i g, gates[i]? = some g → gateSpecOk i g) :
    ∀ idx, idx < gates.length →
      ((eval_wires E gates (input_wire_state gates masksC masksE inC inE deltaC)
          (tables_eval E deltaE gates masksC masksE triplesA triplesB)
          (tables_contrib E deltaC gates masksC masksE triplesA triplesB) idx).1 =
        (plain_wire gates inC inE idx ^^
          ((masksC idx).bit.bit ^^ (masksE idx).bit.bit))) ∧
      ((eval_wires E gates (input_wire_state gates masksC masksE inC inE deltaC)
          (tables_eval E deltaE gates masksC masksE triplesA triplesB)
          (tables_contrib E deltaC gates masksC masksE triplesA triplesB) idx).2 =
        (masksC idx).label_0 ^^^
          (if (eval_wires E gates
              (input_wire_state gates masksC masksE inC inE deltaC)
              (tables_eval E deltaE gates masksC masksE triplesA triplesB)
              (tables_contrib E deltaC gates masksC masksE triplesA triplesB)
              idx).1 then deltaC else 0)) := by
  set inpW := input_wire_state gates masksC masksE inC inE deltaC with hinpW
  set TE := tables_eval E deltaE gates masksC masksE triplesA triplesB with hTE
  set TC := tables_contrib E deltaC gates masksC masksE triplesA triplesB with hTC
  intro idx
  induction idx using Nat.strong_induction_on with
  | _ idx ih =>
    intro hidx
    have hgq : gates[idx]? = some gates[idx] := List.getElem?_eq_getElem hidx
    rcases hgat : gates[idx] with _ | _ | ⟨a, b⟩ | ⟨a, b⟩ | a
    · -- InContrib
      have hg : gates[idx]? = some Gate.InContrib := by rw [hgq, hgat]
      rw [eval_wires, plain_wire]
      simp only [hg, hinpW, input_wire_state]
      constructor
      · generalize inC.getD (contribIdx gates idx) false = v
        generalize (masksC idx).bit.bit = lc
        generalize (masksE idx).bit.bit = le
        revert v lc le
        decide
      · rw [label_eq]
    · -- InEval
      have hg : gates[idx]? = some Gate.InEval := by rw [hgq, hgat]
      rw [eval_wires, plain_wire]
      simp only [hg, hinpW, input_wire_state]
      constructor
      · generalize inE.getD (evalIdx gates idx) false = v
        generalize (masksC idx).bit.bit = lc
        generalize (masksE idx).bit.bit = le
        revert v lc le
        decide
      · rw [label_eq]
    · -- Xor
      have hg : gates[idx]? = some (Gate.Xor a b) := by rw [hgq, hgat]
      have hab : a < idx ∧ b < idx := by
        have := hok idx _ hg
        simpa [gateSpecOk] using this
      have iha := ih a hab.1 (by omega)
      have ihb := ih b hab.2 (by omega)
      rw [eval_wires, plain_wire]
      simp only [hg, dif_pos hab]
      rw [hXorC idx a b hg hab, hXorE idx a b hg hab]
      constructor
      · rw [iha.1, ihb.1]
        simp only [WireMask.xor, BitShare.xor]
        generalize plain_wire gates inC inE a = pa
        generalize plain_wire gates inC inE b = pb
        generalize (masksC a).bit.bit = ca
        generalize (masksE a).bit.bit = ea
        generalize (masksC b).bit.bit = cb
        generalize (masksE b).bit.bit = eb
        revert pa pb ca ea cb eb
        decide
      · rw [iha.2, ihb.2, iha.1, ihb.1]
        simp only [WireMask.xor, BitShare.xor]
        generalize plain_wire gates inC inE a = pa
        generalize plain_wire gates inC inE b = pb
        generalize hca : (masksC a).bit.bit = ca
        generalize hea : (masksE a).bit.bit = ea
        generalize hcb : (masksC b).bit.bit = cb
        generalize heb : (masksE b).bit.bit = eb
        cases pa <;> cases pb <;> cases ca <;> cases ea <;> cases cb <;>
          cases eb <;>
          simp [Nat.xor_assoc, Nat.xor_comm, xor_left_comm, xor_cancel_left,
            Nat.xor_self, Nat.zero_xor, Nat.xor_zero]
    · -- And
      have hg : gates[idx]? = some (Gate.And a b) := by rw [hgq, hgat]
      have hab : a < idx ∧ b < idx := by
        have := hok idx _ hg
        simpa [gateSpecOk] using this
      have iha := ih a hab.1 (by omega)
      have ihb := ih b hab.2 (by omega)
      have ht : andIdx gates idx < (gates.filter Gate.is_and).length := by
        rw [andIdx]
        exact filter_take_lt Gate.is_and gates idx _ hg rfl
      have htI := htrip (andIdx gates idx) ht
      have h30 : andIdx gates idx * 3 = 3 * andIdx gates idx := by ring
      have h31 : andIdx gates idx * 3 + 1 = 3 * andIdx gates idx + 1 := by ring
      have h32 : andIdx gates idx * 3 + 2 = 3 * andIdx gates idx + 2 := by ring
      obtain ⟨hparts, hrel⟩ := htI
      rw [h32, h31, h30] at hrel
      have hx := hparts 0 (by omega)
      have hy := hparts 1 (by omega)
      have hz := hparts 2 (by omega)
      rw [Nat.add_zero, h30] at hx
      rw [h31] at hy
      rw [h32] at hz
      have hσ := sigma_pairInv deltaC deltaE triplesA triplesB
        (((and_gate_bits gates masksC triplesA idx).1 ^^
          (and_gate_bits gates masksE triplesB idx).1))
        (((and_gate_bits gates masksC triplesA idx).2 ^^
          (and_gate_bits gates masksE triplesB idx).2))
        (andIdx gates idx) hx.1 hx.2 hy.1 hy.2 hz.1 hz.2
      have hswapL : ((and_gate_bits gates masksC triplesA idx).1 ^^
          (and_gate_bits gates masksE triplesB idx).1) =
          (((masksC a).bit.bit ^^ (masksE a).bit.bit) ^^
            ((triplesA (3 * andIdx gates idx)).bit ^^
              (triplesB (3 * andIdx gates idx)).bit)) := by
        simp only [and_gate_bits, hg]
        exact bool_xor_swap _ _ _ _
      have hswapR : ((and_gate_bits gates masksC triplesA idx).2 ^^
          (and_gate_bits gates masksE triplesB idx).2) =
          (((masksC b).bit.bit ^^ (masksE b).bit.bit) ^^
            ((triplesA (3 * andIdx gates idx + 1)).bit ^^
              (triplesB (3 * andIdx gates idx + 1)).bit)) := by
        simp only [and_gate_bits, hg]
        exact bool_xor_swap _ _ _ _
      have hsbit := sigma_joint_bit deltaC deltaE triplesA triplesB
        ((masksC a).bit.bit ^^ (masksE a).bit.bit)
        ((masksC b).bit.bit ^^ (masksE b).bit.bit)
        (andIdx gates idx) hrel
      rw [← hswapL, ← hswapR] at hsbit
      have hTEidx : ∀ row, TE idx row =
          compute_hashes (masksE idx) (masksE a) (masksE b)
            (sigma_mac deltaE triplesB
              ((and_gate_bits gates masksC triplesA idx).1 ^^
                (and_gate_bits gates masksE triplesB idx).1)
              ((and_gate_bits gates masksC triplesA idx).2 ^^
                (and_gate_bits gates masksE triplesB idx).2)
              (andIdx gates idx) .Evaluator) row := by
        intro row
        rw [hTE, tables_eval]
        simp only [hg]
        rw [Bool.xor_comm ((and_gate_bits gates masksE triplesB idx).1),
          Bool.xor_comm ((and_gate_bits gates masksE triplesB idx).2)]
      have hTCidx : ∀ row, TC idx row =
          compute_hashes_contrib E deltaC idx (masksC idx) (masksC a) (masksC b)
            (sigma_mac deltaC triplesA
              ((and_gate_bits gates masksC triplesA idx).1 ^^
                (and_gate_bits gates masksE triplesB idx).1)
              ((and_gate_bits gates masksC triplesA idx).2 ^^
                (and_gate_bits gates masksE triplesB idx).2)
              (andIdx gates idx) .Contributor) row := by
        intro row
        rw [hTC, tables_contrib]
        simp only [hg]
      rw [eval_wires, plain_wire]
      simp only [hg, dif_pos hab]
      have hmain := and_gate_online E deltaC deltaE idx
        (masksC idx) (masksC a) (masksC b) (masksE idx) (masksE a) (masksE b)
        (sigma_mac deltaC triplesA
          ((and_gate_bits gates masksC triplesA idx).1 ^^
            (and_gate_bits gates masksE triplesB idx).1)
          ((and_gate_bits gates masksC triplesA idx).2 ^^
            (and_gate_bits gates masksE triplesB idx).2)
          (andIdx gates idx) .Contributor)
        (sigma_mac deltaE triplesB
          ((and_gate_bits gates masksC triplesA idx).1 ^^
            (and_gate_bits gates masksE triplesB idx).1)
          ((and_gate_bits gates masksC triplesA idx).2 ^^
            (and_gate_bits gates masksE triplesB idx).2)
          (andIdx gates idx) .Evaluator)
        (eval_wires E gates inpW TE TC a).1 (eval_wires E gates inpW TE TC b).1
        (2 * (if (eval_wires E gates inpW TE TC a).1 then 1 else 0) +
          (if (eval_wires E gates inpW TE TC b).1 then 1 else 0))
        ((TC idx (2 * (if (eval_wires E gates inpW TE TC a).1 then 1 else 0) +
            (if (eval_wires E gates inpW TE TC b).1 then 1 else 0))).xor
          (E.garbleHash (eval_wires E gates inpW TE TC a).2
            (eval_wires E gates inpW TE TC b).2 (idx % 2 ^ 32)
            (2 * (if (eval_wires E gates inpW TE TC a).1 then 1 else 0) +
              (if (eval_wires E gates inpW TE TC b).1 then 1 else 0))))
        (TE idx (2 * (if (eval_wires E gates inpW TE TC a).1 then 1 else 0) +
          (if (eval_wires E gates inpW TE TC b).1 then 1 else 0)))
        rfl
        (by
          rw [hTCidx, iha.2, ihb.2])
        (by rw [hTEidx])
        (hmask idx).1 (hmask idx).2 (hmask a).1 (hmask a).2
        (hmask b).1 (hmask b).2 hσ.1 hσ.2 hsbit
      obtain ⟨hver, hbit, hlab⟩ := hmain
      constructor
      · rw [hbit, iha.1, ihb.1]
        generalize plain_wire gates inC inE a = pa
        generalize plain_wire gates inC inE b = pb
        generalize (masksC a).bit.bit = ca
        generalize (masksE a).bit.bit = ea
        generalize (masksC b).bit.bit = cb
        generalize (masksE b).bit.bit = eb
        generalize (masksC idx).bit.bit = co
        generalize (masksE idx).bit.bit = eo
        revert pa pb ca ea cb eb co eo
        decide
      · exact hlab
    · -- NotG
      have hg : gates[idx]? = some (Gate.NotG a) := by rw [hgq, hgat]
      have ha : a < idx := by
        have := hok idx _ hg
        simpa [gateSpecOk] using this
      have iha := ih a ha (by omega)
      rw [eval_wires, plain_wire]
      simp only [hg, dif_pos ha]
      rw [hNotC idx a hg ha, hNotE idx a hg ha]
      constructor
      · rw [iha.1]
        simp only [WireMask.not]
        generalize plain_wire gates inC inE a = pa
        generalize (masksC a).bit.bit = ca
        generalize (masksE a).bit.bit = ea
        revert pa ca ea
        decide
      · rw [iha.2, iha.1]
        simp only [WireMask.not]
        generalize plain_wire gates inC inE a = pa
        generalize (masksC a).bit.bit = ca
        generalize (masksE a).bit.bit = ea
        cases pa <;> cases ca <;> cases ea <;>
          simp [Nat.xor_assoc, Nat.xor_comm, xor_left_comm, xor_cancel_left,
            Nat.xor_self, Nat.zero_xor, Nat.xor_zero]

lemma eval_input_asserts_true (gates : List Gate)
    (masksC masksE : Nat → WireMask) (deltaE deltaC : U128)
    (hmask : ∀ idx, pairInv (masksC idx).bit (masksE idx).bit deltaE ∧
      pairInv (masksE idx).bit (masksC idx).bit deltaC) :
    eval_input_asserts gates masksC masksE deltaE = true := by
  rw [eval_input_asserts]
  simp only [List.all_eq_true, List.mem_range]
  intro idx _
  rcases gates[idx]? with _ | g
  · rfl
  · cases g
    all_goals first
      | rfl
      | exact pairInv_verify (hmask idx).1

lemma contrib_input_checks_true (gates : List Gate)
    (masksC masksE : Nat → WireMask) (deltaE deltaC : U128)
    (hmask : ∀ idx, pairInv (masksC idx).bit (masksE idx).bit deltaE ∧
      pairInv (masksE idx).bit (masksC idx).bit deltaC) :
    contrib_input_checks gates masksC masksE deltaC = true := by
  rw [contrib_input_checks]
  simp only [List.all_eq_true, List.mem_range]
  intro idx _
  rcases gates[idx]? with _ | g
  · rfl
  · cases g
    all_goals first
      | rfl
      | exact pairInv_verify (hmask idx).2

lemma output_share_checks_true (c : Circuit)
    (masksC masksE : Nat → WireMask) (deltaE deltaC : U128)
    (hmask : ∀ idx, pairInv (masksC idx).bit (masksE idx).bit deltaE ∧
      pairInv (masksE idx).bit (masksC idx).bit deltaC) :
    output_share_checks c masksC masksE deltaE = true := by
  rw [output_share_checks]
  simp only [List.all_eq_true]
  intro g _
  exact pairInv_verify (hmask g).1

set_option maxHeartbeats 2000000 in
/-- Every garbled-row MAC check of the online loop passes. -/
lemma eval_and_checks_true (E : Env) (deltaC deltaE : U128)
    (gates : List Gate) (inC inE : List Bool)
    (masksC masksE : Nat → WireMask) (triplesA triplesB : Nat → BitShare)
    (hmask : ∀ idx, pairInv (masksC idx).bit (masksE idx).bit deltaE ∧
      pairInv (masksE idx).bit (masksC idx).bit deltaC)
    (hXorC : ∀ idx a b, gates[idx]? = some (.Xor a b) → a < idx ∧ b < idx →
      masksC idx = (masksC a).xor (masksC b))
    (hXorE : ∀ idx a b, gates[idx]? = some (.Xor a b) → a < idx ∧ b < idx →
      masksE idx = (masksE a).xor (masksE b))
    (hNotC : ∀ idx a, gates[idx]? = some (.NotG a) → a < idx →
      masksC idx = (masksC a).not deltaC)
    (hNotE : ∀ idx a, gates[idx]? = some (.NotG a) → a < idx →
      masksE idx = (masksE a).not deltaE)
    (htrip : ∀ t, t < (gates.filter Gate.is_and).length →
      tripleInv triplesA triplesB deltaC deltaE t)
    (hok : ∀ i g, gates[i]? = some g → gateSpecOk i g) :
    eval_and_checks E gates
      (input_wire_state gates masksC masksE inC inE deltaC)
      (tables_eval E deltaE gates masksC masksE triplesA triplesB)
      (tables_contrib E deltaC gates masksC masksE triplesA triplesB)
      deltaE = true := by
  set inpW := input_wire_state gates masksC masksE inC inE deltaC with hinpW
  set TE := tables_eval E deltaE gates masksC masksE triplesA triplesB with hTE
  set TC := tables_contrib E deltaC gates masksC masksE triplesA triplesB with hTC
  rw [eval_and_checks]
  simp only [List.all_eq_true, List.mem_range]
  intro idx hidx
  have hgq : gates[idx]? = some gates[idx] := List.getElem?_eq_getElem hidx
  rcases hgat : gates[idx] with _ | _ | ⟨a, b⟩ | ⟨a, b⟩ | a
  all_goals rw [hgq, hgat]
  all_goals try rfl
  case And =>
    have hg : gates[idx]? = some (Gate.And a b) := by rw [hgq, hgat]
    have hab : a < idx ∧ b < idx := by
      have := hok idx _ hg
      simpa [gateSpecOk] using this
    have iha := online_invariant E deltaC deltaE gates inC inE masksC masksE
      triplesA triplesB hmask hXorC hXorE hNotC hNotE htrip hok a (by omega)
    have ihb := online_invariant E deltaC deltaE gates inC inE masksC masksE
      triplesA triplesB hmask hXorC hXorE hNotC hNotE htrip hok b (by omega)
    have ht : andIdx gates idx < (gates.filter Gate.is_and).length := by
      rw [andIdx]
      exact filter_take_lt Gate.is_and gates idx _ hg rfl
    have htI := htrip (andIdx gates idx) ht
    have h30 : andIdx gates idx * 3 = 3 * andIdx gates idx := by ring
    have h31 : andIdx gates idx * 3 + 1 = 3 * andIdx gates idx + 1 := by ring
    have h32 : andIdx gates idx * 3 + 2 = 3 * andIdx gates idx + 2 := by ring
    obtain ⟨hparts, hrel⟩ := htI
    rw [h32, h31, h30] at hrel
    have hx := hparts 0 (by omega)
    have hy := hparts 1 (by omega)
    have hz := hparts 2 (by omega)
    rw [Nat.add_zero, h30] at hx
    rw [h31] at hy
    rw [h32] at hz
    have hσ := sigma_pairInv deltaC deltaE triplesA triplesB
      (((and_gate_bits gates masksC triplesA idx).1 ^^
        (and_gate_bits gates masksE triplesB idx).1))
      (((and_gate_bits gates masksC triplesA idx).2 ^^
        (and_gate_bits gates masksE triplesB idx).2))
      (andIdx gates idx) hx.1 hx.2 hy.1 hy.2 hz.1 hz.2
    have hswapL : ((and_gate_bits gates masksC triplesA idx).1 ^^
        (and_gate_bits gates masksE triplesB idx).1) =
        (((masksC a).bit.bit ^^ (masksE a).bit.bit) ^^
          ((triplesA (3 * andIdx gates idx)).bit ^^
            (triplesB (3 * andIdx gates idx)).bit)) := by
      simp only [and_gate_bits, hg]
      exact bool_xor_swap _ _ _ _
    have hswapR : ((and_gate_bits gates masksC triplesA idx).2 ^^
        (and_gate_bits gates masksE triplesB idx).2) =
        (((masksC b).bit.bit ^^ (masksE b).bit.bit) ^^
          ((triplesA (3 * andIdx gates idx + 1)).bit ^^
            (triplesB (3 * andIdx gates idx + 1)).bit)) := by
      simp only [and_gate_bits, hg]
      exact bool_xor_swap _ _ _ _
    have hsbit := sigma_joint_bit deltaC deltaE triplesA triplesB
      ((masksC a).bit.bit ^^ (masksE a).bit.bit)
      ((masksC b).bit.bit ^^ (masksE b).bit.bit)
      (andIdx gates idx) hrel
    rw [← hswapL, ← hswapR] at hsbit
    have hTEidx : ∀ row, TE idx row =
        compute_hashes (masksE idx) (masksE a) (masksE b)
          (sigma_mac deltaE triplesB
            ((and_gate_bits gates masksC triplesA idx).1 ^^
              (and_gate_bits gates masksE triplesB idx).1)
            ((and_gate_bits gates masksC triplesA idx).2 ^^
              (and_gate_bits gates masksE triplesB idx).2)
            (andIdx gates idx) .Evaluator) row := by
      intro row
      rw [hTE, tables_eval]
      simp only [hg]
      rw [Bool.xor_comm ((and_gate_bits gates masksE triplesB idx).1),
        Bool.xor_comm ((and_gate_bits gates masksE triplesB idx).2)]
    have hTCidx : ∀ row, TC idx row =
        compute_hashes_contrib E deltaC idx (masksC idx) (masksC a) (masksC b)
          (sigma_mac deltaC triplesA
            ((and_gate_bits gates masksC triplesA idx).1 ^^
              (and_gate_bits gates masksE triplesB idx).1)
            ((and_gate_bits gates masksC triplesA idx).2 ^^
              (and_gate_bits gates masksE triplesB idx).2)
            (andIdx gates idx) .Contributor) row := by
      intro row
      rw [hTC, tables_contrib]
      simp only [hg]
    have hmain := and_gate_online E deltaC deltaE idx
      (masksC idx) (masksC a) (masksC b) (masksE idx) (masksE a) (masksE b)
      (sigma_mac deltaC triplesA
        ((and_gate_bits gates masksC triplesA idx).1 ^^
          (and_gate_bits gates masksE triplesB idx).1)
        ((and_gate_bits gates masksC triplesA idx).2 ^^
          (and_gate_bits gates masksE triplesB idx).2)
        (andIdx gates idx) .Contributor)
      (sigma_mac deltaE triplesB
        ((and_gate_bits gates masksC triplesA idx).1 ^^
          (and_gate_bits gates masksE triplesB idx).1)
        ((and_gate_bits gates masksC triplesA idx).2 ^^
          (and_gate_bits gates masksE triplesB idx).2)
        (andIdx gates idx) .Evaluator)
      (eval_wires E gates inpW TE TC a).1 (eval_wires E gates inpW TE TC b).1
      (2 * (if (eval_wires E gates inpW TE TC a).1 then 1 else 0) +
        (if (eval_wires E gates inpW TE TC b).1 then 1 else 0))
      ((TC idx (2 * (if (eval_wires E gates inpW TE TC a).1 then 1 else 0) +
          (if (eval_wires E gates inpW TE TC b).1 then 1 else 0))).xor
        (E.garbleHash (eval_wires E gates inpW TE TC a).2
          (eval_wires E gates inpW TE TC b).2 (idx % 2 ^ 32)
          (2 * (if (eval_wires E gates inpW TE TC a).1 then 1 else 0) +
            (if (eval_wires E gates inpW TE TC b).1 then 1 else 0))))
      (TE idx (2 * (if (eval_wires E gates inpW TE TC a).1 then 1 else 0) +
        (if (eval_wires E gates inpW TE TC b).1 then 1 else 0)))
      rfl
      (by rw [hTCidx, iha.2, ihb.2])
      (by rw [hTEidx])
      (hmask idx).1 (hmask idx).2 (hmask a).1 (hmask a).2
      (hmask b).1 (hmask b).2 hσ.1 hσ.2 hsbit
    simp only [if_pos hab]
    exact hmain.1

lemma assign_masks_xor_eq (delta : U128) (labels : Nat → U128)
    (abits : Nat → BitShare) (gates : List Gate) (idx a b : Nat)
    (hg : gates[idx]? = some (.Xor a b)) (hab : a < idx ∧ b < idx) :
    assign_masks delta labels abits gates idx =
      (assign_masks delta labels abits gates a).xor
        (assign_masks delta labels abits gates b) := by
  rw [assign_masks]
  simp only [hg, dif_pos hab]

lemma assign_masks_not_eq (delta : U128) (labels : Nat → U128)
    (abits : Nat → BitShare) (gates : List Gate) (idx a : Nat)
    (hg : gates[idx]? = some (.NotG a)) (ha : a < idx) :
    assign_masks delta labels abits gates idx =
      (assign_masks delta labels abits gates a).not delta := by
  rw [assign_masks]
  simp only [hg, dif_pos ha]

/-- The `blocks` split used by `ot_ands1`: wire blocks plus three-aligned
triple blocks (same computation as in the claim C7 development, restated as
a shared helper). -/
lemma blocks_formula (c : Circuit) (h : c.validate = .ok ()) :
    init_ot1_blocks c =
      .ok ((c.and_gates + c.eval_inputs + c.contrib_inputs + K - 1) / K +
        3 * ((bucket_size c * c.and_gates + K - 1) / K)) := by
  rw [init_ot1_blocks, h]
  simp only [Except.ok.injEq]
  rw [K, TRIPLES, BLOCK_SIZE, K]
  have hmul : c.and_gates * 3 * bucket_size c =
      3 * (bucket_size c * c.and_gates) := by
    ring
  rw [hmul]
  omega

lemma bucket_size_pos (c : Circuit) : 0 < bucket_size c := by
  rw [bucket_size]
  split
  · omega
  · split <;> omega

/-- A structurally valid circuit has at least one input gate: gate 0 cannot
reference an earlier wire, so it is `InContrib` or `InEval`. -/
lemma inputs_pos (c : Circuit) (h : structuralOk c) :
    c.contrib_inputs + c.eval_inputs ≠ 0 := by
  obtain ⟨hg, hne, hout⟩ := h
  have hlen : 0 < c.gates.length := by
    rcases hob : c.output_gates with _ | ⟨o, os⟩
    · exact absurd hob hne
    · have := hout o (by rw [hob]; exact List.mem_cons_self o os)
      omega
  rcases hgs : c.gates with _ | ⟨g, rest⟩
  · rw [hgs] at hlen
    simp at hlen
  · have h0 : c.gates.get? 0 = some g := by rw [hgs]; rfl
    have hspec := hg 0 g h0
    rcases g with _ | _ | ⟨a, b⟩ | ⟨a, b⟩ | a
    · rw [Circuit.contrib_inputs, hgs]
      rw [List.filter_cons]
      simp
    · rw [Circuit.eval_inputs, hgs]
      rw [List.filter_cons]
      simp
    · rw [gateSpecOk] at hspec
      omega
    · rw [gateSpecOk] at hspec
      omega
    · rw [gateSpecOk] at hspec
      omega

set_option maxHeartbeats 2000000 in
/-- Claim C1: for every circuit that passes `validate()`, every pair of
input vectors whose lengths equal the circuit's contributor- and
evaluator-input gate counts, every hash-function environment and every pair
of party randomness streams (with the `u128` deltas in range), the composed
protocol of `simulate` returns `Ok` of exactly the in-the-clear evaluation
`plain_eval`: every coin, MAC and equality check passes and the evaluator
unmasks the clear output bits. -/
theorem claim_C1_simulate (E : Env) (rA rB : PartyRand) (c : Circuit)
    (inC inE : List Bool) (hval : c.validate = .ok ())
    (hlenC : c.contrib_inputs = inC.length)
    (hlenE : c.eval_inputs = inE.length)
    (hdA : rA.delta < 2 ^ 128) (hdB : rB.delta < 2 ^ 128) :
    simulateModel E rA rB c inC inE = some (.ok (plain_eval c inC inE)) := by
  obtain ⟨hstruct, hsize⟩ := (validate_eq_ok_iff c).mp hval
  have hok : ∀ i g, c.gates[i]? = some g → gateSpecOk i g := by
    intro i g hg
    apply hstruct.1 i g
    rw [List.get?_eq_getElem?]
    exact hg
  have hblocks := blocks_formula c hval
  rw [simulateModel]
  rw [show c.validate_evaluator_input inE = .ok () from by
    rw [Circuit.validate_evaluator_input, if_pos hlenE]]
  rw [show c.validate_contributor_input inC = .ok () from by
    rw [Circuit.validate_contributor_input, if_pos hlenC]]
  rw [ot_pipeline_run E rA rB c
    ((c.and_gates + c.eval_inputs + c.contrib_inputs + K - 1) / K +
      3 * ((bucket_size c * c.and_gates + K - 1) / K)) hblocks]
  simp only []
  have hKB : (c.and_gates + c.eval_inputs + c.contrib_inputs + BLOCK_SIZE - 1) /
      BLOCK_SIZE =
      (c.and_gates + c.eval_inputs + c.contrib_inputs + K - 1) / K := by
    rw [BLOCK_SIZE]
  rw [hKB]
  have hNB : ((c.and_gates + c.eval_inputs + c.contrib_inputs + K - 1) / K +
      3 * ((bucket_size c * c.and_gates + K - 1) / K) -
      (c.and_gates + c.eval_inputs + c.contrib_inputs + K - 1) / K) / 3 =
      (bucket_size c * c.and_gates + K - 1) / K := by
    omega
  rw [hNB]
  have hinv0 : abitsInv (pipelineAbits E rA rB) (pipelineAbits E rB rA)
      rA.delta rB.delta (((bucket_size c * c.and_gates + K - 1) / K) * 384) :=
    pipelineAbits_inv E rA rB hdA hdB _
  obtain ⟨tA, tB, hlaand, htrip⟩ := laand_pipeline_spec E rA rB
    (pipelineAbits E rA rB) (pipelineAbits E rB rA)
    ((bucket_size c * c.and_gates + K - 1) / K) hinv0
  rw [hlaand]
  simp only []
  rw [show rB.coin ^^^ rA.coin = rA.coin ^^^ rB.coin from Nat.xor_comm _ _]
  set perm := new_permutation E (rA.coin ^^^ rB.coin)
    (c.and_gates * bucket_size c) with hperm
  have hLB : c.and_gates * bucket_size c ≤
      ((bucket_size c * c.and_gates + K - 1) / K) * 128 := by
    rw [K]
    rw [show c.and_gates * bucket_size c = bucket_size c * c.and_gates from
      Nat.mul_comm _ _]
    omega
  have hbuck := update_triples_spec tA tB rA.delta rB.delta perm
    (bucket_size c) c.and_gates (bucket_size_pos c)
    (by
      intro pos hpos
      apply htrip
      calc perm pos < c.and_gates * bucket_size c := by
            rw [hperm]
            exact new_permutation_lt E _ _ pos hpos
        _ ≤ ((bucket_size c * c.and_gates + K - 1) / K) * 128 := hLB)
  obtain ⟨hbA, hbB, hcomb⟩ := hbuck
  rw [hbB]
  simp only []
  rw [hbA]
  simp only []
  rw [dif_neg (inputs_pos c hstruct)]
  set cmA := combined_triples tA perm (bucket_size c)
    (fun pos => ((bucketing_msg perm (bucket_size c) tA pos).1 ^^
      (bucketing_msg perm (bucket_size c) tB pos).1)) with hcmA
  set cmB := combined_triples tB perm (bucket_size c)
    (fun pos => ((bucketing_msg perm (bucket_size c) tB pos).1 ^^
      (bucketing_msg perm (bucket_size c) tA pos).1)) with hcmB
  set base := ((c.and_gates + c.eval_inputs + c.contrib_inputs + K - 1) / K +
      3 * ((bucket_size c * c.and_gates + K - 1) / K) -
      (c.and_gates + c.eval_inputs + c.contrib_inputs + K - 1) / K) *
      BLOCK_SIZE with hbase
  set wA : Nat → BitShare := fun k => pipelineAbits E rA rB (base + k)
    with hwA
  set wB : Nat → BitShare := fun k => pipelineAbits E rB rA (base + k)
    with hwB
  set mC := assign_masks rA.delta rA.labels wA c.gates with hmC
  set mE := assign_masks rB.delta rB.labels wB c.gates with hmE
  have hw : ∀ k, pairInv (wA k) (wB k) rB.delta ∧
      pairInv (wB k) (wA k) rA.delta := by
    intro k
    rw [hwA, hwB]
    exact pipelineAbits_inv E rA rB hdA hdB (base + k + 1) (base + k)
      (Nat.lt_succ_self _)
  have hmask : ∀ idx, pairInv (mC idx).bit (mE idx).bit rB.delta ∧
      pairInv (mE idx).bit (mC idx).bit rA.delta := by
    rw [hmC, hmE]
    exact assign_masks_pairInv rA.delta rB.delta rA.labels rB.labels wA wB
      c.gates hw
  have hXorC : ∀ idx a b, c.gates[idx]? = some (.Xor a b) →
      a < idx ∧ b < idx → mC idx = (mC a).xor (mC b) := by
    intro idx a b hg hab
    rw [hmC]
    exact assign_masks_xor_eq rA.delta rA.labels wA c.gates idx a b hg hab
  have hXorE : ∀ idx a b, c.gates[idx]? = some (.Xor a b) →
      a < idx ∧ b < idx → mE idx = (mE a).xor (mE b) := by
    intro idx a b hg hab
    rw [hmE]
    exact assign_masks_xor_eq rB.delta rB.labels wB c.gates idx a b hg hab
  have hNotC : ∀ idx a, c.gates[idx]? = some (.NotG a) → a < idx →
      mC idx = (mC a).not rA.delta := by
    intro idx a hg ha
    rw [hmC]
    exact assign_masks_not_eq rA.delta rA.labels wA c.gates idx a hg ha
  have hNotE : ∀ idx a, c.gates[idx]? = some (.NotG a) → a < idx →
      mE idx = (mE a).not rB.delta := by
    intro idx a hg ha
    rw [hmE]
    exact assign_masks_not_eq rB.delta rB.labels wB c.gates idx a hg ha
  have htrip2 : ∀ t, t < (c.gates.filter Gate.is_and).length →
      tripleInv cmA cmB rA.delta rB.delta t :=
    fun t ht => hcomb t ht
  rw [show eval_input_asserts c.gates mC mE rB.delta = true from
    eval_input_asserts_true c.gates mC mE rB.delta rA.delta hmask]
  rw [if_neg (by decide : ¬((true : Bool) = false))]
  rw [show contrib_input_checks c.gates mC mE rA.delta = true from
    contrib_input_checks_true c.gates mC mE rB.delta rA.delta hmask]
  rw [if_neg (by decide : ¬((true : Bool) = false))]
  rw [show eval_and_checks E c.gates
      (input_wire_state c.gates mC mE inC inE rA.delta)
      (tables_eval E rB.delta c.gates mC mE cmA cmB)
      (tables_contrib E rA.delta c.gates mC mE cmA cmB) rB.delta = true from
    eval_and_checks_true E rA.delta rB.delta c.gates inC inE mC mE cmA cmB
      hmask hXorC hXorE hNotC hNotE htrip2 hok]
  rw [if_neg (by decide : ¬((true : Bool) = false))]
  rw [show output_share_checks c mC mE rB.delta = true from
    output_share_checks_true c mC mE rB.delta rA.delta hmask]
  rw [if_neg (by decide : ¬((true : Bool) = false))]
  congr 1
  congr 1
  rw [eval_output, plain_eval]
  apply List.map_congr_left
  intro g hg
  have hgl : g < c.gates.length := hstruct.2.2 g hg
  have hinvg := online_invariant E rA.delta rB.delta c.gates inC inE mC mE
    cmA cmB hmask hXorC hXorE hNotC hNotE htrip2 hok g hgl
  rw [hinvg.1]
  generalize plain_wire c.gates inC inE g = p
  generalize (mC g).bit.bit = lc
  generalize (mE g).bit.bit = le
  revert p lc le
  decide

/-- Witness for claim C1: the hypotheses hold at the one-gate identity
circuit with the all-zero environment and randomness, and the theorem
applies. -/
theorem claim_C1_simulate_witness :
    ((⟨[Gate.InContrib], [0]⟩ : Circuit).validate = .ok () ∧
      (⟨[Gate.InContrib], [0]⟩ : Circuit).contrib_inputs = [false].length ∧
      (⟨[Gate.InContrib], [0]⟩ : Circuit).eval_inputs = ([] : List Bool).length ∧
      (0 : Nat) < 2 ^ 128) ∧
    simulateModel
      ⟨fun _ => 0, fun _ _ => 0, fun _ _ _ _ => ⟨0, 0, false⟩, fun _ => 0,
        fun _ _ => 0, fun _ _ => 0, fun _ _ => fun _ => 0⟩
      ⟨0, 0, fun _ => 0, fun _ _ => fun _ => 0, fun _ => 0, fun _ => 0,
        fun _ => 0, fun _ => 0, fun _ => 0, fun _ => 0⟩
      ⟨0, 0, fun _ => 0, fun _ _ => fun _ => 0, fun _ => 0, fun _ => 0,
        fun _ => 0, fun _ => 0, fun _ => 0, fun _ => 0⟩
      ⟨[Gate.InContrib], [0]⟩ [false] [] =
      some (.ok (plain_eval ⟨[Gate.InContrib], [0]⟩ [false] [])) :=
  ⟨⟨rfl, rfl, rfl, by norm_num⟩,
   claim_C1_simulate _ _ _ ⟨[Gate.InContrib], [0]⟩ [false] [] rfl rfl rfl
     (by norm_num) (by norm_num)⟩

end Tandem
